import Mathlib

/-!
Verification of the `ananke` chess move-generation engine.

The Rust sources are shallowly embedded: bitboards (`u64`) become natural
numbers together with explicit 64-bit masking wherever the Rust code relies
on fixed-width wrapping; squares are naturals `0..63`; moves are the packed
16-bit naturals of `types.rs`; functions that can panic return `Option`.
-/

namespace Ananke

/-- All 64 bits set: the value of `!0u64` (`Bitboard::UNIVERSE`). -/
def U64MASK : ℕ := 2 ^ 64 - 1

/-- Bitwise complement on 64-bit values: `!x` for a `u64` `x`. -/
def not64 (x : ℕ) : ℕ := x ^^^ U64MASK

/-- `Bitboard::set_bit`: `self.0 |= 1u64 << sq`. -/
def set_bit (b sq : ℕ) : ℕ := b ||| (1 <<< sq)

/-- `Bitboard::get_bit`: `(self.0 & (1u64 << sq)) != 0`. -/
def get_bit (b sq : ℕ) : Bool := (b &&& (1 <<< sq)) != 0

/-- `Bitboard::clear_bit`: `self.0 &= !(1u64 << sq)`. -/
def clear_bit (b sq : ℕ) : ℕ := b &&& not64 (1 <<< sq)

/-- Fuel-driven population count; the fuel only bounds the recursion depth
(any fuel of at least `b` computes `u64::count_ones b`). -/
def countF : ℕ → ℕ → ℕ
  | 0, _ => 0
  | fuel + 1, b => if b = 0 then 0 else b % 2 + countF fuel (b / 2)

/-- `u64::count_ones` (population count). -/
def count (b : ℕ) : ℕ := countF b b

/-- Fuel-driven trailing-zero count; see `countF`. -/
def tzF : ℕ → ℕ → ℕ
  | 0, _ => 0
  | fuel + 1, b => if b = 0 then 0 else if b % 2 = 1 then 0 else tzF fuel (b / 2) + 1

/-- `u64::trailing_zeros`, on nonzero inputs (the code never calls it on 0). -/
def tz (b : ℕ) : ℕ := tzF b b

/-- `Bitboard::lsb_index`. -/
def lsb_index (b : ℕ) : Option ℕ := if b = 0 then none else some (tz b)

/-- `Bitboard::pop_lsb`: returns the yielded square and the updated bitboard
(`self.0 &= self.0 - 1`). -/
def pop_lsb (b : ℕ) : Option ℕ × ℕ :=
  match lsb_index b with
  | none => (none, b)
  | some l => (some l, b &&& (b - 1))

/-- Fuel-driven form of the pop-all-bits loop; see `countF`. -/
def bitListF : ℕ → ℕ → List ℕ
  | 0, _ => []
  | fuel + 1, b => if b = 0 then [] else tz b :: bitListF fuel (b &&& (b - 1))

/-- The sequence of squares yielded by repeatedly calling `pop_lsb` until the
bitboard is empty (the ubiquitous `while let Some(sq) = bb.pop_lsb()` loop). -/
def bitList (b : ℕ) : List ℕ := bitListF b b

/-! ### Basic bit lemmas -/

theorem countF_zero (fuel : ℕ) : countF fuel 0 = 0 := by
  cases fuel <;> rfl

theorem countF_congr : ∀ f1 : ℕ, ∀ b f2 : ℕ, b ≤ f1 → b ≤ f2 →
    countF f1 b = countF f2 b := by
  intro f1
  induction f1 with
  | zero =>
    intro b f2 h1 _
    have : b = 0 := by omega
    subst this
    rw [countF_zero, countF_zero]
  | succ k ih =>
    intro b f2 h1 h2
    rcases eq_or_ne b 0 with rfl | hb
    · rw [countF_zero, countF_zero]
    · obtain ⟨j, rfl⟩ : ∃ j, f2 = j + 1 := ⟨f2 - 1, by omega⟩
      show (if b = 0 then 0 else b % 2 + countF k (b / 2)) =
        (if b = 0 then 0 else b % 2 + countF j (b / 2))
      rw [if_neg hb, if_neg hb, ih (b / 2) j (by omega) (by omega)]

/-- The recursion of `count` in its original form. -/
theorem count_unfold (b : ℕ) :
    count b = if b = 0 then 0 else b % 2 + count (b / 2) := by
  rcases eq_or_ne b 0 with rfl | hb
  · rfl
  · obtain ⟨j, hj⟩ : ∃ j, b = j + 1 := ⟨b - 1, by omega⟩
    rw [if_neg hb]
    have h1 : count b = countF (j + 1) b := by unfold count; rw [hj]
    rw [h1]
    show (if b = 0 then 0 else b % 2 + countF j (b / 2)) = _
    rw [if_neg hb, countF_congr j (b / 2) (b / 2) (by omega) (by omega)]
    rfl

theorem tzF_zero (fuel : ℕ) : tzF fuel 0 = 0 := by
  cases fuel <;> rfl

theorem tzF_congr : ∀ f1 : ℕ, ∀ b f2 : ℕ, b ≤ f1 → b ≤ f2 →
    tzF f1 b = tzF f2 b := by
  intro f1
  induction f1 with
  | zero =>
    intro b f2 h1 _
    have : b = 0 := by omega
    subst this
    rw [tzF_zero, tzF_zero]
  | succ k ih =>
    intro b f2 h1 h2
    rcases eq_or_ne b 0 with rfl | hb
    · rw [tzF_zero, tzF_zero]
    · obtain ⟨j, rfl⟩ : ∃ j, f2 = j + 1 := ⟨f2 - 1, by omega⟩
      show (if b = 0 then 0 else if b % 2 = 1 then 0 else tzF k (b / 2) + 1) =
        (if b = 0 then 0 else if b % 2 = 1 then 0 else tzF j (b / 2) + 1)
      rw [if_neg hb, if_neg hb, ih (b / 2) j (by omega) (by omega)]

/-- The recursion of `tz` in its original form. -/
theorem tz_unfold (b : ℕ) :
    tz b = if b = 0 then 0 else if b % 2 = 1 then 0 else tz (b / 2) + 1 := by
  rcases eq_or_ne b 0 with rfl | hb
  · rfl
  · obtain ⟨j, hj⟩ : ∃ j, b = j + 1 := ⟨b - 1, by omega⟩
    rw [if_neg hb]
    have h1 : tz b = tzF (j + 1) b := by unfold tz; rw [hj]
    rw [h1]
    show (if b = 0 then 0 else if b % 2 = 1 then 0 else tzF j (b / 2) + 1) = _
    rw [if_neg hb, tzF_congr j (b / 2) (b / 2) (by omega) (by omega)]
    rfl

theorem bitListF_zero (fuel : ℕ) : bitListF fuel 0 = [] := by
  cases fuel <;> rfl

theorem land_pred_le (b : ℕ) (hb : b ≠ 0) : b &&& (b - 1) ≤ b - 1 :=
  Nat.and_le_right

theorem bitListF_congr : ∀ f1 : ℕ, ∀ b f2 : ℕ, b ≤ f1 → b ≤ f2 →
    bitListF f1 b = bitListF f2 b := by
  intro f1
  induction f1 with
  | zero =>
    intro b f2 h1 _
    have : b = 0 := by omega
    subst this
    rw [bitListF_zero, bitListF_zero]
  | succ k ih =>
    intro b f2 h1 h2
    rcases eq_or_ne b 0 with rfl | hb
    · rw [bitListF_zero, bitListF_zero]
    · obtain ⟨j, rfl⟩ : ∃ j, f2 = j + 1 := ⟨f2 - 1, by omega⟩
      show (if b = 0 then [] else tz b :: bitListF k (b &&& (b - 1))) =
        (if b = 0 then [] else tz b :: bitListF j (b &&& (b - 1)))
      have hle : b &&& (b - 1) ≤ b - 1 := Nat.and_le_right
      rw [if_neg hb, if_neg hb, ih (b &&& (b - 1)) j (by omega) (by omega)]

/-- The recursion of `bitList` in its original form. -/
theorem bitList_unfold (b : ℕ) :
    bitList b = if b = 0 then [] else tz b :: bitList (b &&& (b - 1)) := by
  rcases eq_or_ne b 0 with rfl | hb
  · rfl
  · obtain ⟨j, hj⟩ : ∃ j, b = j + 1 := ⟨b - 1, by omega⟩
    rw [if_neg hb]
    have h1 : bitList b = bitListF (j + 1) b := by unfold bitList; rw [hj]
    rw [h1]
    show (if b = 0 then [] else tz b :: bitListF j (b &&& (b - 1))) = _
    have hle : b &&& (b - 1) ≤ b - 1 := Nat.and_le_right
    rw [if_neg hb,
      bitListF_congr j (b &&& (b - 1)) (b &&& (b - 1)) (by omega) (by omega)]
    rfl

theorem get_bit_eq_testBit (b sq : ℕ) : get_bit b sq = b.testBit sq := by
  unfold get_bit
  rw [Nat.one_shiftLeft, Nat.and_two_pow]
  cases h : b.testBit sq <;> simp [h]

theorem tb0_even (k : ℕ) : (2 * k).testBit 0 = false := by
  simp [Nat.testBit_zero]

theorem tb0_odd (k : ℕ) : (2 * k + 1).testBit 0 = true := by
  simp [Nat.testBit_zero]
  omega

theorem tbS_even (k i : ℕ) : (2 * k).testBit (i + 1) = k.testBit i := by
  rw [Nat.testBit_succ]; congr 1; omega

theorem tbS_odd (k i : ℕ) : (2 * k + 1).testBit (i + 1) = k.testBit i := by
  rw [Nat.testBit_succ]; congr 1; omega

theorem testBit_true_lt (b i : ℕ) (hb : b < 2 ^ 64) (h : b.testBit i = true) :
    i < 64 := by
  by_contra hge
  have : b < 2 ^ i := lt_of_lt_of_le hb (Nat.pow_le_pow_right (by norm_num) (by omega))
  rw [Nat.testBit_lt_two_pow this] at h
  exact Bool.false_ne_true h

theorem land_pred_odd (k : ℕ) : (2 * k + 1) &&& (2 * k) = 2 * k := by
  apply Nat.eq_of_testBit_eq
  intro i
  cases i with
  | zero => simp [Nat.testBit_land, tb0_even, tb0_odd]
  | succ i => simp [Nat.testBit_land, tbS_even, tbS_odd]

theorem land_pred_even (k : ℕ) (hk : k ≠ 0) :
    (2 * k) &&& (2 * k - 1) = 2 * (k &&& (k - 1)) := by
  have h1 : 2 * k - 1 = 2 * (k - 1) + 1 := by omega
  rw [h1]
  apply Nat.eq_of_testBit_eq
  intro i
  cases i with
  | zero => simp [Nat.testBit_land, tb0_even, tb0_odd]
  | succ i => simp [Nat.testBit_land, tbS_even, tbS_odd]

theorem tz_odd (k : ℕ) : tz (2 * k + 1) = 0 := by
  rw [tz_unfold]; simp; omega

theorem tz_even (k : ℕ) (hk : k ≠ 0) : tz (2 * k) = tz k + 1 := by
  rw [tz_unfold]
  have h2 : 2 * k ≠ 0 := by omega
  have h3 : ¬(2 * k % 2 = 1) := by omega
  simp [h2, h3, Nat.mul_div_cancel_left k (by norm_num : 0 < 2)]

theorem tz_testBit (b : ℕ) (hb : b ≠ 0) : b.testBit (tz b) = true := by
  induction b using Nat.strong_induction_on with
  | _ b ih =>
    rcases Nat.even_or_odd b with he | ho
    · obtain ⟨k, hk⟩ := he
      have hb2 : b = 2 * k := by omega
      subst hb2
      have hk0 : k ≠ 0 := by omega
      rw [tz_even k hk0, tbS_even]
      exact ih k (by omega) hk0
    · obtain ⟨k, hk⟩ := ho
      subst hk
      rw [tz_odd, tb0_odd]

theorem tz_min : ∀ b : ℕ, b ≠ 0 → ∀ j < tz b, b.testBit j = false := by
  intro b
  induction b using Nat.strong_induction_on with
  | _ b ih =>
    intro hb j hj
    rcases Nat.even_or_odd b with he | ho
    · obtain ⟨k, hk⟩ := he
      have hb2 : b = 2 * k := by omega
      subst hb2
      have hk0 : k ≠ 0 := by omega
      rw [tz_even k hk0] at hj
      cases j with
      | zero => exact tb0_even k
      | succ j => rw [tbS_even]; exact ih k (by omega) hk0 j (by omega)
    · obtain ⟨k, hk⟩ := ho
      subst hk
      rw [tz_odd] at hj
      omega

theorem testBit_land_pred (b : ℕ) (hb : b ≠ 0) (i : ℕ) :
    (b &&& (b - 1)).testBit i = (b.testBit i && decide (i ≠ tz b)) := by
  induction b using Nat.strong_induction_on generalizing i with
  | _ b ih =>
    rcases Nat.even_or_odd b with he | ho
    · obtain ⟨k, hk⟩ := he
      have hb2 : b = 2 * k := by omega
      subst hb2
      have hk0 : k ≠ 0 := by omega
      rw [land_pred_even k hk0, tz_even k hk0]
      cases i with
      | zero => simp [tb0_even]
      | succ i =>
        rw [tbS_even, tbS_even, ih k (by omega) hk0 i]
        simp
    · obtain ⟨k, hk⟩ := ho
      subst hk
      have h1 : 2 * k + 1 - 1 = 2 * k := by omega
      rw [h1, land_pred_odd, tz_odd]
      cases i with
      | zero => simp [tb0_even, tb0_odd]
      | succ i => simp [tbS_even, tbS_odd]

theorem count_even (k : ℕ) : count (2 * k) = count k := by
  rcases eq_or_ne k 0 with rfl | hk
  · norm_num
  · rw [count_unfold]
    have h2 : 2 * k ≠ 0 := by omega
    simp [h2, Nat.mul_div_cancel_left k (by norm_num : 0 < 2)]

theorem count_odd (k : ℕ) : count (2 * k + 1) = count k + 1 := by
  rw [count_unfold]
  have h2 : 2 * k + 1 ≠ 0 := by omega
  have h3 : (2 * k + 1) / 2 = k := by omega
  simp [h2, h3]
  omega

theorem count_pop (b : ℕ) (hb : b ≠ 0) : count (b &&& (b - 1)) + 1 = count b := by
  induction b using Nat.strong_induction_on with
  | _ b ih =>
    rcases Nat.even_or_odd b with he | ho
    · obtain ⟨k, hk⟩ := he
      have hb2 : b = 2 * k := by omega
      subst hb2
      have hk0 : k ≠ 0 := by omega
      rw [land_pred_even k hk0, count_even, count_even, ih k (by omega) hk0]
    · obtain ⟨k, hk⟩ := ho
      subst hk
      have h1 : 2 * k + 1 - 1 = 2 * k := by omega
      rw [h1, land_pred_odd, count_even, count_odd]

theorem bitList_cons (b : ℕ) (hb : b ≠ 0) :
    bitList b = tz b :: bitList (b &&& (b - 1)) := by
  rw [bitList_unfold]; simp [hb]

theorem land_pred_lt (b : ℕ) (hb : b ≠ 0) : b &&& (b - 1) < b :=
  Nat.lt_of_le_of_lt Nat.and_le_right (Nat.sub_lt (Nat.pos_of_ne_zero hb) one_pos)

theorem mem_bitList (b : ℕ) (i : ℕ) : i ∈ bitList b ↔ b.testBit i = true := by
  induction b using Nat.strong_induction_on generalizing i with
  | _ b ih =>
    rcases eq_or_ne b 0 with rfl | hb
    · simp [bitList_unfold, Nat.zero_testBit]
    · rw [bitList_cons b hb, List.mem_cons, ih _ (land_pred_lt b hb) i,
        testBit_land_pred b hb i]
      constructor
      · rintro (rfl | h)
        · exact tz_testBit b hb
        · simp at h; exact h.1
      · intro h
        rcases eq_or_ne i (tz b) with rfl | hne
        · exact Or.inl rfl
        · exact Or.inr (by simp [h, hne])

theorem bitList_sorted (b : ℕ) : List.Pairwise (· < ·) (bitList b) := by
  induction b using Nat.strong_induction_on with
  | _ b ih =>
    rcases eq_or_ne b 0 with rfl | hb
    · simp [bitList_unfold]
    · rw [bitList_cons b hb]
      refine List.Pairwise.cons ?_ (ih _ (land_pred_lt b hb))
      intro j hj
      rw [mem_bitList, testBit_land_pred b hb j] at hj
      simp at hj
      rcases Nat.lt_trichotomy (tz b) j with h | h | h
      · exact h
      · exact absurd h.symm hj.2
      · rw [tz_min b hb j h] at hj
        exact absurd hj.1 (by simp)

theorem count_eq_length_bitList (b : ℕ) : count b = (bitList b).length := by
  induction b using Nat.strong_induction_on with
  | _ b ih =>
    rcases eq_or_ne b 0 with rfl | hb
    · simp [bitList_unfold, count_unfold]
    · rw [bitList_cons b hb]
      simp only [List.length_cons]
      rw [← ih _ (land_pred_lt b hb), count_pop b hb]

/-! ### `types.rs`: colors, piece types, moves, castling rights -/

/-- `Color` from `types.rs`. -/
inductive Color where
  | White
  | Black
deriving DecidableEq, Repr

/-- `Color::opposite`. -/
def Color.opposite : Color → Color
  | Color.White => Color.Black
  | Color.Black => Color.White

/-- Piece types are the array indices `Pawn=0 .. King=5` of `types.rs`. -/
abbrev PieceType := Fin 6

def Pawn : PieceType := 0
def Knight : PieceType := 1
def Bishop : PieceType := 2
def Rook : PieceType := 3
def Queen : PieceType := 4
def King : PieceType := 5

namespace Move

def QUIET : ℕ := 0b0000
def DOUBLE_PAWN_PUSH : ℕ := 0b0001
def K_CASTLE : ℕ := 0b0010
def Q_CASTLE : ℕ := 0b0011
def CAPTURE : ℕ := 0b0100
def EP_CAPTURE : ℕ := 0b0101
def N_PROMO : ℕ := 0b1000
def B_PROMO : ℕ := 0b1001
def R_PROMO : ℕ := 0b1010
def Q_PROMO : ℕ := 0b1011
def N_PROMO_CAP : ℕ := 0b1100
def B_PROMO_CAP : ℕ := 0b1101
def R_PROMO_CAP : ℕ := 0b1110
def Q_PROMO_CAP : ℕ := 0b1111

end Move

/-- `Move::new`: pack `(from, to, flag)` into 16 bits
(`Move(flag << 12 | from_bits | to_bits)` on `u16`, hence the final
truncation to 16 bits). -/
def mkMove (f t flag : ℕ) : ℕ :=
  (flag <<< 12 ||| f <<< 6 ||| t) % 2 ^ 16

/-- `Move::from`. -/
def mfrom (m : ℕ) : ℕ := (m >>> 6) &&& 0x3F

/-- `Move::to`. -/
def mto (m : ℕ) : ℕ := m &&& 0x3F

/-- `Move::flag` (for 16-bit move values `m >> 12` is the flag nibble). -/
def mflag (m : ℕ) : ℕ := m >>> 12

/-- `Move::is_capture`: tests bit 14 (`m & 0b0100_0000_0000_0000 != 0`). -/
def is_capture (m : ℕ) : Bool := (m &&& 0x4000) != 0

/-- `Move::is_promotion`: tests bit 15. -/
def is_promotion (m : ℕ) : Bool := (m &&& 0x8000) != 0

namespace CastlingRights

def WHITE_KINGSIDE : ℕ := 1
def WHITE_QUEENSIDE : ℕ := 2
def BLACK_KINGSIDE : ℕ := 4
def BLACK_QUEENSIDE : ℕ := 8

end CastlingRights

/-- `CastlingRights::remove`: `self.0 &= !mask` on `u8`. -/
def cr_remove (r mask : ℕ) : ℕ := r &&& (mask ^^^ 0xFF)

/-- `CastlingRights::can_castle_kingside`. -/
def can_castle_kingside (r : ℕ) (c : Color) : Bool :=
  match c with
  | Color.White => (r &&& CastlingRights.WHITE_KINGSIDE) != 0
  | Color.Black => (r &&& CastlingRights.BLACK_KINGSIDE) != 0

/-- `CastlingRights::can_castle_queenside`. -/
def can_castle_queenside (r : ℕ) (c : Color) : Bool :=
  match c with
  | Color.White => (r &&& CastlingRights.WHITE_QUEENSIDE) != 0
  | Color.Black => (r &&& CastlingRights.BLACK_QUEENSIDE) != 0

/-! ### `movegen.rs`: leaper attacks and slow slider attacks -/

def NOT_A_FILE : ℕ := 0xFEFEFEFEFEFEFEFE
def NOT_H_FILE : ℕ := 0x7F7F7F7F7F7F7F7F
def NOT_AB_FILE : ℕ := 0xFCFCFCFCFCFCFCFC
def NOT_GH_FILE : ℕ := 0x3F3F3F3F3F3F3F3F

/-- `generate_knight_attacks`.  The final 64-bit truncation models the
`u64` shifts dropping bits past bit 63. -/
def generate_knight_attacks (sq : ℕ) : ℕ :=
  let b := 1 <<< sq
  ((if b &&& NOT_H_FILE ≠ 0 then b <<< 17 else 0) |||
   (if b &&& NOT_A_FILE ≠ 0 then b <<< 15 else 0) |||
   (if b &&& NOT_H_FILE ≠ 0 then b >>> 15 else 0) |||
   (if b &&& NOT_A_FILE ≠ 0 then b >>> 17 else 0) |||
   (if b &&& NOT_GH_FILE ≠ 0 then b <<< 10 else 0) |||
   (if b &&& NOT_AB_FILE ≠ 0 then b <<< 6 else 0) |||
   (if b &&& NOT_GH_FILE ≠ 0 then b >>> 6 else 0) |||
   (if b &&& NOT_AB_FILE ≠ 0 then b >>> 10 else 0)) &&& U64MASK

/-- `generate_king_attacks`, with the same 64-bit truncation. -/
def generate_king_attacks (sq : ℕ) : ℕ :=
  let b := 1 <<< sq
  ((b <<< 8) ||| (b >>> 8) |||
   (if b &&& NOT_H_FILE ≠ 0 then (b <<< 1) ||| (b <<< 9) ||| (b >>> 7) else 0) |||
   (if b &&& NOT_A_FILE ≠ 0 then (b >>> 1) ||| (b <<< 7) ||| (b >>> 9) else 0)) &&& U64MASK

/-- `generate_pawn_attacks`, with the same 64-bit truncation. -/
def generate_pawn_attacks (sq : ℕ) (color : Color) : ℕ :=
  let b := 1 <<< sq
  (match color with
   | Color.White =>
     (if b &&& NOT_H_FILE ≠ 0 then b <<< 9 else 0) |||
     (if b &&& NOT_A_FILE ≠ 0 then b <<< 7 else 0)
   | Color.Black =>
     (if b &&& NOT_H_FILE ≠ 0 then b >>> 7 else 0) |||
     (if b &&& NOT_A_FILE ≠ 0 then b >>> 9 else 0)) &&& U64MASK

/-- One ray of the slow slider walk: `for i in 1..8 { ... }` with the
break-on-edge / break-after-blocker logic of
`generate_rook_attacks_slow` / `generate_bishop_attacks_slow`.
`r`,`f` are the rank and file reached so far; fuel counts remaining steps. -/
def slideRay (blockers : ℕ) (dr df r f : ℤ) : ℕ → ℕ
  | 0 => 0
  | fuel + 1 =>
    let r2 := r + dr
    let f2 := f + df
    if 0 ≤ r2 ∧ r2 ≤ 7 ∧ 0 ≤ f2 ∧ f2 ≤ 7 then
      let s := (r2 * 8 + f2).toNat
      if get_bit blockers s then 1 <<< s
      else (1 <<< s) ||| slideRay blockers dr df r2 f2 fuel
    else 0

/-- `generate_rook_attacks_slow`. -/
def generate_rook_attacks_slow (sq blockers : ℕ) : ℕ :=
  let tr : ℤ := (sq / 8 : ℕ)
  let tf : ℤ := (sq % 8 : ℕ)
  slideRay blockers 1 0 tr tf 7 ||| slideRay blockers (-1) 0 tr tf 7 |||
  slideRay blockers 0 1 tr tf 7 ||| slideRay blockers 0 (-1) tr tf 7

/-- `generate_bishop_attacks_slow`. -/
def generate_bishop_attacks_slow (sq blockers : ℕ) : ℕ :=
  let tr : ℤ := (sq / 8 : ℕ)
  let tf : ℤ := (sq % 8 : ℕ)
  slideRay blockers 1 1 tr tf 7 ||| slideRay blockers 1 (-1) tr tf 7 |||
  slideRay blockers (-1) 1 tr tf 7 ||| slideRay blockers (-1) (-1) tr tf 7

/-! ### `magic.rs`: relevance masks and the initialized lookup behaviour -/

/-- `mask_rook`: inner rank/file squares of `sq` (edges excluded). -/
def mask_rook (sq : ℕ) : ℕ :=
  let tr := sq / 8
  let tf := sq % 8
  (((List.range' (tr + 1) (6 - tr)).map (fun r => r * 8 + tf)) ++
   ((List.range' 1 (tr - 1)).map (fun r => r * 8 + tf)) ++
   ((List.range' (tf + 1) (6 - tf)).map (fun f => tr * 8 + f)) ++
   ((List.range' 1 (tf - 1)).map (fun f => tr * 8 + f))).foldl set_bit 0

/-- One ray of `mask_bishop`'s `while r > 0 && r < 7 && f > 0 && f < 7` loop. -/
def bishopMaskRay (dr df r f : ℤ) : ℕ → ℕ
  | 0 => 0
  | fuel + 1 =>
    if 0 < r ∧ r < 7 ∧ 0 < f ∧ f < 7 then
      (1 <<< (r * 8 + f).toNat) ||| bishopMaskRay dr df (r + dr) (f + df) fuel
    else 0

/-- `mask_bishop`: inner diagonal squares of `sq`. -/
def mask_bishop (sq : ℕ) : ℕ :=
  let tr : ℤ := (sq / 8 : ℕ)
  let tf : ℤ := (sq % 8 : ℕ)
  bishopMaskRay 1 1 (tr + 1) (tf + 1) 7 ||| bishopMaskRay 1 (-1) (tr + 1) (tf - 1) 7 |||
  bishopMaskRay (-1) 1 (tr - 1) (tf + 1) 7 ||| bishopMaskRay (-1) (-1) (tr - 1) (tf - 1) 7

/-- Behaviour of `magic::get_rook_attacks` after `magic::initialize()` has
completed: the table lookup returns the slow ray-walk attacks of the blocker
set restricted to the square's relevance mask.  This equation is proved
against the faithful table model in the magic-correctness theorem below;
the move generator and the attack query are stated against it, matching the
spec's "initialize before first query" contract. -/
def rook_attacks_init (sq blockers : ℕ) : ℕ :=
  generate_rook_attacks_slow sq (blockers &&& mask_rook sq)

/-- Behaviour of `magic::get_bishop_attacks` after initialization; see
`rook_attacks_init`. -/
def bishop_attacks_init (sq blockers : ℕ) : ℕ :=
  generate_bishop_attacks_slow sq (blockers &&& mask_bishop sq)

/-! ### `board.rs`: the position -/

/-- `Board` from `board.rs`; piece arrays are indexed by piece type. -/
structure Board where
  white_pieces : Fin 6 → ℕ
  black_pieces : Fin 6 → ℕ
  white_occupancy : ℕ
  black_occupancy : ℕ
  all_occupancy : ℕ
  side_to_move : Color
  castling_rights : ℕ
  en_passant_sq : Option ℕ
  halfmove_clock : ℕ

/-- The piece array of a given color. -/
def piecesOf (b : Board) (c : Color) : Fin 6 → ℕ :=
  match c with
  | Color.White => b.white_pieces
  | Color.Black => b.black_pieces

/-- `Board::new`. -/
def Board.empty : Board where
  white_pieces := fun _ => 0
  black_pieces := fun _ => 0
  white_occupancy := 0
  black_occupancy := 0
  all_occupancy := 0
  side_to_move := Color.White
  castling_rights := 0
  en_passant_sq := none
  halfmove_clock := 0

/-- `Board::update_occupancies`. -/
def update_occupancies (b : Board) : Board :=
  let w := b.white_pieces 0 ||| b.white_pieces 1 ||| b.white_pieces 2 |||
           b.white_pieces 3 ||| b.white_pieces 4 ||| b.white_pieces 5
  let bl := b.black_pieces 0 ||| b.black_pieces 1 ||| b.black_pieces 2 |||
            b.black_pieces 3 ||| b.black_pieces 4 ||| b.black_pieces 5
  { b with white_occupancy := w, black_occupancy := bl, all_occupancy := w ||| bl }

/-- `Board::get_piece_type_at`: scan the color's piece sets in index order. -/
def get_piece_type_at (b : Board) (sq : ℕ) (c : Color) : Option PieceType :=
  let p := piecesOf b c
  if get_bit (p 0) sq then some 0
  else if get_bit (p 1) sq then some 1
  else if get_bit (p 2) sq then some 2
  else if get_bit (p 3) sq then some 3
  else if get_bit (p 4) sq then some 4
  else if get_bit (p 5) sq then some 5
  else none

/-- `Board::remove_piece`. -/
def remove_piece (b : Board) (pt : PieceType) (c : Color) (sq : ℕ) : Board :=
  match c with
  | Color.White =>
    { b with white_pieces := Function.update b.white_pieces pt (clear_bit (b.white_pieces pt) sq) }
  | Color.Black =>
    { b with black_pieces := Function.update b.black_pieces pt (clear_bit (b.black_pieces pt) sq) }

/-- `Board::add_piece`. -/
def add_piece (b : Board) (pt : PieceType) (c : Color) (sq : ℕ) : Board :=
  match c with
  | Color.White =>
    { b with white_pieces := Function.update b.white_pieces pt (set_bit (b.white_pieces pt) sq) }
  | Color.Black =>
    { b with black_pieces := Function.update b.black_pieces pt (set_bit (b.black_pieces pt) sq) }

/-- `Board::get_king_square` (`None` models the `expect` panic). -/
def get_king_square (b : Board) (c : Color) : Option ℕ :=
  lsb_index (piecesOf b c King)

/-- `Board::is_square_attacked`, with the slider lookups in their
post-initialization form. -/
def is_square_attacked (b : Board) (sq : ℕ) (attacker : Color) : Bool :=
  let is_white_attacker := attacker = Color.White
  let pawn_hit :=
    if is_white_attacker then
      count (generate_pawn_attacks sq Color.Black &&& b.white_pieces 0) > 0
    else
      count (generate_pawn_attacks sq Color.White &&& b.black_pieces 0) > 0
  let knights := piecesOf b attacker Knight
  let kings := piecesOf b attacker King
  let rooks := piecesOf b attacker Rook
  let queens := piecesOf b attacker Queen
  let bishops := piecesOf b attacker Bishop
  pawn_hit ||
  count (generate_knight_attacks sq &&& knights) > 0 ||
  count (generate_king_attacks sq &&& kings) > 0 ||
  count (rook_attacks_init sq b.all_occupancy &&& (rooks ||| queens)) > 0 ||
  count (bishop_attacks_init sq b.all_occupancy &&& (bishops ||| queens)) > 0

/-! ### `movegen.rs`: the pseudo-legal move generator

Each `while let Some(sq) = bb.pop_lsb()` loop becomes a traversal of
`bitList bb`, and `MoveList::push` becomes list append, preserving the
emission order of the Rust code. -/

/-- `MoveGenerator::generate_pawn_moves`. -/
def pawn_moves (b : Board) : List ℕ :=
  let white := b.side_to_move = Color.White
  let pawns := if white then b.white_pieces 0 else b.black_pieces 0
  let enemies := if white then b.black_occupancy else b.white_occupancy
  let empty := not64 b.all_occupancy
  let promotion_rank := if white then 7 else 0
  let single_push := if white then (pawns <<< 8) &&& empty else (pawns >>> 8) &&& empty
  let singles := (bitList single_push).flatMap (fun t =>
    let f := if white then t - 8 else t + 8
    if t / 8 = promotion_rank then
      [mkMove f t Move.N_PROMO, mkMove f t Move.B_PROMO,
       mkMove f t Move.R_PROMO, mkMove f t Move.Q_PROMO]
    else [mkMove f t Move.QUIET])
  let double_push := if white then ((single_push <<< 8) &&& empty) &&& 0x000000FF00000000
                     else ((single_push >>> 8) &&& empty) &&& 0x000000FF00000000
  let doubles := (bitList double_push).map (fun t =>
    mkMove (if white then t - 16 else t + 16) t Move.DOUBLE_PAWN_PUSH)
  let left_attack := if white then (pawns <<< 7) &&& NOT_H_FILE
                     else (pawns >>> 9) &&& NOT_H_FILE
  let right_attack := if white then (pawns <<< 9) &&& NOT_A_FILE
                      else (pawns >>> 7) &&& NOT_A_FILE
  let lefts := (bitList (left_attack &&& enemies)).flatMap (fun t =>
    let f := if white then t - 7 else t + 9
    if t / 8 = promotion_rank then
      [mkMove f t Move.N_PROMO_CAP, mkMove f t Move.B_PROMO_CAP,
       mkMove f t Move.R_PROMO_CAP, mkMove f t Move.Q_PROMO_CAP]
    else [mkMove f t Move.CAPTURE])
  let rights := (bitList (right_attack &&& enemies)).flatMap (fun t =>
    let f := if white then t - 9 else t + 7
    if t / 8 = promotion_rank then
      [mkMove f t Move.N_PROMO_CAP, mkMove f t Move.B_PROMO_CAP,
       mkMove f t Move.R_PROMO_CAP, mkMove f t Move.Q_PROMO_CAP]
    else [mkMove f t Move.CAPTURE])
  let eps :=
    match b.en_passant_sq with
    | none => []
    | some ep =>
      (if left_attack &&& (1 <<< ep) ≠ 0 then
        [mkMove (if white then ep - 7 else ep + 9) ep Move.EP_CAPTURE] else []) ++
      (if right_attack &&& (1 <<< ep) ≠ 0 then
        [mkMove (if white then ep - 9 else ep + 7) ep Move.EP_CAPTURE] else [])
  singles ++ doubles ++ lefts ++ rights ++ eps

/-- `MoveGenerator::generate_knight_moves`. -/
def knight_moves (b : Board) : List ℕ :=
  let white := b.side_to_move = Color.White
  let knights := if white then b.white_pieces 1 else b.black_pieces 1
  let friends := if white then b.white_occupancy else b.black_occupancy
  let enemies := if white then b.black_occupancy else b.white_occupancy
  (bitList knights).flatMap (fun f =>
    (bitList (generate_knight_attacks f &&& not64 friends)).map (fun t =>
      mkMove f t (if get_bit enemies t then Move.CAPTURE else Move.QUIET)))

/-- `MoveGenerator::generate_castling_moves`. -/
def castling_moves (b : Board) (king_sq : ℕ) (white : Bool) : List ℕ :=
  let color := if white then Color.White else Color.Black
  let king_start := if white then 4 else 60
  let ks_target := if white then 6 else 62
  let qs_target := if white then 2 else 58
  let rights := b.castling_rights
  if king_sq ≠ king_start then []
  else
    let them := if white then Color.Black else Color.White
    let f_sq := if white then 5 else 61
    let g_sq := if white then 6 else 62
    let kside :=
      if can_castle_kingside rights color ∧
         ¬get_bit b.all_occupancy f_sq ∧ ¬get_bit b.all_occupancy g_sq ∧
         ¬is_square_attacked b king_start them ∧
         ¬is_square_attacked b f_sq them ∧
         ¬is_square_attacked b g_sq them then
        [mkMove king_start ks_target Move.K_CASTLE]
      else []
    let d_sq := if white then 3 else 59
    let c_sq := if white then 2 else 58
    let b_sq := if white then 1 else 57
    let qside :=
      if can_castle_queenside rights color ∧
         ¬get_bit b.all_occupancy d_sq ∧ ¬get_bit b.all_occupancy c_sq ∧
         ¬get_bit b.all_occupancy b_sq ∧
         ¬is_square_attacked b king_start them ∧
         ¬is_square_attacked b d_sq them ∧
         ¬is_square_attacked b c_sq them then
        [mkMove king_start qs_target Move.Q_CASTLE]
      else []
    kside ++ qside

/-- `MoveGenerator::generate_king_moves` (only the first popped king is
processed: `if let Some(from_sq) = kings.pop_lsb()`). -/
def king_moves (b : Board) : List ℕ :=
  let white := b.side_to_move = Color.White
  let kings := if white then b.white_pieces 5 else b.black_pieces 5
  let friends := if white then b.white_occupancy else b.black_occupancy
  let enemies := if white then b.black_occupancy else b.white_occupancy
  match lsb_index kings with
  | none => []
  | some f =>
    ((bitList (generate_king_attacks f &&& not64 friends)).map (fun t =>
      mkMove f t (if get_bit enemies t then Move.CAPTURE else Move.QUIET))) ++
    castling_moves b f (decide white)

/-- One instantiation of the `generate` closure in
`MoveGenerator::generate_slider_moves`. -/
def slider_moves_for (b : Board) (piece_type : PieceType)
    (is_rook is_bishop : Bool) : List ℕ :=
  let white := b.side_to_move = Color.White
  let friends := if white then b.white_occupancy else b.black_occupancy
  let enemies := if white then b.black_occupancy else b.white_occupancy
  let pieces := if white then b.white_pieces piece_type else b.black_pieces piece_type
  (bitList pieces).flatMap (fun f =>
    let attacks :=
      ((if is_rook then rook_attacks_init f b.all_occupancy else 0) |||
       (if is_bishop then bishop_attacks_init f b.all_occupancy else 0)) &&&
      not64 friends
    (bitList attacks).map (fun t =>
      mkMove f t (if get_bit enemies t then Move.CAPTURE else Move.QUIET)))

/-- `MoveGenerator::generate_slider_moves`. -/
def slider_moves (b : Board) : List ℕ :=
  slider_moves_for b Rook true false ++
  slider_moves_for b Bishop false true ++
  slider_moves_for b Queen true true

/-- `MoveGenerator::generate_all`. -/
def generate_all (b : Board) : List ℕ :=
  pawn_moves b ++ knight_moves b ++ king_moves b ++ slider_moves b

/-! ### `Board::make_move` -/

/-- The rights mask cleared when a side castles or its king moves
(`WHITE_KINGSIDE | WHITE_QUEENSIDE` resp. the black pair). -/
def both_rights (us : Color) : ℕ :=
  match us with
  | Color.White => CastlingRights.WHITE_KINGSIDE ||| CastlingRights.WHITE_QUEENSIDE
  | Color.Black => CastlingRights.BLACK_KINGSIDE ||| CastlingRights.BLACK_QUEENSIDE

/-- The promotion piece decoded from the flag
(`None` models the `panic!("Invalid promo flag")`). -/
def promoPiece (flag : ℕ) : Option PieceType :=
  if flag = Move.N_PROMO ∨ flag = Move.N_PROMO_CAP then some Knight
  else if flag = Move.B_PROMO ∨ flag = Move.B_PROMO_CAP then some Bishop
  else if flag = Move.R_PROMO ∨ flag = Move.R_PROMO_CAP then some Rook
  else if flag = Move.Q_PROMO ∨ flag = Move.Q_PROMO_CAP then some Queen
  else none

/-- Step 2 of `Board::make_move`: relocate the rook and clear both rights
when the king moved two squares. -/
def mm_castle_step (n1 : Board) (pt : PieceType) (us : Color) (f t : ℕ) : Board :=
  if pt = King ∧ ((f : ℤ) - (t : ℤ)).natAbs = 2 then
    let moved :=
      if t > f then
        let rook_from := if us = Color.White then 7 else 63
        let rook_to := if us = Color.White then 5 else 61
        add_piece (remove_piece n1 Rook us rook_from) Rook us rook_to
      else
        let rook_from := if us = Color.White then 0 else 56
        let rook_to := if us = Color.White then 3 else 59
        add_piece (remove_piece n1 Rook us rook_from) Rook us rook_to
    { moved with castling_rights := cr_remove moved.castling_rights (both_rights us) }
  else n1

/-- The castling-rights adjustment of step 3 when a rook is captured on a
corner square. -/
def mm_rook_captured (nc : Board) (them : Color) (t : ℕ) : Board :=
  match them with
  | Color.White =>
    let nc := if t = 0 then
        { nc with castling_rights := cr_remove nc.castling_rights CastlingRights.WHITE_QUEENSIDE }
      else nc
    if t = 7 then
      { nc with castling_rights := cr_remove nc.castling_rights CastlingRights.WHITE_KINGSIDE }
    else nc
  | Color.Black =>
    let nc := if t = 56 then
        { nc with castling_rights := cr_remove nc.castling_rights CastlingRights.BLACK_QUEENSIDE }
      else nc
    if t = 63 then
      { nc with castling_rights := cr_remove nc.castling_rights CastlingRights.BLACK_KINGSIDE }
    else nc

/-- Step 3 of `Board::make_move`: remove the captured man (the en-passant
victim sits behind the target square).  The piece scan runs on the original
position `b`, as in the source. -/
def mm_capture_step (b n2 : Board) (m : ℕ) : Option Board :=
  let t := mto m
  let us := b.side_to_move
  let them := us.opposite
  if is_capture m then
    if mflag m = Move.EP_CAPTURE then
      let cap_sq := if us = Color.White then t - 8 else t + 8
      some (remove_piece n2 Pawn them cap_sq)
    else do
      let captured_type ← get_piece_type_at b t them
      let nc := remove_piece n2 captured_type them t
      some (if captured_type = Rook then mm_rook_captured nc them t else nc)
  else some n2

/-- Step 4 of `Board::make_move`: swap the promoted pawn for the new piece. -/
def mm_promo_step (n3 : Board) (us : Color) (m : ℕ) : Option Board :=
  if is_promotion m then do
    let np := remove_piece n3 Pawn us (mto m)
    let promo_type ← promoPiece (mflag m)
    some (add_piece np promo_type us (mto m))
  else some n3

/-- Step 5 of `Board::make_move`: clear castling rights when the king or a
rook moved. -/
def mm_rights_step (n4 : Board) (pt : PieceType) (us : Color) (f t : ℕ) : Board :=
  let n5 :=
    if pt = King then
      { n4 with castling_rights := cr_remove n4.castling_rights (both_rights us) }
    else n4
  if pt = Rook then
    let nr := n5
    let nr := if f = 0 ∨ t = 0 then
        { nr with castling_rights := cr_remove nr.castling_rights CastlingRights.WHITE_QUEENSIDE }
      else nr
    let nr := if f = 7 ∨ t = 7 then
        { nr with castling_rights := cr_remove nr.castling_rights CastlingRights.WHITE_KINGSIDE }
      else nr
    let nr := if f = 56 ∨ t = 56 then
        { nr with castling_rights := cr_remove nr.castling_rights CastlingRights.BLACK_QUEENSIDE }
      else nr
    if f = 63 ∨ t = 63 then
      { nr with castling_rights := cr_remove nr.castling_rights CastlingRights.BLACK_KINGSIDE }
    else nr
  else n5

/-- Step 6 of `Board::make_move`: flip the side to move and set the
en-passant square after a double push. -/
def mm_state_step (n6 : Board) (us : Color) (f flag : ℕ) : Board :=
  { n6 with
    side_to_move := us.opposite,
    en_passant_sq :=
      if flag = Move.DOUBLE_PAWN_PUSH then
        some (if us = Color.White then f + 8 else f - 8)
      else none }

/-- `Board::make_move` (copy-make).  `none` models the `expect`/`panic!`
paths.  The `u8` square arithmetic `to ± 8` cannot underflow on any move
the generator emits, so natural subtraction is used. -/
def make_move (b : Board) (m : ℕ) : Option Board := do
  let f := mfrom m
  let t := mto m
  let flag := mflag m
  let us := b.side_to_move
  -- 1. move the piece
  let piece_type ← get_piece_type_at b f us
  let n1 := add_piece (remove_piece b piece_type us f) piece_type us t
  -- 2. castling rook relocation and rights removal
  let n2 := mm_castle_step n1 piece_type us f t
  -- 3. captures
  let n3 ← mm_capture_step b n2 m
  -- 4. promotions
  let n4 ← mm_promo_step n3 us m
  -- 5. castling rights when king or rook moved
  let n6 := mm_rights_step n4 piece_type us f t
  -- 6. state update and occupancy recomputation
  some (update_occupancies (mm_state_step n6 us f flag))

/-! ### `Board::from_fen` -/

/-- Helper of `split_whitespace`: walk the characters, collecting the
current word (in reverse) and emitting it at each whitespace boundary. -/
def wordsAux : List Char → List Char → List String
  | [], acc => if acc.isEmpty then [] else [String.mk acc.reverse]
  | c :: rest, acc =>
    if c.isWhitespace then
      if acc.isEmpty then wordsAux rest []
      else String.mk acc.reverse :: wordsAux rest []
    else wordsAux rest (c :: acc)

/-- `str::split_whitespace` (whitespace-separated fields, empties dropped). -/
def split_whitespace (s : String) : List String := wordsAux s.data []

/-- Helper of `splitChar`. -/
def splitCharAux (sep : Char) : List Char → List Char → List String
  | [], acc => [String.mk acc.reverse]
  | c :: rest, acc =>
    if c = sep then String.mk acc.reverse :: splitCharAux sep rest []
    else splitCharAux sep rest (c :: acc)

/-- `str::split(sep)` for a single separator character (empty pieces kept). -/
def splitChar (s : String) (sep : Char) : List String := splitCharAux sep s.data []

/-- Piece letter lookup of the placement parser
(`char.to_ascii_lowercase` match). -/
def pieceTypeOfChar (c : Char) : Option PieceType :=
  if c.toLower = 'p' then some Pawn
  else if c.toLower = 'n' then some Knight
  else if c.toLower = 'b' then some Bishop
  else if c.toLower = 'r' then some Rook
  else if c.toLower = 'q' then some Queen
  else if c.toLower = 'k' then some King
  else none

/-- The inner `for char in row.chars()` loop of the placement parser. -/
def parseRow (rank : ℕ) : List Char → Board → ℕ → Except String Board
  | [], b, _ => .ok b
  | c :: rest, b, file =>
    if c.isDigit then
      parseRow rank rest b (file + (c.toNat - '0'.toNat))
    else
      match pieceTypeOfChar c with
      | none => .error s!"Unknown piece: {c}"
      | some pt =>
        let color := if c.isUpper then Color.White else Color.Black
        let square := rank * 8 + file
        parseRow rank rest (add_piece b pt color square) (file + 1)

/-- The outer `for (rank_idx, row) in rows.iter().enumerate()` loop. -/
def parseRows : List String → ℕ → Board → Except String Board
  | [], _, b => .ok b
  | row :: rest, rank_idx, b => do
    let b ← parseRow (7 - rank_idx) row.toList b 0
    parseRows rest (rank_idx + 1) b

/-- The castling-rights field parser (`for c in parts[2].chars()`). -/
def parseCastling : List Char → ℕ → Except String ℕ
  | [], r => .ok r
  | c :: rest, r =>
    if c = 'K' then parseCastling rest (r ||| CastlingRights.WHITE_KINGSIDE)
    else if c = 'Q' then parseCastling rest (r ||| CastlingRights.WHITE_QUEENSIDE)
    else if c = 'k' then parseCastling rest (r ||| CastlingRights.BLACK_KINGSIDE)
    else if c = 'q' then parseCastling rest (r ||| CastlingRights.BLACK_QUEENSIDE)
    else .error s!"Invalid castling char: {c}"

/-- The en-passant field parser.  The `u8` subtractions
`file_char - b'a'` / `rank_char - b'1'` are modelled with the release-mode
wrap modulo 256 (out-of-range characters then fail the `> 7` check). -/
def parseEp (s : String) (b : Board) : Except String Board :=
  if s.length ≠ 2 then .error s!"Invalid en passant: {s}"
  else
    let file_char := s.toList.getD 0 ' '
    let rank_char := s.toList.getD 1 ' '
    let file := (file_char.toNat + 256 - 'a'.toNat) % 256
    let rank := (rank_char.toNat + 256 - '1'.toNat) % 256
    if file > 7 ∨ rank > 7 then .error s!"Invalid en passant square: {s}"
    else .ok { b with en_passant_sq := some (rank * 8 + file) }

/-- `parts[4].parse().unwrap_or(0)` for the `u8` halfmove clock (a plain
digit string of value at most 255 parses; everything else falls back to 0;
the optional sign prefix Rust would accept is not modelled). -/
def parseHalfmove (s : String) : ℕ :=
  let cs := s.data
  if cs.isEmpty ∨ ¬(cs.all Char.isDigit) then 0
  else
    let n := cs.foldl (fun a c => a * 10 + (c.toNat - 48)) 0
    if n ≤ 255 then n else 0

/-- Field 3 of `Board::from_fen`: castling rights (skipped when absent or
`"-"`). -/
def fen_castling_step (parts : List String) (b : Board) : Except String Board :=
  if parts.length > 2 ∧ parts.getD 2 "" ≠ "-" then do
    let r ← parseCastling (parts.getD 2 "").toList b.castling_rights
    pure { b with castling_rights := r }
  else pure b

/-- Field 4 of `Board::from_fen`: the en-passant target square. -/
def fen_ep_step (parts : List String) (b : Board) : Except String Board :=
  if parts.length > 3 ∧ parts.getD 3 "" ≠ "-" then parseEp (parts.getD 3 "") b
  else pure b

/-- Field 5 of `Board::from_fen`: the halfmove clock (optional, default 0). -/
def fen_halfmove_step (parts : List String) (b : Board) : Board :=
  if parts.length > 4 then { b with halfmove_clock := parseHalfmove (parts.getD 4 "") }
  else b

/-- Fields 3-5 of `Board::from_fen` plus the final occupancy recomputation. -/
def fen_tail (parts : List String) (b : Board) : Except String Board := do
  let b ← fen_castling_step parts b
  let b ← fen_ep_step parts b
  .ok (update_occupancies (fen_halfmove_step parts b))

/-- `Board::from_fen`. -/
def from_fen (fen : String) : Except String Board :=
  let parts := split_whitespace fen
  if parts.length < 2 then .error "Invalid FEN: not enough fields"
  else
    let rows := splitChar (parts.getD 0 "") '/'
    if rows.length ≠ 8 then .error "Invalid FEN: expected 8 rows"
    else do
      let b ← parseRows rows 0 Board.empty
      let stm := if parts.getD 1 "" = "w" then Color.White else Color.Black
      fen_tail parts { b with side_to_move := stm }

/-! ### `perft.rs` -/

/-- `perft`: depth-first enumeration with the legality filter.  `none`
models the panics of `make_move` / `get_king_square` (never hit from a
well-formed position). -/
def perft (b : Board) : ℕ → Option ℕ
  | 0 => some 1
  | d + 1 =>
    (generate_all b).foldlM
      (fun nodes m => do
        let next ← make_move b m
        let king_sq ← get_king_square next b.side_to_move
        if is_square_attacked next king_sq next.side_to_move then
          pure nodes
        else do
          let c ← perft next d
          pure (nodes + c))
      0

/-- Run `perft` on a parsed FEN, as `main.rs` does. -/
def fenPerft (fen : String) (depth : ℕ) : Option ℕ :=
  match from_fen fen with
  | .ok b => perft b depth
  | .error _ => none

/-! ### More bit lemmas -/

theorem and_mask_eq_mod (x n : ℕ) : x &&& (2 ^ n - 1) = x % 2 ^ n := by
  apply Nat.eq_of_testBit_eq
  intro i
  simp [Nat.testBit_land, Nat.testBit_two_pow_sub_one, Nat.testBit_mod_two_pow,
    Bool.and_comm]

theorem land_two_mul (a b : ℕ) : (2 * a) &&& (2 * b) = 2 * (a &&& b) := by
  apply Nat.eq_of_testBit_eq
  intro i
  cases i with
  | zero => simp only [Nat.testBit_land, tb0_even]; rfl
  | succ i => simp only [Nat.testBit_land, tbS_even]

theorem land_odd_even (a b : ℕ) : (2 * a + 1) &&& (2 * b) = 2 * (a &&& b) := by
  apply Nat.eq_of_testBit_eq
  intro i
  cases i with
  | zero => simp only [Nat.testBit_land, tb0_even, tb0_odd]; rfl
  | succ i => simp only [Nat.testBit_land, tbS_even, tbS_odd]

theorem land_even_odd (a b : ℕ) : (2 * a) &&& (2 * b + 1) = 2 * (a &&& b) := by
  apply Nat.eq_of_testBit_eq
  intro i
  cases i with
  | zero => simp only [Nat.testBit_land, tb0_even, tb0_odd]; rfl
  | succ i => simp only [Nat.testBit_land, tbS_even, tbS_odd]

theorem land_odd_odd (a b : ℕ) : (2 * a + 1) &&& (2 * b + 1) = 2 * (a &&& b) + 1 := by
  apply Nat.eq_of_testBit_eq
  intro i
  cases i with
  | zero => simp only [Nat.testBit_land, tb0_odd]; rfl
  | succ i => simp only [Nat.testBit_land, tbS_odd]

theorem lor_two_mul (a b : ℕ) : (2 * a) ||| (2 * b) = 2 * (a ||| b) := by
  apply Nat.eq_of_testBit_eq
  intro i
  cases i with
  | zero => simp only [Nat.testBit_lor, tb0_even]; rfl
  | succ i => simp only [Nat.testBit_lor, tbS_even]

theorem lor_odd_even (a b : ℕ) : (2 * a + 1) ||| (2 * b) = 2 * (a ||| b) + 1 := by
  apply Nat.eq_of_testBit_eq
  intro i
  cases i with
  | zero => simp only [Nat.testBit_lor, tb0_even, tb0_odd]; rfl
  | succ i => simp only [Nat.testBit_lor, tbS_even, tbS_odd]

theorem lor_even_odd (a b : ℕ) : (2 * a) ||| (2 * b + 1) = 2 * (a ||| b) + 1 := by
  apply Nat.eq_of_testBit_eq
  intro i
  cases i with
  | zero => simp only [Nat.testBit_lor, tb0_even, tb0_odd]; rfl
  | succ i => simp only [Nat.testBit_lor, tbS_even, tbS_odd]

/-- A disjoint bitwise OR is addition. -/
theorem lor_eq_add : ∀ a b : ℕ, a &&& b = 0 → a ||| b = a + b := by
  intro a
  induction a using Nat.strong_induction_on with
  | _ a ih =>
    intro b hab
    rcases eq_or_ne a 0 with rfl | ha
    · simp
    · have ha2 : a = 2 * (a / 2) + a % 2 := by omega
      have hb2 : b = 2 * (b / 2) + b % 2 := by omega
      rcases Nat.even_or_odd a with hae | hao
      · obtain ⟨a', haa⟩ := hae
        have haa' : a = 2 * a' := by omega
        subst haa'
        have ha' : a' ≠ 0 := by omega
        rcases Nat.even_or_odd b with hbe | hbo
        · obtain ⟨b', hbb⟩ := hbe
          have hbb' : b = 2 * b' := by omega
          subst hbb'
          rw [land_two_mul] at hab
          rw [lor_two_mul, ih a' (by omega) b' (by omega)]
          ring
        · obtain ⟨b', hbb⟩ := hbo
          subst hbb
          rw [land_even_odd] at hab
          rw [lor_even_odd, ih a' (by omega) b' (by omega)]
          ring
      · obtain ⟨a', haa⟩ := hao
        subst haa
        rcases Nat.even_or_odd b with hbe | hbo
        · obtain ⟨b', hbb⟩ := hbe
          have hbb' : b = 2 * b' := by omega
          subst hbb'
          rw [land_odd_even] at hab
          rw [lor_odd_even, ih a' (by omega) b' (by omega)]
          ring
        · obtain ⟨b', hbb⟩ := hbo
          subst hbb
          rw [land_odd_odd] at hab
          omega

/-- A shifted value and a value below the shift width have no common bits. -/
theorem shl_and_lt (a k b : ℕ) (hb : b < 2 ^ k) : (a <<< k) &&& b = 0 := by
  apply Nat.eq_of_testBit_eq
  intro i
  rw [Nat.testBit_land, Nat.testBit_shiftLeft, Nat.zero_testBit]
  rcases Nat.lt_or_ge i k with h | h
  · simp [Nat.not_le_of_lt h]
  · have : b < 2 ^ i := lt_of_lt_of_le hb (Nat.pow_le_pow_right (by norm_num) h)
    simp [Nat.testBit_lt_two_pow this]

/-- The packed move value in arithmetic form. -/
theorem mkMove_eq (f t flag : ℕ) (hf : f < 64) (ht : t < 64) (hfl : flag < 16) :
    mkMove f t flag = flag * 4096 + f * 64 + t := by
  unfold mkMove
  have h1 : (flag <<< 12) &&& (f <<< 6) = 0 := by
    apply shl_and_lt
    rw [Nat.shiftLeft_eq]
    have : f * 2 ^ 6 < 64 * 2 ^ 6 := by
      have h64 : (0 : ℕ) < 2 ^ 6 := by norm_num
      exact (Nat.mul_lt_mul_right h64).mpr hf
    omega
  rw [lor_eq_add _ _ h1, Nat.shiftLeft_eq, Nat.shiftLeft_eq]
  have h2 : flag * 2 ^ 12 + f * 2 ^ 6 = (flag * 64 + f) * 2 ^ 6 := by ring
  have h3 : (flag * 2 ^ 12 + f * 2 ^ 6) ||| t = flag * 2 ^ 12 + f * 2 ^ 6 + t := by
    rw [h2, ← Nat.shiftLeft_eq]
    exact lor_eq_add _ _ (shl_and_lt _ 6 t (by omega))
  rw [h3, Nat.mod_eq_of_lt (by omega)]
  ring

/-! ### Claim theorems: move encoding and bitboard laws -/

/-- C6: for every `(from, to, flag)` triple with `from`, `to` squares
(`0..63`) and `flag` a move-kind value (a flag nibble), the accessors of
`Move::new(from, to, flag)` return the originals. -/
theorem move_roundtrip (f t flag : ℕ) (hf : f < 64) (ht : t < 64) (hfl : flag < 16) :
    mfrom (mkMove f t flag) = f ∧ mto (mkMove f t flag) = t ∧
      mflag (mkMove f t flag) = flag := by
  rw [mkMove_eq f t flag hf ht hfl]
  have h63 : (0x3F : ℕ) = 2 ^ 6 - 1 := by norm_num
  refine ⟨?_, ?_, ?_⟩
  · unfold mfrom
    rw [h63, and_mask_eq_mod, Nat.shiftRight_eq_div_pow]
    norm_num
    omega
  · unfold mto
    rw [h63, and_mask_eq_mod]
    norm_num
    omega
  · unfold mflag
    rw [Nat.shiftRight_eq_div_pow]
    norm_num
    omega

/-- Witness for C6 at a concrete triple. -/
theorem move_roundtrip_witness :
    mfrom (mkMove 12 28 1) = 12 ∧ mto (mkMove 12 28 1) = 28 ∧
      mflag (mkMove 12 28 1) = 1 :=
  move_roundtrip 12 28 1 (by decide) (by decide) (by decide)

/-- C7: `pop_lsb` on an empty bitboard yields none and leaves it empty; on a
non-empty bitboard it yields the lowest set square, clears exactly that bit
(so `count` drops by one); popping until empty (`bitList`) visits each set
bit exactly once in ascending order. -/
theorem pop_lsb_spec (b : ℕ) :
    (b = 0 → pop_lsb b = (none, 0)) ∧
    (b ≠ 0 → ∃ l,
      (pop_lsb b).1 = some l ∧
      b.testBit l = true ∧ (∀ j < l, b.testBit j = false) ∧
      (∀ j, ((pop_lsb b).2).testBit j = (b.testBit j && decide (j ≠ l))) ∧
      count ((pop_lsb b).2) + 1 = count b) ∧
    List.Pairwise (· < ·) (bitList b) ∧
    List.Nodup (bitList b) ∧
    (∀ i, i ∈ bitList b ↔ b.testBit i = true) := by
  refine ⟨?_, ?_, bitList_sorted b, ?_, mem_bitList b⟩
  · rintro rfl
    rfl
  · intro hb
    refine ⟨tz b, ?_, tz_testBit b hb, tz_min b hb, ?_, ?_⟩
    · simp [pop_lsb, lsb_index, hb]
    · intro j
      simp only [pop_lsb, lsb_index, hb, if_neg hb]
      exact testBit_land_pred b hb j
    · simp only [pop_lsb, lsb_index, hb, if_neg hb]
      exact count_pop b hb
  · exact (bitList_sorted b).imp (fun h => Nat.ne_of_lt h)

/-- Witness for C7 at `b = 5`. -/
theorem pop_lsb_spec_witness :
    (5 : ℕ) ≠ 0 ∧ (pop_lsb 5).1 = some 0 ∧ count ((pop_lsb 5).2) + 1 = count 5 := by
  obtain ⟨-, h2, -⟩ := pop_lsb_spec 5
  obtain ⟨l, h1, hbit, hmin, -, hc⟩ := h2 (by decide)
  refine ⟨by decide, ?_, hc⟩
  rcases Nat.eq_zero_or_pos l with rfl | hl
  · exact h1
  · have h0 := hmin 0 hl
    have : (5 : ℕ).testBit 0 = true := by decide
    rw [this] at h0
    exact absurd h0 (by simp)

/-! ### Record-projection lemmas for `Board` updates -/

@[simp] theorem add_piece_halfmove (b : Board) (pt : PieceType) (c : Color) (sq : ℕ) :
    (add_piece b pt c sq).halfmove_clock = b.halfmove_clock := by cases c <;> rfl

@[simp] theorem remove_piece_halfmove (b : Board) (pt : PieceType) (c : Color) (sq : ℕ) :
    (remove_piece b pt c sq).halfmove_clock = b.halfmove_clock := by cases c <;> rfl

@[simp] theorem update_occ_halfmove (b : Board) :
    (update_occupancies b).halfmove_clock = b.halfmove_clock := rfl

@[simp] theorem add_piece_side (b : Board) (pt : PieceType) (c : Color) (sq : ℕ) :
    (add_piece b pt c sq).side_to_move = b.side_to_move := by cases c <;> rfl

@[simp] theorem remove_piece_side (b : Board) (pt : PieceType) (c : Color) (sq : ℕ) :
    (remove_piece b pt c sq).side_to_move = b.side_to_move := by cases c <;> rfl

@[simp] theorem update_occ_side (b : Board) :
    (update_occupancies b).side_to_move = b.side_to_move := rfl

@[simp] theorem add_piece_castling (b : Board) (pt : PieceType) (c : Color) (sq : ℕ) :
    (add_piece b pt c sq).castling_rights = b.castling_rights := by cases c <;> rfl

@[simp] theorem remove_piece_castling (b : Board) (pt : PieceType) (c : Color) (sq : ℕ) :
    (remove_piece b pt c sq).castling_rights = b.castling_rights := by cases c <;> rfl

@[simp] theorem add_piece_ep (b : Board) (pt : PieceType) (c : Color) (sq : ℕ) :
    (add_piece b pt c sq).en_passant_sq = b.en_passant_sq := by cases c <;> rfl

@[simp] theorem remove_piece_ep (b : Board) (pt : PieceType) (c : Color) (sq : ℕ) :
    (remove_piece b pt c sq).en_passant_sq = b.en_passant_sq := by cases c <;> rfl

@[simp] theorem update_occ_white_pieces (b : Board) :
    (update_occupancies b).white_pieces = b.white_pieces := rfl

@[simp] theorem update_occ_black_pieces (b : Board) :
    (update_occupancies b).black_pieces = b.black_pieces := rfl

@[simp] theorem update_occ_ep (b : Board) :
    (update_occupancies b).en_passant_sq = b.en_passant_sq := rfl

@[simp] theorem update_occ_castling (b : Board) :
    (update_occupancies b).castling_rights = b.castling_rights := rfl

end Ananke


namespace Ananke

theorem mm_castle_step_halfmove (n1 : Board) (pt : PieceType) (us : Color) (f t : ℕ) :
    (mm_castle_step n1 pt us f t).halfmove_clock = n1.halfmove_clock := by
  unfold mm_castle_step
  split
  · split <;> simp
  · rfl

theorem mm_rook_captured_halfmove (nc : Board) (them : Color) (t : ℕ) :
    (mm_rook_captured nc them t).halfmove_clock = nc.halfmove_clock := by
  unfold mm_rook_captured
  cases them <;> dsimp only <;> split <;> split <;> simp

theorem mm_capture_step_halfmove (b n2 : Board) (m : ℕ) (n3 : Board)
    (h : mm_capture_step b n2 m = some n3) :
    n3.halfmove_clock = n2.halfmove_clock := by
  unfold mm_capture_step at h
  split at h
  · split at h
    · simp only [Option.some.injEq] at h
      subst h
      simp
    · simp only [Option.bind_eq_bind] at h
      cases hct : get_piece_type_at b (mto m) b.side_to_move.opposite with
      | none => rw [hct] at h; simp at h
      | some ct =>
        rw [hct] at h
        simp only [Option.some_bind, Option.some.injEq] at h
        subst h
        split
        · rw [mm_rook_captured_halfmove]; simp
        · simp
  · simp only [Option.some.injEq] at h
    subst h
    rfl

theorem mm_promo_step_halfmove (n3 : Board) (us : Color) (m : ℕ) (n4 : Board)
    (h : mm_promo_step n3 us m = some n4) :
    n4.halfmove_clock = n3.halfmove_clock := by
  unfold mm_promo_step at h
  split at h
  · cases hpp : promoPiece (mflag m) with
    | none => rw [hpp] at h; simp at h
    | some pp =>
      rw [hpp] at h
      simp only [Option.bind_eq_bind, Option.some_bind, Option.some.injEq] at h
      subst h
      simp
  · simp only [Option.some.injEq] at h
    subst h
    rfl

theorem mm_rights_step_halfmove (n4 : Board) (pt : PieceType) (us : Color) (f t : ℕ) :
    (mm_rights_step n4 pt us f t).halfmove_clock = n4.halfmove_clock := by
  unfold mm_rights_step
  repeat' split
  all_goals rfl

theorem mm_state_step_halfmove (n6 : Board) (us : Color) (f flag : ℕ) :
    (mm_state_step n6 us f flag).halfmove_clock = n6.halfmove_clock := rfl

/-- C9: `make_move` takes its position by value (the embedding is pure, as
is the Rust copy-make: `&self` is cloned and the input is not mutated), and
whenever it returns a successor, that successor's `halfmove_clock` equals
the input's — no kind of move resets or increments the clock. -/
theorem make_move_halfmove (b : Board) (m : ℕ) (b' : Board)
    (h : make_move b m = some b') : b'.halfmove_clock = b.halfmove_clock := by
  unfold make_move at h
  simp only [Option.bind_eq_bind] at h
  cases hpt : get_piece_type_at b (mfrom m) b.side_to_move with
  | none => rw [hpt] at h; simp at h
  | some pt =>
    rw [hpt] at h
    simp only [Option.some_bind] at h
    cases h3 : mm_capture_step b (mm_castle_step
        (add_piece (remove_piece b pt b.side_to_move (mfrom m)) pt b.side_to_move (mto m))
        pt b.side_to_move (mfrom m) (mto m)) m with
    | none => rw [h3] at h; simp at h
    | some n3 =>
      rw [h3] at h
      simp only [Option.some_bind] at h
      cases h4 : mm_promo_step n3 b.side_to_move m with
      | none => rw [h4] at h; simp at h
      | some n4 =>
        rw [h4] at h
        simp only [Option.some_bind, Option.some.injEq] at h
        subst h
        rw [update_occ_halfmove, mm_state_step_halfmove, mm_rights_step_halfmove,
          mm_promo_step_halfmove n3 b.side_to_move m n4 h4,
          mm_capture_step_halfmove _ _ _ _ h3, mm_castle_step_halfmove]
        simp

end Ananke

namespace Ananke

/-- The FEN of the standard chess starting position. -/
def startFEN : String := "rnbqkbnr/pppppppp/8/8/8/8/PPPPPPPP/RNBQKBNR w KQkq - 0 1"

/-- The starting position, as parsed by `Board::from_fen`. -/
def startBoard : Board :=
  match from_fen startFEN with
  | .ok b => b
  | .error _ => Board.empty

/-- The pseudo-legal move list of the position a FEN parses to (empty when
the FEN is rejected). -/
def genOfFen (fen : String) : List ℕ :=
  match from_fen fen with
  | .ok b => generate_all b
  | .error _ => []

/-- C1 (code bug): from the starting position, `perft` at depth 1 returns
12, not the 20 the spec's reference table demands.  The white double pawn
pushes are missing: the double-push mask `0x000000FF00000000` selects rank-5
destination squares (32-39), but white double pushes land on rank 4
(24-31), so all eight of them are filtered out. -/
theorem perft_initial_depth_one :
    fenPerft startFEN 1 = some 12 ∧ fenPerft startFEN 1 ≠ some 20 := by
  have h : fenPerft startFEN 1 = some 12 := by rfl
  exact ⟨h, by rw [h]; decide⟩

/-- C2 (code bug): the `DOUBLE_PAWN_PUSH` emission disagrees with the claim
on both directions for White.  In the starting position no double push is
emitted at all (a2a4 = `mkMove 8 24` is due), while with a white pawn on a3
(square 16, not a starting-rank square) the generator emits a
`DOUBLE_PAWN_PUSH` to a5 (square 32, rank 5 — not rank 4). -/
theorem double_push_mask_bug :
    (∀ m ∈ genOfFen startFEN, mflag m ≠ Move.DOUBLE_PAWN_PUSH) ∧
    mkMove 16 32 Move.DOUBLE_PAWN_PUSH ∈ genOfFen "8/8/8/8/8/P7/8/8 w - - 0 1" := by
  constructor
  · decide
  · decide

/-- The successor of the start position after the quiet push a2a3. -/
def startAfterA2A3 : Board :=
  (make_move startBoard (mkMove 8 16 Move.QUIET)).getD Board.empty

/-- Witness for C9: the quiet move a2a3 applied to the start position
leaves the halfmove clock unchanged. -/
theorem make_move_halfmove_witness :
    make_move startBoard (mkMove 8 16 Move.QUIET) = some startAfterA2A3 ∧
      startAfterA2A3.halfmove_clock = startBoard.halfmove_clock :=
  ⟨rfl, make_move_halfmove startBoard (mkMove 8 16 Move.QUIET) startAfterA2A3 rfl⟩

end Ananke

namespace Ananke

theorem except_ok_bind {α β ε : Type} (a : α) (f : α → Except ε β) :
    (Except.ok a >>= f) = f a := rfl

theorem except_error_bind {α β ε : Type} (e : ε) (f : α → Except ε β) :
    ((Except.error e : Except ε α) >>= f) = Except.error e := rfl

theorem parseEp_ok_side (s : String) (b b' : Board) (h : parseEp s b = .ok b') :
    b'.side_to_move = b.side_to_move := by
  unfold parseEp at h
  split at h
  · simp at h
  · dsimp only at h
    split at h
    · simp at h
    · simp only [Except.ok.injEq] at h
      subst h
      rfl

theorem fen_castling_step_side (parts : List String) (b b' : Board)
    (h : fen_castling_step parts b = .ok b') :
    b'.side_to_move = b.side_to_move := by
  unfold fen_castling_step at h
  split at h
  · cases hc : parseCastling (parts.getD 2 "").toList b.castling_rights with
    | error e => rw [hc, except_error_bind] at h; simp at h
    | ok r =>
      rw [hc, except_ok_bind] at h
      simp only [pure, Except.pure, Except.ok.injEq] at h
      subst h
      rfl
  · simp only [pure, Except.pure, Except.ok.injEq] at h
    subst h
    rfl

theorem fen_ep_step_side (parts : List String) (b b' : Board)
    (h : fen_ep_step parts b = .ok b') :
    b'.side_to_move = b.side_to_move := by
  unfold fen_ep_step at h
  split at h
  · exact parseEp_ok_side _ _ _ h
  · simp only [pure, Except.pure, Except.ok.injEq] at h
    subst h
    rfl

theorem fen_halfmove_step_side (parts : List String) (b : Board) :
    (fen_halfmove_step parts b).side_to_move = b.side_to_move := by
  unfold fen_halfmove_step
  split <;> rfl

theorem fen_tail_side (parts : List String) (b b' : Board)
    (h : fen_tail parts b = .ok b') :
    b'.side_to_move = b.side_to_move := by
  unfold fen_tail at h
  cases hc : fen_castling_step parts b with
  | error e => rw [hc, except_error_bind] at h; simp at h
  | ok b1 =>
    rw [hc, except_ok_bind] at h
    cases he : fen_ep_step parts b1 with
    | error e => rw [he, except_error_bind] at h; simp at h
    | ok b2 =>
      rw [he, except_ok_bind] at h
      simp only [Except.ok.injEq] at h
      subst h
      rw [update_occ_side, fen_halfmove_step_side,
        fen_ep_step_side parts b1 b2 he, fen_castling_step_side parts b b1 hc]

/-- C10: `Board::from_fen` never rejects the side-to-move field; the parsed
side is White exactly when the second whitespace-separated field is the
token `"w"`, and Black for any other token (for example `"x"`, `"W"` or
`"bb"`). -/
theorem from_fen_side_iff (s : String) (b : Board) (h : from_fen s = .ok b) :
    (b.side_to_move = Color.White ↔ (split_whitespace s).getD 1 "" = "w") := by
  unfold from_fen at h
  dsimp only at h
  split at h
  · simp at h
  · split at h
    · simp at h
    · cases hpr : parseRows (splitChar ((split_whitespace s).getD 0 "") '/') 0 Board.empty with
      | error e => rw [hpr, except_error_bind] at h; simp at h
      | ok b0 =>
        rw [hpr, except_ok_bind] at h
        have hside := fen_tail_side _ _ _ h
        rw [hside]
        show (if (split_whitespace s).getD 1 "" = "w" then Color.White else Color.Black) =
          Color.White ↔ (split_whitespace s).getD 1 "" = "w"
        split
        · next hw => exact iff_of_true rfl hw
        · next hw => exact iff_of_false (fun hh => Color.noConfusion hh) hw

end Ananke

namespace Ananke

/-- The board parsed from `"8/8/8/8/8/8/8/8 W"` (empty board, second field
a capital `W`). -/
def fenWBoard : Board :=
  match from_fen "8/8/8/8/8/8/8/8 W" with
  | .ok b => b
  | .error _ => Board.empty

/-- Witness for C10: the two-field FEN with side token `"W"` parses without
error and yields Black to move. -/
theorem from_fen_side_iff_witness :
    from_fen "8/8/8/8/8/8/8/8 W" = .ok fenWBoard ∧
      (fenWBoard.side_to_move = Color.White ↔
        (split_whitespace "8/8/8/8/8/8/8/8 W").getD 1 "" = "w") ∧
      fenWBoard.side_to_move = Color.Black :=
  ⟨rfl, from_fen_side_iff "8/8/8/8/8/8/8/8 W" fenWBoard rfl, rfl⟩

/-- Counterexample to C8 as stated: `"8/8/8/8/8/8/8/8 w"` has only two
whitespace-separated fields (fewer than four), yet `Board::from_fen`
accepts it. -/
theorem from_fen_two_fields_ok :
    (split_whitespace "8/8/8/8/8/8/8/8 w").length < 4 ∧
      (from_fen "8/8/8/8/8/8/8/8 w").isOk = true := by
  exact ⟨by decide, rfl⟩

/-- C8 (amended): `Board::from_fen` rejects an input only when it has fewer
than **two** whitespace-separated fields; the error is the fixed
"not enough fields" message.  (Castling, en-passant and clock fields are
optional and default when absent.) -/
theorem from_fen_too_few_fields (s : String)
    (h : (split_whitespace s).length < 2) :
    from_fen s = .error "Invalid FEN: not enough fields" := by
  unfold from_fen
  dsimp only
  rw [if_pos h]

/-- Witness for the amended C8 at the one-field input `"x"`. -/
theorem from_fen_too_few_fields_witness :
    (split_whitespace "x").length < 2 ∧
      from_fen "x" = .error "Invalid FEN: not enough fields" :=
  ⟨by decide, from_fen_too_few_fields "x" (by decide)⟩

end Ananke

namespace Ananke

/-! ### `magic.rs`: the table builder and the lookup -/

/-- `ROOK_BITS` from `magic.rs`. -/
def ROOK_BITS : List ℕ :=
  [12, 11, 11, 11, 11, 11, 11, 12, 11, 10, 10, 10, 10, 10, 10, 11,
   11, 10, 10, 10, 10, 10, 10, 11, 11, 10, 10, 10, 10, 10, 10, 11,
   11, 10, 10, 10, 10, 10, 10, 11, 11, 10, 10, 10, 10, 10, 10, 11,
   11, 10, 10, 10, 10, 10, 10, 11, 12, 11, 11, 11, 11, 11, 11, 12]

/-- `BISHOP_BITS` from `magic.rs`. -/
def BISHOP_BITS : List ℕ :=
  [6, 5, 5, 5, 5, 5, 5, 6, 5, 5, 5, 5, 5, 5, 5, 5,
   5, 5, 7, 7, 7, 7, 5, 5, 5, 5, 7, 9, 9, 7, 5, 5,
   5, 5, 7, 9, 9, 7, 5, 5, 5, 5, 7, 7, 7, 7, 5, 5,
   5, 5, 5, 5, 5, 5, 5, 5, 6, 5, 5, 5, 5, 5, 5, 6]

/-- `MagicEntry` from `magic.rs`. -/
structure MagicEntry where
  mask : ℕ
  magic : ℕ
  shift : ℕ
  offset : ℕ

/-- The relevance mask of the given slider kind. -/
def maskFor (isRook : Bool) (sq : ℕ) : ℕ :=
  if isRook then mask_rook sq else mask_bishop sq

/-- The slow ray-walk attacks of the given slider kind. -/
def slowAttacks (isRook : Bool) (sq occ : ℕ) : ℕ :=
  if isRook then generate_rook_attacks_slow sq occ else generate_bishop_attacks_slow sq occ

/-- The per-square bit budget of the given slider kind. -/
def bitsFor (isRook : Bool) (sq : ℕ) : ℕ :=
  if isRook then ROOK_BITS.getD sq 0 else BISHOP_BITS.getD sq 0

/-- The loop of `get_occupancy_variation`: pop the mask's bits in LSB order,
taking the popped square when bit `i` of `index` is set (`none` models the
`unwrap` panic on an exhausted mask). -/
def occVarGo (index : ℕ) : ℕ → ℕ → ℕ → ℕ → Option ℕ
  | _, 0, _, acc => some acc
  | i, steps + 1, m, acc =>
    match pop_lsb m with
    | (none, _) => none
    | (some bit_sq, m') =>
      occVarGo index (i + 1) steps m'
        (if index &&& (1 <<< i) ≠ 0 then set_bit acc bit_sq else acc)

/-- `get_occupancy_variation`. -/
def get_occupancy_variation (index bits_in_mask mask : ℕ) : Option ℕ :=
  occVarGo index 0 bits_in_mask mask 0

/-- The per-occupancy body of `find_magic`'s fill loop: map the blocker
variation through the candidate multiplier; an empty slot is written, an
equal slot is a constructive collision, a differing slot rejects the
candidate (`none`). -/
def fillStep (isRook : Bool) (sq mask n magic shift : ℕ) (table : List ℕ) (i : ℕ) :
    Option (List ℕ) := do
  let occ ← get_occupancy_variation i n mask
  let att := slowAttacks isRook sq occ
  let idx := ((occ * magic) % 2 ^ 64) >>> shift
  if table.getD idx 0 = 0 then some (table.set idx att)
  else if table.getD idx 0 = att then some table
  else none

/-- One candidate attempt of `find_magic`: try to fill the whole table;
`some table` is exactly the success condition under which `find_magic`
returns the candidate (the RNG and the sparsity filter only choose which
candidates get tried). -/
def try_magic (isRook : Bool) (sq bits magic : ℕ) : Option (List ℕ) :=
  let mask := maskFor isRook sq
  let n := count mask
  let shift := 64 - bits
  (List.range (2 ^ n)).foldlM (fillStep isRook sq mask n magic shift)
    (List.replicate (2 ^ bits) 0)

/-- The multiply-shift-index read of `get_rook_attacks` /
`get_bishop_attacks` against the flat table (`table` is the process-wide
`ROOK_TABLE`/`BISHOP_TABLE` as a function of the flat index; the multiply
wraps modulo `2^64` as `wrapping_mul` does). -/
def magic_lookup (entry : MagicEntry) (table : ℕ → ℕ) (blockers : ℕ) : ℕ :=
  table (entry.offset + ((((blockers &&& entry.mask) * entry.magic) % 2 ^ 64) >>> entry.shift))

/-- What `magic::initialize()` establishes for one square `sq` of one
slider kind: `find_magic` succeeded with multiplier `magic` and per-square
table `t` (of `2^bits` entries with `bits` from the bits schedule), the
entry records the mask, multiplier, shift `64-bits` and the square's
offset, and the flat table holds `t` at that offset. -/
def entryReady (isRook : Bool) (sq : ℕ) (magic : ℕ) (t : List ℕ)
    (entry : MagicEntry) (table : ℕ → ℕ) : Prop :=
  try_magic isRook sq (bitsFor isRook sq) magic = some t ∧
  entry.mask = maskFor isRook sq ∧
  entry.magic = magic ∧
  entry.shift = 64 - bitsFor isRook sq ∧
  (∀ j < 2 ^ bitsFor isRook sq, table (entry.offset + j) = t.getD j 0)

end Ananke

namespace Ananke

theorem count_eq_zero (m : ℕ) : count m = 0 ↔ m = 0 := by
  constructor
  · intro h
    by_contra hm
    have := count_pop m hm
    omega
  · rintro rfl
    rfl

theorem pop_lsb_of_ne (m : ℕ) (hm : m ≠ 0) :
    pop_lsb m = (some (tz m), m &&& (m - 1)) := by
  simp [pop_lsb, lsb_index, hm]

theorem sub_testBit (v m : ℕ) (h : v &&& m = v) (j : ℕ) (hj : v.testBit j = true) :
    m.testBit j = true := by
  have := congrArg (fun x => x.testBit j) h
  simp only [Nat.testBit_land] at this
  rw [hj] at this
  simpa using this.symm

theorem testBit_sub (v m : ℕ) (h : ∀ j, v.testBit j = true → m.testBit j = true) :
    v &&& m = v := by
  apply Nat.eq_of_testBit_eq
  intro j
  rw [Nat.testBit_land]
  cases hv : v.testBit j
  · simp
  · simp [h j hv]

/-- The occupancy-variation loop with the index consumed one bit at a
time (equal to `occVarGo`, but friendlier to induction). -/
def occVarClean : ℕ → ℕ → ℕ → ℕ → Option ℕ
  | 0, _, _, acc => some acc
  | steps + 1, index, m, acc =>
    match pop_lsb m with
    | (none, _) => none
    | (some bit_sq, m') =>
      occVarClean steps (index >>> 1) m'
        (if index &&& 1 ≠ 0 then set_bit acc bit_sq else acc)

theorem and_two_pow_ne (index i : ℕ) :
    (index &&& (1 <<< i) ≠ 0) ↔ index.testBit i = true := by
  rw [Nat.one_shiftLeft, Nat.and_two_pow]
  cases h : index.testBit i <;> simp [h]

theorem shr_and_one_ne (index i : ℕ) :
    ((index >>> i) &&& 1 ≠ 0) ↔ index.testBit i = true := by
  have h1 : ((index >>> i) &&& 1 ≠ 0) ↔ (index >>> i).testBit 0 = true := by
    have := and_two_pow_ne (index >>> i) 0
    simpa using this
  rw [h1, Nat.testBit_shiftRight, Nat.add_zero]

theorem occVarGo_eq_clean :
    ∀ (steps i index m acc : ℕ),
      occVarGo index i steps m acc = occVarClean steps (index >>> i) m acc := by
  intro steps
  induction steps with
  | zero => intro i index m acc; rfl
  | succ s ih =>
    intro i index m acc
    show (match pop_lsb m with
      | (none, _) => none
      | (some bit_sq, m') =>
        occVarGo index (i + 1) s m'
          (if index &&& (1 <<< i) ≠ 0 then set_bit acc bit_sq else acc)) =
      (match pop_lsb m with
      | (none, _) => none
      | (some bit_sq, m') =>
        occVarClean s ((index >>> i) >>> 1) m'
          (if (index >>> i) &&& 1 ≠ 0 then set_bit acc bit_sq else acc))
    cases hp : pop_lsb m with
    | mk fst snd =>
      cases fst with
      | none => rfl
      | some bit_sq =>
        dsimp only
        have hsh : (index >>> i) >>> 1 = index >>> (i + 1) := by
          rw [Nat.shiftRight_add]
        rw [hsh, ih (i + 1) index snd]
        congr 1
        cases htb : index.testBit i with
        | false =>
          rw [if_neg (fun hc => by rw [(and_two_pow_ne index i).mp hc] at htb; cases htb),
            if_neg (fun hc => by rw [(shr_and_one_ne index i).mp hc] at htb; cases htb)]
        | true =>
          rw [if_pos ((and_two_pow_ne index i).mpr htb),
            if_pos ((shr_and_one_ne index i).mpr htb)]

theorem occVarClean_surj :
    ∀ (steps m acc v : ℕ), count m = steps → v &&& m = v →
      ∃ index < 2 ^ steps, occVarClean steps index m acc = some (acc ||| v) := by
  intro steps
  induction steps with
  | zero =>
    intro m acc v hc hv
    have hm : m = 0 := (count_eq_zero m).mp hc
    subst hm
    have hv0 : v = 0 := by rw [Nat.and_zero] at hv; omega
    subst hv0
    exact ⟨0, by norm_num, by simp [occVarClean]⟩
  | succ s ih =>
    intro m acc v hc hv
    have hm : m ≠ 0 := by
      intro h
      subst h
      rw [(count_eq_zero 0).mpr rfl] at hc
      omega
    have hpop := pop_lsb_of_ne m hm
    have hcount' : count (m &&& (m - 1)) = s := by
      have := count_pop m hm
      omega
    set m' := m &&& (m - 1) with hm'
    have hm'bit : ∀ j, m'.testBit j = (m.testBit j && decide (j ≠ tz m)) :=
      testBit_land_pred m hm
    cases hbit : v.testBit (tz m) with
    | true =>
      have hv' : (v &&& m') &&& m' = v &&& m' := by
        rw [Nat.and_assoc, Nat.and_self]
      obtain ⟨i', hi', heq⟩ := ih m' (set_bit acc (tz m)) (v &&& m') hcount' hv'
      refine ⟨2 * i' + 1, by omega, ?_⟩
      show (match pop_lsb m with
        | (none, _) => none
        | (some bit_sq, mm) =>
          occVarClean s ((2 * i' + 1) >>> 1) mm
            (if (2 * i' + 1) &&& 1 ≠ 0 then set_bit acc bit_sq else acc)) = _
      rw [hpop]
      dsimp only
      have hand : (2 * i' + 1) &&& 1 ≠ 0 :=
        (and_two_pow_ne (2 * i' + 1) 0).mpr (tb0_odd i')
      have hshr : (2 * i' + 1) >>> 1 = i' := by
        rw [Nat.shiftRight_eq_div_pow, pow_one]
        omega
      have hjoin : (1 <<< tz m) ||| (v &&& m') = v := by
        apply Nat.eq_of_testBit_eq
        intro j
        rw [Nat.testBit_lor, Nat.one_shiftLeft, Nat.testBit_two_pow, Nat.testBit_land,
          hm'bit j]
        rcases eq_or_ne j (tz m) with rfl | hne
        · simp [hbit]
        · cases hvj : v.testBit j
          · simp [Ne.symm hne]
          · simp [Ne.symm hne, hne, sub_testBit v m hv j hvj]
      have hsb : set_bit acc (tz m) ||| (v &&& m') = acc ||| v := by
        show (acc ||| (1 <<< tz m)) ||| (v &&& m') = acc ||| v
        rw [Nat.lor_assoc, hjoin]
      rw [if_pos hand, hshr, heq, hsb]
    | false =>
      have hv' : (v &&& m') &&& m' = v &&& m' := by
        rw [Nat.and_assoc, Nat.and_self]
      obtain ⟨i', hi', heq⟩ := ih m' acc (v &&& m') hcount' hv'
      refine ⟨2 * i', by omega, ?_⟩
      show (match pop_lsb m with
        | (none, _) => none
        | (some bit_sq, mm) =>
          occVarClean s ((2 * i') >>> 1) mm
            (if (2 * i') &&& 1 ≠ 0 then set_bit acc bit_sq else acc)) = _
      rw [hpop]
      dsimp only
      have hand : ¬((2 * i') &&& 1 ≠ 0) := by
        intro hc
        have := (and_two_pow_ne (2 * i') 0).mp hc
        rw [tb0_even] at this
        cases this
      have hshr : (2 * i') >>> 1 = i' := by
        rw [Nat.shiftRight_eq_div_pow, pow_one]
        omega
      have hveq : v &&& m' = v := by
        apply Nat.eq_of_testBit_eq
        intro j
        rw [Nat.testBit_land, hm'bit j]
        rcases eq_or_ne j (tz m) with rfl | hne
        · simp [hbit]
        · cases hvj : v.testBit j
          · simp
          · simp [hne, sub_testBit v m hv j hvj]
      rw [if_neg hand, hshr, heq, hveq]

theorem variation_surj (mask v : ℕ) (hv : v &&& mask = v) :
    ∃ i < 2 ^ count mask, get_occupancy_variation i (count mask) mask = some v := by
  obtain ⟨i, hi, heq⟩ := occVarClean_surj (count mask) mask 0 v rfl hv
  refine ⟨i, hi, ?_⟩
  unfold get_occupancy_variation
  rw [occVarGo_eq_clean (count mask) 0 i mask 0]
  simpa using heq

end Ananke

namespace Ananke

theorem testBit_shl_self (s : ℕ) : (1 <<< s).testBit s = true := by
  rw [Nat.one_shiftLeft, Nat.testBit_two_pow]
  simp

theorem slideRay_first_testBit (blockers : ℕ) (dr df r f : ℤ) (fuel : ℕ)
    (h : 0 ≤ r + dr ∧ r + dr ≤ 7 ∧ 0 ≤ f + df ∧ f + df ≤ 7) :
    (slideRay blockers dr df r f (fuel + 1)).testBit
      (((r + dr) * 8 + (f + df)).toNat) = true := by
  show (if 0 ≤ r + dr ∧ r + dr ≤ 7 ∧ 0 ≤ f + df ∧ f + df ≤ 7 then
      if get_bit blockers (((r + dr) * 8 + (f + df)).toNat)
      then 1 <<< (((r + dr) * 8 + (f + df)).toNat)
      else (1 <<< (((r + dr) * 8 + (f + df)).toNat)) |||
        slideRay blockers dr df (r + dr) (f + df) fuel
    else 0).testBit (((r + dr) * 8 + (f + df)).toNat) = true
  rw [if_pos h]
  split
  · exact testBit_shl_self _
  · rw [Nat.testBit_lor, testBit_shl_self]
    rfl

theorem ne_zero_of_testBit (x i : ℕ) (h : x.testBit i = true) : x ≠ 0 := by
  intro h0
  subst h0
  rw [Nat.zero_testBit] at h
  cases h

theorem lor_testBit_left (a b i : ℕ) (h : a.testBit i = true) :
    (a ||| b).testBit i = true := by
  rw [Nat.testBit_lor, h]
  rfl

theorem lor_testBit_right (a b i : ℕ) (h : b.testBit i = true) :
    (a ||| b).testBit i = true := by
  rw [Nat.testBit_lor, h]
  simp

theorem rook_slow_ne_zero (sq : ℕ) (hsq : sq < 64) (occ : ℕ) :
    generate_rook_attacks_slow sq occ ≠ 0 := by
  unfold generate_rook_attacks_slow
  dsimp only
  have h8 : sq / 8 ≤ 7 := by omega
  rcases Nat.lt_or_ge (sq / 8) 7 with h7 | h7
  · -- the up ray has a first step
    have hc : (0 : ℤ) ≤ ((sq / 8 : ℕ) : ℤ) + 1 ∧ ((sq / 8 : ℕ) : ℤ) + 1 ≤ 7 ∧
        (0 : ℤ) ≤ ((sq % 8 : ℕ) : ℤ) + 0 ∧ ((sq % 8 : ℕ) : ℤ) + 0 ≤ 7 := by
      have hm : sq % 8 < 8 := Nat.mod_lt _ (by norm_num)
      constructor
      · positivity
      refine ⟨?_, ?_, ?_⟩ <;> omega
    have := slideRay_first_testBit occ 1 0 ((sq / 8 : ℕ) : ℤ) ((sq % 8 : ℕ) : ℤ) 6 hc
    apply ne_zero_of_testBit _ _ (lor_testBit_left _ _ _ (lor_testBit_left _ _ _
      (lor_testBit_left _ _ _ this)))
  · -- sq is on the top rank: the down ray has a first step
    have h7' : sq / 8 = 7 := by omega
    have hc : (0 : ℤ) ≤ ((sq / 8 : ℕ) : ℤ) + (-1) ∧ ((sq / 8 : ℕ) : ℤ) + (-1) ≤ 7 ∧
        (0 : ℤ) ≤ ((sq % 8 : ℕ) : ℤ) + 0 ∧ ((sq % 8 : ℕ) : ℤ) + 0 ≤ 7 := by
      have hm : sq % 8 < 8 := Nat.mod_lt _ (by norm_num)
      refine ⟨?_, ?_, ?_, ?_⟩ <;> omega
    have := slideRay_first_testBit occ (-1) 0 ((sq / 8 : ℕ) : ℤ) ((sq % 8 : ℕ) : ℤ) 6 hc
    apply ne_zero_of_testBit _ _ (lor_testBit_left _ _ _ (lor_testBit_left _ _ _
      (lor_testBit_right _ _ _ this)))

theorem bishop_slow_ne_zero (sq : ℕ) (hsq : sq < 64) (occ : ℕ) :
    generate_bishop_attacks_slow sq occ ≠ 0 := by
  unfold generate_bishop_attacks_slow
  dsimp only
  have hm : sq % 8 < 8 := Nat.mod_lt _ (by norm_num)
  have h8 : sq / 8 ≤ 7 := by omega
  rcases Nat.lt_or_ge (sq / 8) 7 with hr | hr
  · rcases Nat.lt_or_ge (sq % 8) 7 with hf | hf
    · -- (1, 1)
      have hc : (0 : ℤ) ≤ ((sq / 8 : ℕ) : ℤ) + 1 ∧ ((sq / 8 : ℕ) : ℤ) + 1 ≤ 7 ∧
          (0 : ℤ) ≤ ((sq % 8 : ℕ) : ℤ) + 1 ∧ ((sq % 8 : ℕ) : ℤ) + 1 ≤ 7 := by
        refine ⟨?_, ?_, ?_, ?_⟩ <;> omega
      have := slideRay_first_testBit occ 1 1 ((sq / 8 : ℕ) : ℤ) ((sq % 8 : ℕ) : ℤ) 6 hc
      apply ne_zero_of_testBit _ _ (lor_testBit_left _ _ _ (lor_testBit_left _ _ _
        (lor_testBit_left _ _ _ this)))
    · -- (1, -1)
      have hc : (0 : ℤ) ≤ ((sq / 8 : ℕ) : ℤ) + 1 ∧ ((sq / 8 : ℕ) : ℤ) + 1 ≤ 7 ∧
          (0 : ℤ) ≤ ((sq % 8 : ℕ) : ℤ) + (-1) ∧ ((sq % 8 : ℕ) : ℤ) + (-1) ≤ 7 := by
        refine ⟨?_, ?_, ?_, ?_⟩ <;> omega
      have := slideRay_first_testBit occ 1 (-1) ((sq / 8 : ℕ) : ℤ) ((sq % 8 : ℕ) : ℤ) 6 hc
      apply ne_zero_of_testBit _ _ (lor_testBit_left _ _ _ (lor_testBit_left _ _ _
        (lor_testBit_right _ _ _ this)))
  · rcases Nat.lt_or_ge (sq % 8) 7 with hf | hf
    · -- (-1, 1)
      have hc : (0 : ℤ) ≤ ((sq / 8 : ℕ) : ℤ) + (-1) ∧ ((sq / 8 : ℕ) : ℤ) + (-1) ≤ 7 ∧
          (0 : ℤ) ≤ ((sq % 8 : ℕ) : ℤ) + 1 ∧ ((sq % 8 : ℕ) : ℤ) + 1 ≤ 7 := by
        refine ⟨?_, ?_, ?_, ?_⟩ <;> omega
      have := slideRay_first_testBit occ (-1) 1 ((sq / 8 : ℕ) : ℤ) ((sq % 8 : ℕ) : ℤ) 6 hc
      apply ne_zero_of_testBit _ _ (lor_testBit_left _ _ _ (lor_testBit_right _ _ _ this))
    · -- (-1, -1)
      have hc : (0 : ℤ) ≤ ((sq / 8 : ℕ) : ℤ) + (-1) ∧ ((sq / 8 : ℕ) : ℤ) + (-1) ≤ 7 ∧
          (0 : ℤ) ≤ ((sq % 8 : ℕ) : ℤ) + (-1) ∧ ((sq % 8 : ℕ) : ℤ) + (-1) ≤ 7 := by
        refine ⟨?_, ?_, ?_, ?_⟩ <;> omega
      have := slideRay_first_testBit occ (-1) (-1) ((sq / 8 : ℕ) : ℤ) ((sq % 8 : ℕ) : ℤ) 6 hc
      exact ne_zero_of_testBit _ _ (lor_testBit_right _ _ _ this)

theorem slowAttacks_ne_zero (isRook : Bool) (sq : ℕ) (hsq : sq < 64) (occ : ℕ) :
    slowAttacks isRook sq occ ≠ 0 := by
  unfold slowAttacks
  cases isRook
  · exact bishop_slow_ne_zero sq hsq occ
  · exact rook_slow_ne_zero sq hsq occ

end Ananke

namespace Ananke

theorem getD_set_self (l : List ℕ) (i a : ℕ) (h : i < l.length) :
    (l.set i a).getD i 0 = a := by
  simp [List.getD_eq_getElem?_getD, List.getElem?_set_self', h]

theorem getD_set_ne (l : List ℕ) (i a j : ℕ) (h : i ≠ j) :
    (l.set i a).getD j 0 = l.getD j 0 := by
  simp [List.getD_eq_getElem?_getD, List.getElem?_set_ne h]

theorem idx_lt_two_pow (x bits : ℕ) (hbits : bits ≤ 64) :
    (x % 2 ^ 64) >>> (64 - bits) < 2 ^ bits := by
  rw [Nat.shiftRight_eq_div_pow]
  apply Nat.div_lt_of_lt_mul
  calc x % 2 ^ 64 < 2 ^ 64 := Nat.mod_lt _ (by positivity)
    _ = 2 ^ (64 - bits) * 2 ^ bits := by rw [← pow_add]; congr 1; omega

theorem fill_chain (isRook : Bool) (sq mask n magic bits : ℕ)
    (hsq : sq < 64) (hbits : bits ≤ 64) :
    ∀ (l : ℕ) (t0 t : List ℕ), t0.length = 2 ^ bits →
      (List.range l).foldlM (fillStep isRook sq mask n magic (64 - bits)) t0 = some t →
      t.length = 2 ^ bits ∧
      (∀ i < l, ∃ occ, get_occupancy_variation i n mask = some occ ∧
        t.getD (((occ * magic) % 2 ^ 64) >>> (64 - bits)) 0 =
          slowAttacks isRook sq occ) := by
  intro l
  induction l with
  | zero =>
    intro t0 t hlen h
    simp only [List.range_zero, List.foldlM_nil] at h
    have ht : t0 = t := by simpa using h
    subst ht
    exact ⟨hlen, by omega⟩
  | succ l ih =>
    intro t0 t hlen h
    rw [List.range_succ, List.foldlM_append] at h
    simp only [Option.bind_eq_bind] at h
    cases hmid : (List.range l).foldlM (fillStep isRook sq mask n magic (64 - bits)) t0 with
    | none => rw [hmid] at h; simp at h
    | some t1 =>
      rw [hmid] at h
      simp only [Option.some_bind, List.foldlM_cons, List.foldlM_nil] at h
      obtain ⟨hlen1, hinv⟩ := ih t0 t1 hlen hmid
      -- h : fillStep ... t1 l >>= pure = some t
      have hstep : fillStep isRook sq mask n magic (64 - bits) t1 l = some t := by
        cases hfs : fillStep isRook sq mask n magic (64 - bits) t1 l with
        | none => rw [hfs] at h; simp at h
        | some t2 =>
          rw [hfs] at h
          simpa using h
      unfold fillStep at hstep
      cases hocc : get_occupancy_variation l n mask with
      | none => rw [hocc] at hstep; simp at hstep
      | some occ =>
        rw [hocc] at hstep
        simp only [Option.bind_eq_bind, Option.some_bind] at hstep
        set idx := ((occ * magic) % 2 ^ 64) >>> (64 - bits) with hidx
        have hidxlt : idx < 2 ^ bits := idx_lt_two_pow _ _ hbits
        split at hstep
        · -- empty slot: the attack set is written
          next hempty =>
            simp only [Option.some.injEq] at hstep
            subst hstep
            refine ⟨by simpa using hlen1, ?_⟩
            intro i hi
            rcases Nat.lt_or_ge i l with hil | hil
            · obtain ⟨o, ho, hval⟩ := hinv i hil
              refine ⟨o, ho, ?_⟩
              rcases eq_or_ne (((o * magic) % 2 ^ 64) >>> (64 - bits)) idx with heqi | hnei
              · rw [heqi] at hval
                rw [hval] at hempty
                exact absurd hempty (slowAttacks_ne_zero isRook sq hsq o)
              · rw [getD_set_ne t1 idx _ _ (Ne.symm hnei)]
                exact hval
            · have hieq : i = l := by omega
              subst hieq
              refine ⟨occ, hocc, ?_⟩
              exact getD_set_self t1 idx (slowAttacks isRook sq occ) (by omega)
        · -- constructive collision: the slot already holds this attack set
          split at hstep
          · next hsame =>
            simp only [Option.some.injEq] at hstep
            subst hstep
            refine ⟨hlen1, ?_⟩
            intro i hi
            rcases Nat.lt_or_ge i l with hil | hil
            · exact hinv i hil
            · have hieq : i = l := by omega
              subst hieq
              exact ⟨occ, hocc, hsame⟩
          · simp at hstep

/-- C3: after the magic tables are initialized, for every square and every
blocker set `v` inside the square's relevance mask, the table lookup of
`get_rook_attacks` / `get_bishop_attacks` (selected by `isRook`) returns
exactly the slow ray-walk attack set `generate_rook_attacks_slow` /
`generate_bishop_attacks_slow`. -/
theorem magic_tables_correct (isRook : Bool) (sq : ℕ) (hsq : sq < 64)
    (magic : ℕ) (t : List ℕ) (entry : MagicEntry) (table : ℕ → ℕ)
    (hready : entryReady isRook sq magic t entry table)
    (v : ℕ) (hv : v &&& maskFor isRook sq = v) :
    magic_lookup entry table v = slowAttacks isRook sq v := by
  obtain ⟨htry, hmask, hmagic, hshift, htab⟩ := hready
  have hbits : bitsFor isRook sq ≤ 64 := by
    unfold bitsFor
    have hrb : ∀ s, s < 64 → ROOK_BITS.getD s 0 ≤ 64 := by decide
    have hbb : ∀ s, s < 64 → BISHOP_BITS.getD s 0 ≤ 64 := by decide
    cases isRook
    · simpa using hbb sq hsq
    · simpa using hrb sq hsq
  unfold try_magic at htry
  obtain ⟨hlen, hinv⟩ :=
    fill_chain isRook sq (maskFor isRook sq) (count (maskFor isRook sq)) magic
      (bitsFor isRook sq) hsq hbits (2 ^ count (maskFor isRook sq))
      (List.replicate (2 ^ bitsFor isRook sq) 0) t (by simp) htry
  obtain ⟨i, hi, hvar⟩ := variation_surj (maskFor isRook sq) v hv
  obtain ⟨occ, hocc, hval⟩ := hinv i hi
  rw [hvar] at hocc
  have hocc' : occ = v := by injection hocc with h; exact h.symm
  subst hocc'
  unfold magic_lookup
  rw [hmask, hmagic, hshift, hv]
  rw [htab _ (idx_lt_two_pow (occ * magic) (bitsFor isRook sq) hbits)]
  exact hval

end Ananke

namespace Ananke

/-- A per-square table produced by a successful `find_magic` attempt for
the bishop on b1 (square 1, 5 relevant bits) with multiplier
`1161957299758109698`. -/
def witnessTable : List ℕ :=
  [36099303471056128, 137707914496, 525568, 525568, 268961024, 268961024, 525568, 525568,
   70506452092160, 137707914496, 1280, 1280, 268961024, 268961024, 1280, 1280,
   1280, 1280, 1280, 1280, 1280, 1280, 1280, 1280,
   1280, 1280, 525568, 525568, 1280, 1280, 525568, 525568]

/-- Witness for C3: a concrete initialized bishop entry for square b1 and
the blocker set `{b2}` (bit 10 of the relevance mask). -/
theorem magic_tables_correct_witness :
    magic_lookup ⟨mask_bishop 1, 1161957299758109698, 59, 0⟩
        (fun k => witnessTable.getD k 0) 1024 =
      slowAttacks false 1 1024 := by
  apply magic_tables_correct false 1 (by norm_num) 1161957299758109698 witnessTable
  · refine ⟨?_, rfl, rfl, rfl, ?_⟩
    · rfl
    · intro j hj
      rw [Nat.zero_add]
  · rfl

end Ananke

namespace Ananke

/-- `u64` well-formedness of a `Board`: every bitboard field fits in 64
bits and the en-passant square is a `Square` (0-63). -/
def WF (b : Board) : Prop :=
  (∀ i : Fin 6, b.white_pieces i < 2 ^ 64) ∧
  (∀ i : Fin 6, b.black_pieces i < 2 ^ 64) ∧
  b.white_occupancy < 2 ^ 64 ∧ b.black_occupancy < 2 ^ 64 ∧
  b.all_occupancy < 2 ^ 64 ∧
  (∀ t, b.en_passant_sq = some t → t < 64)

theorem testBit_not64 (x t : ℕ) (hx : x < 2 ^ 64) :
    (not64 x).testBit t = (decide (t < 64) && !x.testBit t) := by
  unfold not64 U64MASK
  rw [Nat.testBit_xor, Nat.testBit_two_pow_sub_one]
  rcases Nat.lt_or_ge t 64 with h | h
  · simp [h]
  · have hxf : x.testBit t = false :=
      Nat.testBit_lt_two_pow
        (lt_of_lt_of_le hx (Nat.pow_le_pow_right (by norm_num) h))
    simp [hxf, Nat.not_lt.mpr h, Nat.lt_of_lt_of_le]

theorem mem_bitList_lt (bb i : ℕ) (hb : bb < 2 ^ 64) (h : i ∈ bitList bb) :
    i < 64 :=
  testBit_true_lt bb i hb ((mem_bitList bb i).mp h)

theorem and_lt_right (a bb : ℕ) (hb : bb < 2 ^ 64) : a &&& bb < 2 ^ 64 :=
  Nat.lt_of_le_of_lt Nat.and_le_right hb

theorem and_lt_left (a bb : ℕ) (ha : a < 2 ^ 64) : a &&& bb < 2 ^ 64 :=
  Nat.lt_of_le_of_lt Nat.and_le_left ha

theorem testBit_shl (p k t : ℕ) :
    (p <<< k).testBit t = (decide (k ≤ t) && p.testBit (t - k)) :=
  Nat.testBit_shiftLeft p

theorem testBit_shr (p k t : ℕ) : (p >>> k).testBit t = p.testBit (k + t) :=
  Nat.testBit_shiftRight p

/-- Bits of the double-push destination mask `0x000000FF00000000`. -/
theorem testBit_dp_mask (t : ℕ) :
    (0x000000FF00000000 : ℕ).testBit t = (decide (32 ≤ t) && decide (t < 40)) := by
  rcases Nat.lt_or_ge t 64 with h | h
  · revert h
    revert t
    decide
  · have : (0x000000FF00000000 : ℕ).testBit t = false :=
      Nat.testBit_lt_two_pow
        (lt_of_lt_of_le (by norm_num) (Nat.pow_le_pow_right (by norm_num) h))
    rw [this]
    have h32 : (32 : ℕ) ≤ t := by omega
    have h40 : ¬(t < 40) := by omega
    simp [h32, h40]

/-- Bits of `NOT_H_FILE`: any square not on file h. -/
theorem testBit_not_h (t : ℕ) :
    NOT_H_FILE.testBit t = (decide (t < 64) && decide (t % 8 ≠ 7)) := by
  rcases Nat.lt_or_ge t 64 with h | h
  · revert h
    revert t
    decide
  · have : NOT_H_FILE.testBit t = false :=
      Nat.testBit_lt_two_pow
        (lt_of_lt_of_le (by norm_num [NOT_H_FILE])
          (Nat.pow_le_pow_right (by norm_num) h))
    rw [this]
    simp
    omega

/-- Bits of `NOT_A_FILE`: any square not on file a. -/
theorem testBit_not_a (t : ℕ) :
    NOT_A_FILE.testBit t = (decide (t < 64) && decide (t % 8 ≠ 0)) := by
  rcases Nat.lt_or_ge t 64 with h | h
  · revert h
    revert t
    decide
  · have : NOT_A_FILE.testBit t = false :=
      Nat.testBit_lt_two_pow
        (lt_of_lt_of_le (by norm_num [NOT_A_FILE])
          (Nat.pow_le_pow_right (by norm_num) h))
    rw [this]
    simp
    omega

end Ananke

namespace Ananke

/-- Classification of white pawn moves: every element of `pawn_moves` for a
white-to-move position is a packed move of one of the six pawn groups, with
the facts the position-update proofs need. -/
theorem mem_pawn_moves_w (b : Board) (hside : b.side_to_move = Color.White)
    (hwp : b.white_pieces 0 < 2 ^ 64) (hocc : b.all_occupancy < 2 ^ 64)
    (m : ℕ) (hm : m ∈ pawn_moves b) :
    ∃ f t, f < 64 ∧ t < 64 ∧
      ((m = mkMove f t Move.QUIET ∧ (b.white_pieces 0).testBit f = true ∧
          b.all_occupancy.testBit t = false ∧ t = f + 8 ∧ t / 8 ≠ 7) ∨
       (∃ fl, (fl = 8 ∨ fl = 9 ∨ fl = 10 ∨ fl = 11) ∧ m = mkMove f t fl ∧
          (b.white_pieces 0).testBit f = true ∧
          b.all_occupancy.testBit t = false ∧ t = f + 8 ∧ t / 8 = 7) ∨
       (m = mkMove f t Move.DOUBLE_PAWN_PUSH ∧
          (b.white_pieces 0).testBit f = true ∧
          b.all_occupancy.testBit t = false ∧ t = f + 16 ∧ 32 ≤ t ∧ t < 40) ∨
       (m = mkMove f t Move.CAPTURE ∧ (b.white_pieces 0).testBit f = true ∧
          b.black_occupancy.testBit t = true ∧ (t = f + 7 ∨ t = f + 9) ∧ t / 8 ≠ 7) ∨
       (∃ fl, (fl = 12 ∨ fl = 13 ∨ fl = 14 ∨ fl = 15) ∧ m = mkMove f t fl ∧
          (b.white_pieces 0).testBit f = true ∧
          b.black_occupancy.testBit t = true ∧ (t = f + 7 ∨ t = f + 9) ∧ t / 8 = 7) ∨
       (m = mkMove f t Move.EP_CAPTURE ∧ (b.white_pieces 0).testBit f = true ∧
          b.en_passant_sq = some t ∧ (t = f + 7 ∨ t = f + 9))) := by
  unfold pawn_moves at hm
  simp only [hside, eq_self_iff_true, if_true, List.mem_append] at hm
  have hempty : ∀ t : ℕ, (not64 b.all_occupancy).testBit t = true →
      t < 64 ∧ b.all_occupancy.testBit t = false := by
    intro t ht
    rw [testBit_not64 _ _ hocc] at ht
    simp at ht
    exact ⟨ht.1, ht.2⟩
  rcases hm with ((((hs | hd) | hl) | hr) | he)
  · -- single pushes
    rw [List.mem_flatMap] at hs
    obtain ⟨t, ht, hmem⟩ := hs
    rw [mem_bitList] at ht
    rw [Nat.testBit_land, Bool.and_eq_true, testBit_shl] at ht
    obtain ⟨hsh, hemp⟩ := ht
    simp only [Bool.and_eq_true, decide_eq_true_eq] at hsh
    obtain ⟨ht8, hpawn⟩ := hsh
    obtain ⟨htlt, hne⟩ := hempty t hemp
    refine ⟨t - 8, t, by omega, htlt, ?_⟩
    split at hmem
    · next hrank =>
      simp only [List.mem_cons, List.not_mem_nil, or_false] at hmem
      rcases hmem with h1 | h1 | h1 | h1 <;> subst h1
      · exact Or.inr (Or.inl ⟨8, by norm_num, rfl, hpawn, hne, by omega, hrank⟩)
      · exact Or.inr (Or.inl ⟨9, by norm_num, rfl, hpawn, hne, by omega, hrank⟩)
      · exact Or.inr (Or.inl ⟨10, by norm_num, rfl, hpawn, hne, by omega, hrank⟩)
      · exact Or.inr (Or.inl ⟨11, by norm_num, rfl, hpawn, hne, by omega, hrank⟩)
    · next hrank =>
      simp only [List.mem_cons, List.not_mem_nil, or_false] at hmem
      subst hmem
      exact Or.inl ⟨rfl, hpawn, hne, by omega, hrank⟩
  · -- double pushes
    rw [List.mem_map] at hd
    obtain ⟨t, ht, hmem⟩ := hd
    rw [mem_bitList] at ht
    rw [Nat.testBit_land, Bool.and_eq_true, testBit_dp_mask] at ht
    obtain ⟨hbody, hmask⟩ := ht
    simp only [Bool.and_eq_true, decide_eq_true_eq] at hmask
    rw [Nat.testBit_land, Bool.and_eq_true, testBit_shl] at hbody
    obtain ⟨hsh, hemp⟩ := hbody
    simp only [Bool.and_eq_true, decide_eq_true_eq] at hsh
    obtain ⟨ht8, hsingle⟩ := hsh
    -- the single-push bit at t - 8 carries the pawn at t - 16
    rw [Nat.testBit_land, Bool.and_eq_true, testBit_shl] at hsingle
    obtain ⟨hsh2, _⟩ := hsingle
    simp only [Bool.and_eq_true, decide_eq_true_eq] at hsh2
    obtain ⟨ht16, hpawn⟩ := hsh2
    obtain ⟨htlt, hne⟩ := hempty t hemp
    refine ⟨t - 16, t, by omega, htlt, ?_⟩
    refine Or.inr (Or.inr (Or.inl ?_))
    have hf : t - 8 - 8 = t - 16 := by omega
    rw [hf] at hpawn
    exact ⟨by rw [← hmem], hpawn, hne, by omega, hmask.1, hmask.2⟩
  · -- left captures
    rw [List.mem_flatMap] at hl
    obtain ⟨t, ht, hmem⟩ := hl
    rw [mem_bitList] at ht
    rw [Nat.testBit_land, Bool.and_eq_true] at ht
    obtain ⟨hatt, henem⟩ := ht
    rw [Nat.testBit_land, Bool.and_eq_true, testBit_shl, testBit_not_h] at hatt
    obtain ⟨hsh, hfile⟩ := hatt
    simp only [Bool.and_eq_true, decide_eq_true_eq] at hsh hfile
    obtain ⟨ht7, hpawn⟩ := hsh
    refine ⟨t - 7, t, by omega, hfile.1, ?_⟩
    split at hmem
    · next hrank =>
      simp only [List.mem_cons, List.not_mem_nil, or_false] at hmem
      rcases hmem with h1 | h1 | h1 | h1 <;> subst h1
      · exact Or.inr (Or.inr (Or.inr (Or.inr (Or.inl
          ⟨12, by norm_num, rfl, hpawn, henem, Or.inl (by omega), hrank⟩))))
      · exact Or.inr (Or.inr (Or.inr (Or.inr (Or.inl
          ⟨13, by norm_num, rfl, hpawn, henem, Or.inl (by omega), hrank⟩))))
      · exact Or.inr (Or.inr (Or.inr (Or.inr (Or.inl
          ⟨14, by norm_num, rfl, hpawn, henem, Or.inl (by omega), hrank⟩))))
      · exact Or.inr (Or.inr (Or.inr (Or.inr (Or.inl
          ⟨15, by norm_num, rfl, hpawn, henem, Or.inl (by omega), hrank⟩))))
    · next hrank =>
      simp only [List.mem_cons, List.not_mem_nil, or_false] at hmem
      subst hmem
      exact Or.inr (Or.inr (Or.inr (Or.inl ⟨rfl, hpawn, henem, Or.inl (by omega), hrank⟩)))
  · -- right captures
    rw [List.mem_flatMap] at hr
    obtain ⟨t, ht, hmem⟩ := hr
    rw [mem_bitList] at ht
    rw [Nat.testBit_land, Bool.and_eq_true] at ht
    obtain ⟨hatt, henem⟩ := ht
    rw [Nat.testBit_land, Bool.and_eq_true, testBit_shl, testBit_not_a] at hatt
    obtain ⟨hsh, hfile⟩ := hatt
    simp only [Bool.and_eq_true, decide_eq_true_eq] at hsh hfile
    obtain ⟨ht9, hpawn⟩ := hsh
    refine ⟨t - 9, t, by omega, hfile.1, ?_⟩
    split at hmem
    · next hrank =>
      simp only [List.mem_cons, List.not_mem_nil, or_false] at hmem
      rcases hmem with h1 | h1 | h1 | h1 <;> subst h1
      · exact Or.inr (Or.inr (Or.inr (Or.inr (Or.inl
          ⟨12, by norm_num, rfl, hpawn, henem, Or.inr (by omega), hrank⟩))))
      · exact Or.inr (Or.inr (Or.inr (Or.inr (Or.inl
          ⟨13, by norm_num, rfl, hpawn, henem, Or.inr (by omega), hrank⟩))))
      · exact Or.inr (Or.inr (Or.inr (Or.inr (Or.inl
          ⟨14, by norm_num, rfl, hpawn, henem, Or.inr (by omega), hrank⟩))))
      · exact Or.inr (Or.inr (Or.inr (Or.inr (Or.inl
          ⟨15, by norm_num, rfl, hpawn, henem, Or.inr (by omega), hrank⟩))))
    · next hrank =>
      simp only [List.mem_cons, List.not_mem_nil, or_false] at hmem
      subst hmem
      exact Or.inr (Or.inr (Or.inr (Or.inl ⟨rfl, hpawn, henem, Or.inr (by omega), hrank⟩)))
  · -- en passant
    cases hep : b.en_passant_sq with
    | none => rw [hep] at he; simp at he
    | some ep =>
      rw [hep] at he
      rw [List.mem_append] at he
      rcases he with he | he
      · split at he
        · next hhit =>
          simp only [List.mem_cons, List.not_mem_nil, or_false] at he
          subst he
          have hb' : ((b.white_pieces 0 <<< 7) &&& NOT_H_FILE).testBit ep = true := by
            have := hhit
            rw [Nat.one_shiftLeft, Nat.and_two_pow] at this
            cases hcc : ((b.white_pieces 0 <<< 7) &&& NOT_H_FILE).testBit ep
            · rw [hcc] at this; simp at this
            · rfl
          rw [Nat.testBit_land, Bool.and_eq_true, testBit_shl, testBit_not_h] at hb'
          obtain ⟨hsh, hfile⟩ := hb'
          simp only [Bool.and_eq_true, decide_eq_true_eq] at hsh hfile
          obtain ⟨he7, hpawn⟩ := hsh
          exact ⟨ep - 7, ep, by omega, hfile.1,
            Or.inr (Or.inr (Or.inr (Or.inr (Or.inr ⟨rfl, hpawn, rfl, Or.inl (by omega)⟩))))⟩
        · simp at he
      · split at he
        · next hhit =>
          simp only [List.mem_cons, List.not_mem_nil, or_false] at he
          subst he
          have hb' : ((b.white_pieces 0 <<< 9) &&& NOT_A_FILE).testBit ep = true := by
            have := hhit
            rw [Nat.one_shiftLeft, Nat.and_two_pow] at this
            cases hcc : ((b.white_pieces 0 <<< 9) &&& NOT_A_FILE).testBit ep
            · rw [hcc] at this; simp at this
            · rfl
          rw [Nat.testBit_land, Bool.and_eq_true, testBit_shl, testBit_not_a] at hb'
          obtain ⟨hsh, hfile⟩ := hb'
          simp only [Bool.and_eq_true, decide_eq_true_eq] at hsh hfile
          obtain ⟨he9, hpawn⟩ := hsh
          exact ⟨ep - 9, ep, by omega, hfile.1,
            Or.inr (Or.inr (Or.inr (Or.inr (Or.inr ⟨rfl, hpawn, rfl, Or.inr (by omega)⟩))))⟩
        · simp at he

end Ananke

namespace Ananke

/-- Classification of black pawn moves; mirror of `mem_pawn_moves_w`. -/
theorem mem_pawn_moves_b (b : Board) (hside : b.side_to_move = Color.Black)
    (hbp : b.black_pieces 0 < 2 ^ 64) (hocc : b.all_occupancy < 2 ^ 64)
    (m : ℕ) (hm : m ∈ pawn_moves b) :
    ∃ f t, f < 64 ∧ t < 64 ∧
      ((m = mkMove f t Move.QUIET ∧ (b.black_pieces 0).testBit f = true ∧
          b.all_occupancy.testBit t = false ∧ f = t + 8 ∧ t / 8 ≠ 0) ∨
       (∃ fl, (fl = 8 ∨ fl = 9 ∨ fl = 10 ∨ fl = 11) ∧ m = mkMove f t fl ∧
          (b.black_pieces 0).testBit f = true ∧
          b.all_occupancy.testBit t = false ∧ f = t + 8 ∧ t / 8 = 0) ∨
       (m = mkMove f t Move.DOUBLE_PAWN_PUSH ∧
          (b.black_pieces 0).testBit f = true ∧
          b.all_occupancy.testBit t = false ∧ f = t + 16 ∧ 32 ≤ t ∧ t < 40) ∨
       (m = mkMove f t Move.CAPTURE ∧ (b.black_pieces 0).testBit f = true ∧
          b.white_occupancy.testBit t = true ∧ (f = t + 9 ∨ f = t + 7) ∧ t / 8 ≠ 0) ∨
       (∃ fl, (fl = 12 ∨ fl = 13 ∨ fl = 14 ∨ fl = 15) ∧ m = mkMove f t fl ∧
          (b.black_pieces 0).testBit f = true ∧
          b.white_occupancy.testBit t = true ∧ (f = t + 9 ∨ f = t + 7) ∧ t / 8 = 0) ∨
       (m = mkMove f t Move.EP_CAPTURE ∧ (b.black_pieces 0).testBit f = true ∧
          b.en_passant_sq = some t ∧ (f = t + 9 ∨ f = t + 7))) := by
  unfold pawn_moves at hm
  have hneq : ¬(b.side_to_move = Color.White) := by rw [hside]; intro h; cases h
  simp only [if_neg hneq, List.mem_append] at hm
  have hempty : ∀ t : ℕ, (not64 b.all_occupancy).testBit t = true →
      t < 64 ∧ b.all_occupancy.testBit t = false := by
    intro t ht
    rw [testBit_not64 _ _ hocc] at ht
    simp at ht
    exact ⟨ht.1, ht.2⟩
  rcases hm with ((((hs | hd) | hl) | hr) | he)
  · -- single pushes
    rw [List.mem_flatMap] at hs
    obtain ⟨t, ht, hmem⟩ := hs
    rw [mem_bitList] at ht
    rw [Nat.testBit_land, Bool.and_eq_true, testBit_shr] at ht
    obtain ⟨hpawn, hemp⟩ := ht
    obtain ⟨htlt, hne⟩ := hempty t hemp
    have hf64 : 8 + t < 64 := testBit_true_lt _ _ hbp hpawn
    refine ⟨t + 8, t, by omega, htlt, ?_⟩
    have hpawn' : (b.black_pieces 0).testBit (t + 8) = true := by
      rw [show t + 8 = 8 + t by omega]; exact hpawn
    split at hmem
    · next hrank =>
      simp only [List.mem_cons, List.not_mem_nil, or_false] at hmem
      rcases hmem with h1 | h1 | h1 | h1 <;> subst h1
      · exact Or.inr (Or.inl ⟨8, by norm_num, rfl, hpawn', hne, rfl, hrank⟩)
      · exact Or.inr (Or.inl ⟨9, by norm_num, rfl, hpawn', hne, rfl, hrank⟩)
      · exact Or.inr (Or.inl ⟨10, by norm_num, rfl, hpawn', hne, rfl, hrank⟩)
      · exact Or.inr (Or.inl ⟨11, by norm_num, rfl, hpawn', hne, rfl, hrank⟩)
    · next hrank =>
      simp only [List.mem_cons, List.not_mem_nil, or_false] at hmem
      subst hmem
      exact Or.inl ⟨rfl, hpawn', hne, rfl, hrank⟩
  · -- double pushes
    rw [List.mem_map] at hd
    obtain ⟨t, ht, hmem⟩ := hd
    rw [mem_bitList] at ht
    rw [Nat.testBit_land, Bool.and_eq_true, testBit_dp_mask] at ht
    obtain ⟨hbody, hmask⟩ := ht
    simp only [Bool.and_eq_true, decide_eq_true_eq] at hmask
    rw [Nat.testBit_land, Bool.and_eq_true, testBit_shr] at hbody
    obtain ⟨hsingle, hemp⟩ := hbody
    rw [Nat.testBit_land, Bool.and_eq_true, testBit_shr] at hsingle
    obtain ⟨hpawn, _⟩ := hsingle
    obtain ⟨htlt, hne⟩ := hempty t hemp
    have hf64 : 8 + (8 + t) < 64 := testBit_true_lt _ _ hbp hpawn
    refine ⟨t + 16, t, by omega, htlt, ?_⟩
    refine Or.inr (Or.inr (Or.inl ?_))
    have hpawn' : (b.black_pieces 0).testBit (t + 16) = true := by
      rw [show t + 16 = 8 + (8 + t) by omega]; exact hpawn
    exact ⟨by rw [← hmem], hpawn', hne, rfl, hmask.1, hmask.2⟩
  · -- left captures
    rw [List.mem_flatMap] at hl
    obtain ⟨t, ht, hmem⟩ := hl
    rw [mem_bitList] at ht
    rw [Nat.testBit_land, Bool.and_eq_true] at ht
    obtain ⟨hatt, henem⟩ := ht
    rw [Nat.testBit_land, Bool.and_eq_true, testBit_shr, testBit_not_h] at hatt
    obtain ⟨hpawn, hfile⟩ := hatt
    simp only [Bool.and_eq_true, decide_eq_true_eq] at hfile
    have hf64 : 9 + t < 64 := testBit_true_lt _ _ hbp hpawn
    have hpawn' : (b.black_pieces 0).testBit (t + 9) = true := by
      rw [show t + 9 = 9 + t by omega]; exact hpawn
    refine ⟨t + 9, t, by omega, hfile.1, ?_⟩
    split at hmem
    · next hrank =>
      simp only [List.mem_cons, List.not_mem_nil, or_false] at hmem
      rcases hmem with h1 | h1 | h1 | h1 <;> subst h1
      · exact Or.inr (Or.inr (Or.inr (Or.inr (Or.inl
          ⟨12, by norm_num, rfl, hpawn', henem, Or.inl rfl, hrank⟩))))
      · exact Or.inr (Or.inr (Or.inr (Or.inr (Or.inl
          ⟨13, by norm_num, rfl, hpawn', henem, Or.inl rfl, hrank⟩))))
      · exact Or.inr (Or.inr (Or.inr (Or.inr (Or.inl
          ⟨14, by norm_num, rfl, hpawn', henem, Or.inl rfl, hrank⟩))))
      · exact Or.inr (Or.inr (Or.inr (Or.inr (Or.inl
          ⟨15, by norm_num, rfl, hpawn', henem, Or.inl rfl, hrank⟩))))
    · next hrank =>
      simp only [List.mem_cons, List.not_mem_nil, or_false] at hmem
      subst hmem
      exact Or.inr (Or.inr (Or.inr (Or.inl ⟨rfl, hpawn', henem, Or.inl rfl, hrank⟩)))
  · -- right captures
    rw [List.mem_flatMap] at hr
    obtain ⟨t, ht, hmem⟩ := hr
    rw [mem_bitList] at ht
    rw [Nat.testBit_land, Bool.and_eq_true] at ht
    obtain ⟨hatt, henem⟩ := ht
    rw [Nat.testBit_land, Bool.and_eq_true, testBit_shr, testBit_not_a] at hatt
    obtain ⟨hpawn, hfile⟩ := hatt
    simp only [Bool.and_eq_true, decide_eq_true_eq] at hfile
    have hf64 : 7 + t < 64 := testBit_true_lt _ _ hbp hpawn
    have hpawn' : (b.black_pieces 0).testBit (t + 7) = true := by
      rw [show t + 7 = 7 + t by omega]; exact hpawn
    refine ⟨t + 7, t, by omega, hfile.1, ?_⟩
    split at hmem
    · next hrank =>
      simp only [List.mem_cons, List.not_mem_nil, or_false] at hmem
      rcases hmem with h1 | h1 | h1 | h1 <;> subst h1
      · exact Or.inr (Or.inr (Or.inr (Or.inr (Or.inl
          ⟨12, by norm_num, rfl, hpawn', henem, Or.inr rfl, hrank⟩))))
      · exact Or.inr (Or.inr (Or.inr (Or.inr (Or.inl
          ⟨13, by norm_num, rfl, hpawn', henem, Or.inr rfl, hrank⟩))))
      · exact Or.inr (Or.inr (Or.inr (Or.inr (Or.inl
          ⟨14, by norm_num, rfl, hpawn', henem, Or.inr rfl, hrank⟩))))
      · exact Or.inr (Or.inr (Or.inr (Or.inr (Or.inl
          ⟨15, by norm_num, rfl, hpawn', henem, Or.inr rfl, hrank⟩))))
    · next hrank =>
      simp only [List.mem_cons, List.not_mem_nil, or_false] at hmem
      subst hmem
      exact Or.inr (Or.inr (Or.inr (Or.inl ⟨rfl, hpawn', henem, Or.inr rfl, hrank⟩)))
  · -- en passant
    cases hep : b.en_passant_sq with
    | none => rw [hep] at he; simp at he
    | some ep =>
      rw [hep] at he
      rw [List.mem_append] at he
      rcases he with he | he
      · split at he
        · next hhit =>
          simp only [List.mem_cons, List.not_mem_nil, or_false] at he
          subst he
          have hb' : ((b.black_pieces 0 >>> 9) &&& NOT_H_FILE).testBit ep = true := by
            have := hhit
            rw [Nat.one_shiftLeft, Nat.and_two_pow] at this
            cases hcc : ((b.black_pieces 0 >>> 9) &&& NOT_H_FILE).testBit ep
            · rw [hcc] at this; simp at this
            · rfl
          rw [Nat.testBit_land, Bool.and_eq_true, testBit_shr, testBit_not_h] at hb'
          obtain ⟨hpawn, hfile⟩ := hb'
          simp only [Bool.and_eq_true, decide_eq_true_eq] at hfile
          have hf64 : 9 + ep < 64 := testBit_true_lt _ _ hbp hpawn
          have hpawn' : (b.black_pieces 0).testBit (ep + 9) = true := by
            rw [show ep + 9 = 9 + ep by omega]; exact hpawn
          exact ⟨ep + 9, ep, by omega, hfile.1,
            Or.inr (Or.inr (Or.inr (Or.inr (Or.inr ⟨rfl, hpawn', rfl, Or.inl rfl⟩))))⟩
        · simp at he
      · split at he
        · next hhit =>
          simp only [List.mem_cons, List.not_mem_nil, or_false] at he
          subst he
          have hb' : ((b.black_pieces 0 >>> 7) &&& NOT_A_FILE).testBit ep = true := by
            have := hhit
            rw [Nat.one_shiftLeft, Nat.and_two_pow] at this
            cases hcc : ((b.black_pieces 0 >>> 7) &&& NOT_A_FILE).testBit ep
            · rw [hcc] at this; simp at this
            · rfl
          rw [Nat.testBit_land, Bool.and_eq_true, testBit_shr, testBit_not_a] at hb'
          obtain ⟨hpawn, hfile⟩ := hb'
          simp only [Bool.and_eq_true, decide_eq_true_eq] at hfile
          have hf64 : 7 + ep < 64 := testBit_true_lt _ _ hbp hpawn
          have hpawn' : (b.black_pieces 0).testBit (ep + 7) = true := by
            rw [show ep + 7 = 7 + ep by omega]; exact hpawn
          exact ⟨ep + 7, ep, by omega, hfile.1,
            Or.inr (Or.inr (Or.inr (Or.inr (Or.inr ⟨rfl, hpawn', rfl, Or.inr rfl⟩))))⟩
        · simp at he

end Ananke

namespace Ananke

theorem slideRay_lt (blockers : ℕ) (dr df : ℤ) :
    ∀ fuel r f, slideRay blockers dr df r f fuel < 2 ^ 64 := by
  intro fuel
  induction fuel with
  | zero => intro r f; rw [slideRay]; norm_num
  | succ n ih =>
    intro r f
    rw [slideRay]
    dsimp only
    split
    · next hc =>
      have hs : ((r + dr) * 8 + (f + df)).toNat < 64 := by omega
      have hp : (1 : ℕ) <<< ((r + dr) * 8 + (f + df)).toNat < 2 ^ 64 := by
        rw [Nat.one_shiftLeft]
        exact Nat.pow_lt_pow_right (by norm_num) hs
      split
      · exact hp
      · exact Nat.or_lt_two_pow hp (ih _ _)
    · norm_num

theorem rook_slow_lt (sq blockers : ℕ) :
    generate_rook_attacks_slow sq blockers < 2 ^ 64 := by
  unfold generate_rook_attacks_slow
  exact Nat.or_lt_two_pow (Nat.or_lt_two_pow (Nat.or_lt_two_pow
    (slideRay_lt _ _ _ _ _ _) (slideRay_lt _ _ _ _ _ _)) (slideRay_lt _ _ _ _ _ _))
    (slideRay_lt _ _ _ _ _ _)

theorem bishop_slow_lt (sq blockers : ℕ) :
    generate_bishop_attacks_slow sq blockers < 2 ^ 64 := by
  unfold generate_bishop_attacks_slow
  exact Nat.or_lt_two_pow (Nat.or_lt_two_pow (Nat.or_lt_two_pow
    (slideRay_lt _ _ _ _ _ _) (slideRay_lt _ _ _ _ _ _)) (slideRay_lt _ _ _ _ _ _))
    (slideRay_lt _ _ _ _ _ _)

theorem mkMove_inj (f t fl f2 t2 fl2 : ℕ) (hf : f < 64) (ht : t < 64)
    (hfl : fl < 16) (hf2 : f2 < 64) (ht2 : t2 < 64) (hfl2 : fl2 < 16)
    (h : mkMove f t fl = mkMove f2 t2 fl2) : f = f2 ∧ t = t2 ∧ fl = fl2 := by
  rw [mkMove_eq f t fl hf ht hfl, mkMove_eq f2 t2 fl2 hf2 ht2 hfl2] at h
  omega

theorem tz_shl (s : ℕ) : tz (1 <<< s) = s := by
  rw [Nat.one_shiftLeft]
  have hne : (2 : ℕ) ^ s ≠ 0 := by positivity
  have h1 := tz_testBit _ hne
  rw [Nat.testBit_two_pow] at h1
  exact (of_decide_eq_true h1).symm

theorem count_one_shl (k : ℕ) (h : count k = 1) : k = 1 <<< tz k := by
  have hk : k ≠ 0 := by
    intro h0
    rw [h0, (count_eq_zero 0).mpr rfl] at h
    · exact absurd h (by norm_num)
  have h2 := count_pop k hk
  have h3 : k &&& (k - 1) = 0 := (count_eq_zero _).mp (by omega)
  apply Nat.eq_of_testBit_eq
  intro i
  rw [Nat.one_shiftLeft, Nat.testBit_two_pow]
  rcases eq_or_ne i (tz k) with rfl | hne
  · simp [tz_testBit k hk]
  · have h4 := congrArg (fun x => Nat.testBit x i) h3
    simp only [Nat.zero_testBit] at h4
    rw [testBit_land_pred k hk i] at h4
    simp only [hne, decide_True, Bool.and_true, ne_eq, not_false_iff] at h4
    rw [h4]
    simp [Ne.symm hne]

/-- Shape of the knight/king-step/slider emission pattern: a `flatMap` over
piece squares of a `map` over attack squares. -/
theorem mem_step_moves (P E : ℕ) (att : ℕ → ℕ) (hP : P < 2 ^ 64)
    (hA : ∀ f, att f < 2 ^ 64) (m : ℕ)
    (hm : m ∈ (bitList P).flatMap (fun f =>
      (bitList (att f)).map (fun t =>
        mkMove f t (if get_bit E t then Move.CAPTURE else Move.QUIET)))) :
    ∃ f t fl, f < 64 ∧ t < 64 ∧ fl < 16 ∧ fl ≠ 2 ∧ fl ≠ 3 ∧ m = mkMove f t fl := by
  rw [List.mem_flatMap] at hm
  obtain ⟨f, hf, hm⟩ := hm
  rw [List.mem_map] at hm
  obtain ⟨t, ht, hmk⟩ := hm
  rw [mem_bitList] at hf ht
  refine ⟨f, t, if get_bit E t then Move.CAPTURE else Move.QUIET,
    testBit_true_lt _ _ hP hf, testBit_true_lt _ _ (hA f) ht, ?_, ?_, ?_, hmk.symm⟩ <;>
    cases hgb : get_bit E t <;> simp [hgb, Move.CAPTURE, Move.QUIET]

/-- Every pawn-generated move has a flag other than the castle flags, with
in-range packed fields. -/
theorem pawn_move_shape (b : Board) (hwp : b.white_pieces 0 < 2 ^ 64)
    (hbp : b.black_pieces 0 < 2 ^ 64) (hocc : b.all_occupancy < 2 ^ 64)
    (m : ℕ) (hm : m ∈ pawn_moves b) :
    ∃ f t fl, f < 64 ∧ t < 64 ∧ fl < 16 ∧ fl ≠ 2 ∧ fl ≠ 3 ∧ m = mkMove f t fl := by
  cases hside : b.side_to_move with
  | White =>
    obtain ⟨f, t, hf, ht, hc⟩ := mem_pawn_moves_w b hside hwp hocc m hm
    rcases hc with ⟨h1, -⟩ | ⟨fl, hflv, h1, -⟩ | ⟨h1, -⟩ | ⟨h1, -⟩ | ⟨fl, hflv, h1, -⟩ |
      ⟨h1, -⟩
    · exact ⟨f, t, _, hf, ht, by norm_num [Move.QUIET], by norm_num [Move.QUIET],
        by norm_num [Move.QUIET], h1⟩
    · refine ⟨f, t, fl, hf, ht, ?_, ?_, ?_, h1⟩ <;> rcases hflv with rfl | rfl | rfl | rfl <;>
        norm_num
    · exact ⟨f, t, _, hf, ht, by norm_num [Move.DOUBLE_PAWN_PUSH],
        by norm_num [Move.DOUBLE_PAWN_PUSH], by norm_num [Move.DOUBLE_PAWN_PUSH], h1⟩
    · exact ⟨f, t, _, hf, ht, by norm_num [Move.CAPTURE], by norm_num [Move.CAPTURE],
        by norm_num [Move.CAPTURE], h1⟩
    · refine ⟨f, t, fl, hf, ht, ?_, ?_, ?_, h1⟩ <;> rcases hflv with rfl | rfl | rfl | rfl <;>
        norm_num
    · exact ⟨f, t, _, hf, ht, by norm_num [Move.EP_CAPTURE], by norm_num [Move.EP_CAPTURE],
        by norm_num [Move.EP_CAPTURE], h1⟩
  | Black =>
    obtain ⟨f, t, hf, ht, hc⟩ := mem_pawn_moves_b b hside hbp hocc m hm
    rcases hc with ⟨h1, -⟩ | ⟨fl, hflv, h1, -⟩ | ⟨h1, -⟩ | ⟨h1, -⟩ | ⟨fl, hflv, h1, -⟩ |
      ⟨h1, -⟩
    · exact ⟨f, t, _, hf, ht, by norm_num [Move.QUIET], by norm_num [Move.QUIET],
        by norm_num [Move.QUIET], h1⟩
    · refine ⟨f, t, fl, hf, ht, ?_, ?_, ?_, h1⟩ <;> rcases hflv with rfl | rfl | rfl | rfl <;>
        norm_num
    · exact ⟨f, t, _, hf, ht, by norm_num [Move.DOUBLE_PAWN_PUSH],
        by norm_num [Move.DOUBLE_PAWN_PUSH], by norm_num [Move.DOUBLE_PAWN_PUSH], h1⟩
    · exact ⟨f, t, _, hf, ht, by norm_num [Move.CAPTURE], by norm_num [Move.CAPTURE],
        by norm_num [Move.CAPTURE], h1⟩
    · refine ⟨f, t, fl, hf, ht, ?_, ?_, ?_, h1⟩ <;> rcases hflv with rfl | rfl | rfl | rfl <;>
        norm_num
    · exact ⟨f, t, _, hf, ht, by norm_num [Move.EP_CAPTURE], by norm_num [Move.EP_CAPTURE],
        by norm_num [Move.EP_CAPTURE], h1⟩

end Ananke

namespace Ananke

theorem knight_attacks_lt (sq : ℕ) : generate_knight_attacks sq < 2 ^ 64 := by
  have h : generate_knight_attacks sq ≤ U64MASK := by
    unfold generate_knight_attacks
    exact Nat.and_le_right
  have h2 : U64MASK < 2 ^ 64 := by norm_num [U64MASK]
  omega

theorem king_attacks_lt (sq : ℕ) : generate_king_attacks sq < 2 ^ 64 := by
  have h : generate_king_attacks sq ≤ U64MASK := by
    unfold generate_king_attacks
    exact Nat.and_le_right
  have h2 : U64MASK < 2 ^ 64 := by norm_num [U64MASK]
  omega

/-- Every slider-generated move has a non-castle flag. -/
theorem slider_move_shape (b : Board) (pt : PieceType) (isr isb2 : Bool)
    (hw : ∀ i : Fin 6, b.white_pieces i < 2 ^ 64)
    (hbk : ∀ i : Fin 6, b.black_pieces i < 2 ^ 64)
    (m : ℕ) (hm : m ∈ slider_moves_for b pt isr isb2) :
    ∃ f t fl, f < 64 ∧ t < 64 ∧ fl < 16 ∧ fl ≠ 2 ∧ fl ≠ 3 ∧ m = mkMove f t fl := by
  unfold slider_moves_for at hm
  dsimp only at hm
  refine mem_step_moves _ _
    (fun f =>
      ((if isr then rook_attacks_init f b.all_occupancy else 0) |||
       (if isb2 then bishop_attacks_init f b.all_occupancy else 0)) &&&
      not64 (if b.side_to_move = Color.White then b.white_occupancy
             else b.black_occupancy))
    ?_ ?_ m hm
  · split
    · exact hw pt
    · exact hbk pt
  · intro f
    refine lt_of_le_of_lt Nat.and_le_left (Nat.or_lt_two_pow ?_ ?_)
    · split
      · exact rook_slow_lt _ _
      · norm_num
    · split
      · exact bishop_slow_lt _ _
      · norm_num

/-- Shape of one square's `map` over attack squares. -/
theorem mem_map_step (f0 A E : ℕ) (hf0 : f0 < 64) (hA : A < 2 ^ 64) (m : ℕ)
    (hm : m ∈ (bitList A).map (fun t =>
      mkMove f0 t (if get_bit E t then Move.CAPTURE else Move.QUIET))) :
    ∃ f t fl, f < 64 ∧ t < 64 ∧ fl < 16 ∧ fl ≠ 2 ∧ fl ≠ 3 ∧ m = mkMove f t fl := by
  rw [List.mem_map] at hm
  obtain ⟨t, ht, hmk⟩ := hm
  rw [mem_bitList] at ht
  refine ⟨f0, t, if get_bit E t then Move.CAPTURE else Move.QUIET,
    hf0, testBit_true_lt _ _ hA ht, ?_, ?_, ?_, hmk.symm⟩ <;>
    cases hgb : get_bit E t <;> simp [hgb, Move.CAPTURE, Move.QUIET]

theorem lsb_index_lt (k f0 : ℕ) (hk : k < 2 ^ 64) (h : lsb_index k = some f0) :
    f0 < 64 := by
  unfold lsb_index at h
  split at h
  · exact absurd h (by simp)
  · next hne =>
    simp only [Option.some.injEq] at h
    subst h
    exact testBit_true_lt _ _ hk (tz_testBit _ hne)

/-- A move carrying a castle flag can only have been emitted by
`generate_castling_moves`, from the king square popped in
`generate_king_moves`. -/
theorem castle_member (b : Board)
    (hw : ∀ i : Fin 6, b.white_pieces i < 2 ^ 64)
    (hbk : ∀ i : Fin 6, b.black_pieces i < 2 ^ 64)
    (hocc : b.all_occupancy < 2 ^ 64)
    (fa ta fla : ℕ) (hfa : fa < 64) (hta : ta < 64) (hfla : fla = 2 ∨ fla = 3)
    (hm : mkMove fa ta fla ∈ generate_all b) :
    ∃ f0, lsb_index (if b.side_to_move = Color.White then b.white_pieces 5
        else b.black_pieces 5) = some f0 ∧
      mkMove fa ta fla ∈ castling_moves b f0
        (decide (b.side_to_move = Color.White)) := by
  unfold generate_all at hm
  rcases List.mem_append.mp hm with hm2 | hmS
  · rcases List.mem_append.mp hm2 with hm3 | hmK
    · rcases List.mem_append.mp hm3 with hmP | hmN
      · obtain ⟨f, t, fl, hf, ht, hfl, h2, h3, he⟩ :=
          pawn_move_shape b (hw 0) (hbk 0) hocc _ hmP
        obtain ⟨-, -, hq⟩ := mkMove_inj fa ta fla f t fl hfa hta (by omega) hf ht hfl he
        omega
      · unfold knight_moves at hmN
        dsimp only at hmN
        obtain ⟨f, t, fl, hf, ht, hfl, h2, h3, he⟩ :=
          mem_step_moves _ _
            (fun f => generate_knight_attacks f &&&
              not64 (if b.side_to_move = Color.White then b.white_occupancy
                     else b.black_occupancy))
            (by split
                · exact hw 1
                · exact hbk 1)
            (fun f => lt_of_le_of_lt Nat.and_le_left (knight_attacks_lt f)) _ hmN
        obtain ⟨-, -, hq⟩ := mkMove_inj fa ta fla f t fl hfa hta (by omega) hf ht hfl he
        omega
    · unfold king_moves at hmK
      dsimp only at hmK
      cases hlsb : lsb_index (if b.side_to_move = Color.White then b.white_pieces 5
          else b.black_pieces 5) with
      | none => rw [hlsb] at hmK; simp at hmK
      | some f0 =>
        rw [hlsb] at hmK
        rcases List.mem_append.mp hmK with hmKs | hmKc
        · have hkb : (if b.side_to_move = Color.White then b.white_pieces 5
              else b.black_pieces 5) < 2 ^ 64 := by
            split
            · exact hw 5
            · exact hbk 5
          obtain ⟨f, t, fl, hf, ht, hfl, h2, h3, he⟩ :=
            mem_map_step f0
              (generate_king_attacks f0 &&&
                not64 (if b.side_to_move = Color.White then b.white_occupancy
                       else b.black_occupancy)) _
              (lsb_index_lt _ _ hkb hlsb)
              (lt_of_le_of_lt Nat.and_le_left (king_attacks_lt f0)) _ hmKs
          obtain ⟨-, -, hq⟩ := mkMove_inj fa ta fla f t fl hfa hta (by omega) hf ht hfl he
          omega
        · exact ⟨f0, rfl, hmKc⟩
  · unfold slider_moves at hmS
    rcases List.mem_append.mp hmS with hm4 | hmQ
    · rcases List.mem_append.mp hm4 with hmR | hmB
      · obtain ⟨f, t, fl, hf, ht, hfl, h2, h3, he⟩ :=
          slider_move_shape b Rook true false hw hbk _ hmR
        obtain ⟨-, -, hq⟩ := mkMove_inj fa ta fla f t fl hfa hta (by omega) hf ht hfl he
        omega
      · obtain ⟨f, t, fl, hf, ht, hfl, h2, h3, he⟩ :=
          slider_move_shape b Bishop false true hw hbk _ hmB
        obtain ⟨-, -, hq⟩ := mkMove_inj fa ta fla f t fl hfa hta (by omega) hf ht hfl he
        omega
    · obtain ⟨f, t, fl, hf, ht, hfl, h2, h3, he⟩ :=
        slider_move_shape b Queen true true hw hbk _ hmQ
      obtain ⟨-, -, hq⟩ := mkMove_inj fa ta fla f t fl hfa hta (by omega) hf ht hfl he
      omega

end Ananke

namespace Ananke

/-- Full characterization of the emitted castle moves when White is to move
and White has exactly one king. -/
theorem castling_white_iff (b : Board) (hside : b.side_to_move = Color.White)
    (hw : ∀ i : Fin 6, b.white_pieces i < 2 ^ 64)
    (hbk : ∀ i : Fin 6, b.black_pieces i < 2 ^ 64)
    (hocc : b.all_occupancy < 2 ^ 64)
    (hk1 : count (b.white_pieces 5) = 1) :
    (mkMove 4 6 Move.K_CASTLE ∈ generate_all b ↔
      can_castle_kingside b.castling_rights Color.White = true ∧
      b.white_pieces 5 = 1 <<< 4 ∧
      get_bit b.all_occupancy 5 = false ∧ get_bit b.all_occupancy 6 = false ∧
      is_square_attacked b 4 Color.Black = false ∧
      is_square_attacked b 5 Color.Black = false ∧
      is_square_attacked b 6 Color.Black = false) ∧
    (mkMove 4 2 Move.Q_CASTLE ∈ generate_all b ↔
      can_castle_queenside b.castling_rights Color.White = true ∧
      b.white_pieces 5 = 1 <<< 4 ∧
      get_bit b.all_occupancy 3 = false ∧ get_bit b.all_occupancy 2 = false ∧
      get_bit b.all_occupancy 1 = false ∧
      is_square_attacked b 4 Color.Black = false ∧
      is_square_attacked b 3 Color.Black = false ∧
      is_square_attacked b 2 Color.Black = false) := by
  have hdec : decide (b.side_to_move = Color.White) = true := by simp [hside]
  refine ⟨⟨?_, ?_⟩, ?_, ?_⟩
  · -- kingside, emitted → conditions
    intro hm
    obtain ⟨f0, hlsb, hc⟩ :=
      castle_member b hw hbk hocc 4 6 Move.K_CASTLE (by norm_num) (by norm_num)
        (Or.inl rfl) hm
    rw [if_pos hside] at hlsb
    rw [hdec] at hc
    unfold castling_moves at hc
    dsimp only at hc
    simp only [reduceIte] at hc
    split at hc
    · simp at hc
    · next hne0 =>
      have hf04 : f0 = 4 := by omega
      subst hf04
      rcases List.mem_append.mp hc with hcK | hcQ
      · split at hcK
        · next hcond =>
          simp only [Bool.not_eq_true] at hcond
          obtain ⟨h1, h2, h3, h4, h5, h6⟩ := hcond
          have hkb : b.white_pieces 5 = 1 <<< tz (b.white_pieces 5) :=
            count_one_shl _ hk1
          have htz : tz (b.white_pieces 5) = 4 := by
            unfold lsb_index at hlsb
            split at hlsb
            · exact absurd hlsb (by simp)
            · simpa using hlsb
          exact ⟨h1, by rw [hkb, htz], h2, h3, h4, h5, h6⟩
        · simp at hcK
      · split at hcQ
        · simp only [List.mem_singleton] at hcQ
          obtain ⟨-, -, hq⟩ := mkMove_inj 4 6 Move.K_CASTLE 4 2 Move.Q_CASTLE
            (by decide) (by decide) (by decide) (by decide) (by decide)
            (by decide) hcQ
          exact absurd hq (by norm_num [Move.K_CASTLE, Move.Q_CASTLE])
        · simp at hcQ
  · -- kingside, conditions → emitted
    rintro ⟨h1, hkbb, h3, h4, h5, h6, h7⟩
    have hlsb : lsb_index (b.white_pieces 5) = some 4 := by
      rw [hkbb]
      unfold lsb_index
      rw [if_neg (by decide : ¬((1 : ℕ) <<< 4 = 0)), tz_shl]
    show _ ∈ generate_all b
    unfold generate_all
    refine List.mem_append.mpr (Or.inl (List.mem_append.mpr (Or.inr ?_)))
    unfold king_moves
    dsimp only
    simp only [hside, reduceIte]
    rw [hlsb]
    dsimp only
    refine List.mem_append.mpr (Or.inr ?_)
    rw [show decide True = true from rfl]
    unfold castling_moves
    dsimp only
    simp only [reduceIte]
    refine List.mem_append.mpr (Or.inl ?_)
    rw [if_pos ⟨h1, by simp [h3], by simp [h4], by simp [h5], by simp [h6],
      by simp [h7]⟩]
    exact List.mem_singleton.mpr rfl
  · -- queenside, emitted → conditions
    intro hm
    obtain ⟨f0, hlsb, hc⟩ :=
      castle_member b hw hbk hocc 4 2 Move.Q_CASTLE (by norm_num) (by norm_num)
        (Or.inr rfl) hm
    rw [if_pos hside] at hlsb
    rw [hdec] at hc
    unfold castling_moves at hc
    dsimp only at hc
    simp only [reduceIte] at hc
    split at hc
    · simp at hc
    · next hne0 =>
      have hf04 : f0 = 4 := by omega
      subst hf04
      rcases List.mem_append.mp hc with hcK | hcQ
      · split at hcK
        · simp only [List.mem_singleton] at hcK
          obtain ⟨-, -, hq⟩ := mkMove_inj 4 2 Move.Q_CASTLE 4 6 Move.K_CASTLE
            (by decide) (by decide) (by decide) (by decide) (by decide)
            (by decide) hcK
          exact absurd hq (by norm_num [Move.K_CASTLE, Move.Q_CASTLE])
        · simp at hcK
      · split at hcQ
        · next hcond =>
          simp only [Bool.not_eq_true] at hcond
          obtain ⟨h1, h2, h3, h4, h5, h6, h7⟩ := hcond
          have hkb : b.white_pieces 5 = 1 <<< tz (b.white_pieces 5) :=
            count_one_shl _ hk1
          have htz : tz (b.white_pieces 5) = 4 := by
            unfold lsb_index at hlsb
            split at hlsb
            · exact absurd hlsb (by simp)
            · simpa using hlsb
          exact ⟨h1, by rw [hkb, htz], h2, h3, h4, h5, h6, h7⟩
        · simp at hcQ
  · -- queenside, conditions → emitted
    rintro ⟨h1, hkbb, h3, h4, h5, h6, h7, h8⟩
    have hlsb : lsb_index (b.white_pieces 5) = some 4 := by
      rw [hkbb]
      unfold lsb_index
      rw [if_neg (by decide : ¬((1 : ℕ) <<< 4 = 0)), tz_shl]
    show _ ∈ generate_all b
    unfold generate_all
    refine List.mem_append.mpr (Or.inl (List.mem_append.mpr (Or.inr ?_)))
    unfold king_moves
    dsimp only
    simp only [hside, reduceIte]
    rw [hlsb]
    dsimp only
    refine List.mem_append.mpr (Or.inr ?_)
    rw [show decide True = true from rfl]
    unfold castling_moves
    dsimp only
    simp only [reduceIte]
    refine List.mem_append.mpr (Or.inr ?_)
    rw [if_pos ⟨h1, by simp [h3], by simp [h4], by simp [h5], by simp [h6],
      by simp [h7], by simp [h8]⟩]
    exact List.mem_singleton.mpr rfl

end Ananke

namespace Ananke

/-- `generate_castling_moves` for Black, with the color selections
reduced. -/
theorem castling_moves_black (b : Board) (king_sq : ℕ) :
    castling_moves b king_sq false =
    if king_sq ≠ 60 then []
    else
      (if can_castle_kingside b.castling_rights Color.Black = true ∧
          ¬get_bit b.all_occupancy 61 = true ∧ ¬get_bit b.all_occupancy 62 = true ∧
          ¬is_square_attacked b 60 Color.White = true ∧
          ¬is_square_attacked b 61 Color.White = true ∧
          ¬is_square_attacked b 62 Color.White = true then
        [mkMove 60 62 Move.K_CASTLE]
      else []) ++
      (if can_castle_queenside b.castling_rights Color.Black = true ∧
          ¬get_bit b.all_occupancy 59 = true ∧ ¬get_bit b.all_occupancy 58 = true ∧
          ¬get_bit b.all_occupancy 57 = true ∧
          ¬is_square_attacked b 60 Color.White = true ∧
          ¬is_square_attacked b 59 Color.White = true ∧
          ¬is_square_attacked b 58 Color.White = true then
        [mkMove 60 58 Move.Q_CASTLE]
      else []) := rfl

/-- Full characterization of the emitted castle moves when Black is to move
and Black has exactly one king. -/
theorem castling_black_iff (b : Board) (hside : b.side_to_move = Color.Black)
    (hw : ∀ i : Fin 6, b.white_pieces i < 2 ^ 64)
    (hbk : ∀ i : Fin 6, b.black_pieces i < 2 ^ 64)
    (hocc : b.all_occupancy < 2 ^ 64)
    (hk1 : count (b.black_pieces 5) = 1) :
    (mkMove 60 62 Move.K_CASTLE ∈ generate_all b ↔
      can_castle_kingside b.castling_rights Color.Black = true ∧
      b.black_pieces 5 = 1 <<< 60 ∧
      get_bit b.all_occupancy 61 = false ∧ get_bit b.all_occupancy 62 = false ∧
      is_square_attacked b 60 Color.White = false ∧
      is_square_attacked b 61 Color.White = false ∧
      is_square_attacked b 62 Color.White = false) ∧
    (mkMove 60 58 Move.Q_CASTLE ∈ generate_all b ↔
      can_castle_queenside b.castling_rights Color.Black = true ∧
      b.black_pieces 5 = 1 <<< 60 ∧
      get_bit b.all_occupancy 59 = false ∧ get_bit b.all_occupancy 58 = false ∧
      get_bit b.all_occupancy 57 = false ∧
      is_square_attacked b 60 Color.White = false ∧
      is_square_attacked b 59 Color.White = false ∧
      is_square_attacked b 58 Color.White = false) := by
  have hneq : ¬(b.side_to_move = Color.White) := by rw [hside]; intro h; cases h
  have hdec : decide (b.side_to_move = Color.White) = false := by
    simp [hside]
  refine ⟨⟨?_, ?_⟩, ?_, ?_⟩
  · -- kingside, emitted → conditions
    intro hm
    obtain ⟨f0, hlsb, hc⟩ :=
      castle_member b hw hbk hocc 60 62 Move.K_CASTLE (by norm_num) (by norm_num)
        (Or.inl rfl) hm
    rw [if_neg hneq] at hlsb
    rw [hdec, castling_moves_black] at hc
    split at hc
    · simp at hc
    · next hne0 =>
      have hf04 : f0 = 60 := by omega
      subst hf04
      rcases List.mem_append.mp hc with hcK | hcQ
      · split at hcK
        · next hcond =>
          simp only [Bool.not_eq_true] at hcond
          obtain ⟨h1, h2, h3, h4, h5, h6⟩ := hcond
          have hkb : b.black_pieces 5 = 1 <<< tz (b.black_pieces 5) :=
            count_one_shl _ hk1
          have htz : tz (b.black_pieces 5) = 60 := by
            unfold lsb_index at hlsb
            split at hlsb
            · exact absurd hlsb (by simp)
            · simpa using hlsb
          exact ⟨h1, by rw [hkb, htz], h2, h3, h4, h5, h6⟩
        · simp at hcK
      · split at hcQ
        · simp only [List.mem_singleton] at hcQ
          obtain ⟨-, -, hq⟩ := mkMove_inj 60 62 Move.K_CASTLE 60 58 Move.Q_CASTLE
            (by decide) (by decide) (by decide) (by decide) (by decide)
            (by decide) hcQ
          exact absurd hq (by norm_num [Move.K_CASTLE, Move.Q_CASTLE])
        · simp at hcQ
  · -- kingside, conditions → emitted
    rintro ⟨h1, hkbb, h3, h4, h5, h6, h7⟩
    have hlsb : lsb_index (b.black_pieces 5) = some 60 := by
      rw [hkbb]
      unfold lsb_index
      rw [if_neg (by decide : ¬((1 : ℕ) <<< 60 = 0)), tz_shl]
    show _ ∈ generate_all b
    unfold generate_all
    refine List.mem_append.mpr (Or.inl (List.mem_append.mpr (Or.inr ?_)))
    unfold king_moves
    dsimp only
    simp only [if_neg hneq, hdec]
    rw [hlsb]
    dsimp only
    refine List.mem_append.mpr (Or.inr ?_)
    rw [castling_moves_black]
    rw [if_neg (show ¬((60 : ℕ) ≠ 60) by decide)]
    refine List.mem_append.mpr (Or.inl ?_)
    rw [if_pos ⟨h1, by simp [h3], by simp [h4], by simp [h5], by simp [h6],
      by simp [h7]⟩]
    exact List.mem_singleton.mpr rfl
  · -- queenside, emitted → conditions
    intro hm
    obtain ⟨f0, hlsb, hc⟩ :=
      castle_member b hw hbk hocc 60 58 Move.Q_CASTLE (by norm_num) (by norm_num)
        (Or.inr rfl) hm
    rw [if_neg hneq] at hlsb
    rw [hdec, castling_moves_black] at hc
    split at hc
    · simp at hc
    · next hne0 =>
      have hf04 : f0 = 60 := by omega
      subst hf04
      rcases List.mem_append.mp hc with hcK | hcQ
      · split at hcK
        · simp only [List.mem_singleton] at hcK
          obtain ⟨-, -, hq⟩ := mkMove_inj 60 58 Move.Q_CASTLE 60 62 Move.K_CASTLE
            (by decide) (by decide) (by decide) (by decide) (by decide)
            (by decide) hcK
          exact absurd hq (by norm_num [Move.K_CASTLE, Move.Q_CASTLE])
        · simp at hcK
      · split at hcQ
        · next hcond =>
          simp only [Bool.not_eq_true] at hcond
          obtain ⟨h1, h2, h3, h4, h5, h6, h7⟩ := hcond
          have hkb : b.black_pieces 5 = 1 <<< tz (b.black_pieces 5) :=
            count_one_shl _ hk1
          have htz : tz (b.black_pieces 5) = 60 := by
            unfold lsb_index at hlsb
            split at hlsb
            · exact absurd hlsb (by simp)
            · simpa using hlsb
          exact ⟨h1, by rw [hkb, htz], h2, h3, h4, h5, h6, h7⟩
        · simp at hcQ
  · -- queenside, conditions → emitted
    rintro ⟨h1, hkbb, h3, h4, h5, h6, h7, h8⟩
    have hlsb : lsb_index (b.black_pieces 5) = some 60 := by
      rw [hkbb]
      unfold lsb_index
      rw [if_neg (by decide : ¬((1 : ℕ) <<< 60 = 0)), tz_shl]
    show _ ∈ generate_all b
    unfold generate_all
    refine List.mem_append.mpr (Or.inl (List.mem_append.mpr (Or.inr ?_)))
    unfold king_moves
    dsimp only
    simp only [if_neg hneq, hdec]
    rw [hlsb]
    dsimp only
    refine List.mem_append.mpr (Or.inr ?_)
    rw [castling_moves_black]
    rw [if_neg (show ¬((60 : ℕ) ≠ 60) by decide)]
    refine List.mem_append.mpr (Or.inr ?_)
    rw [if_pos ⟨h1, by simp [h3], by simp [h4], by simp [h5], by simp [h6],
      by simp [h7], by simp [h8]⟩]
    exact List.mem_singleton.mpr rfl

end Ananke

namespace Ananke

/-- C5: for every position with in-range bitboards and exactly one king of
the side to move, the kingside castle move is emitted iff the side's
kingside right bit is set, its king sits on its home square, the f- and
g-squares of its back rank are empty, and none of king-start, f-square and
g-square is attacked by the opponent; the queenside castle move is emitted
iff the queenside right bit is set, the king is home, the d-, c- and
b-squares are empty, and none of king-start, d-square and c-square is
attacked (the b-square may be attacked). -/
theorem castling_emitted_iff (b : Board)
    (hw : ∀ i : Fin 6, b.white_pieces i < 2 ^ 64)
    (hbk : ∀ i : Fin 6, b.black_pieces i < 2 ^ 64)
    (hocc : b.all_occupancy < 2 ^ 64)
    (hk1 : count (if b.side_to_move = Color.White then b.white_pieces 5
        else b.black_pieces 5) = 1) :
    (mkMove (if b.side_to_move = Color.White then 4 else 60)
        (if b.side_to_move = Color.White then 6 else 62) Move.K_CASTLE ∈
          generate_all b ↔
      can_castle_kingside b.castling_rights b.side_to_move = true ∧
      (if b.side_to_move = Color.White then b.white_pieces 5
        else b.black_pieces 5) =
        1 <<< (if b.side_to_move = Color.White then 4 else 60) ∧
      get_bit b.all_occupancy (if b.side_to_move = Color.White then 5 else 61) =
        false ∧
      get_bit b.all_occupancy (if b.side_to_move = Color.White then 6 else 62) =
        false ∧
      is_square_attacked b (if b.side_to_move = Color.White then 4 else 60)
        (Color.opposite b.side_to_move) = false ∧
      is_square_attacked b (if b.side_to_move = Color.White then 5 else 61)
        (Color.opposite b.side_to_move) = false ∧
      is_square_attacked b (if b.side_to_move = Color.White then 6 else 62)
        (Color.opposite b.side_to_move) = false) ∧
    (mkMove (if b.side_to_move = Color.White then 4 else 60)
        (if b.side_to_move = Color.White then 2 else 58) Move.Q_CASTLE ∈
          generate_all b ↔
      can_castle_queenside b.castling_rights b.side_to_move = true ∧
      (if b.side_to_move = Color.White then b.white_pieces 5
        else b.black_pieces 5) =
        1 <<< (if b.side_to_move = Color.White then 4 else 60) ∧
      get_bit b.all_occupancy (if b.side_to_move = Color.White then 3 else 59) =
        false ∧
      get_bit b.all_occupancy (if b.side_to_move = Color.White then 2 else 58) =
        false ∧
      get_bit b.all_occupancy (if b.side_to_move = Color.White then 1 else 57) =
        false ∧
      is_square_attacked b (if b.side_to_move = Color.White then 4 else 60)
        (Color.opposite b.side_to_move) = false ∧
      is_square_attacked b (if b.side_to_move = Color.White then 3 else 59)
        (Color.opposite b.side_to_move) = false ∧
      is_square_attacked b (if b.side_to_move = Color.White then 2 else 58)
        (Color.opposite b.side_to_move) = false) := by
  cases hsd : b.side_to_move with
  | White =>
    rw [hsd] at hk1
    simp only [reduceIte] at hk1
    simp only [reduceIte, Color.opposite]
    exact castling_white_iff b hsd hw hbk hocc hk1
  | Black =>
    rw [hsd] at hk1
    simp only [reduceCtorEq, if_false] at hk1
    simp only [reduceCtorEq, if_false, Color.opposite]
    exact castling_black_iff b hsd hw hbk hocc hk1

/-- A position where White may castle kingside: Ke1, Rh1, kingside right. -/
def castleBoard : Board where
  white_pieces := fun i => if i = 5 then 1 <<< 4 else if i = 3 then 1 <<< 7 else 0
  black_pieces := fun _ => 0
  white_occupancy := (1 <<< 4) ||| (1 <<< 7)
  black_occupancy := 0
  all_occupancy := (1 <<< 4) ||| (1 <<< 7)
  side_to_move := Color.White
  castling_rights := 1
  en_passant_sq := none
  halfmove_clock := 0

/-- Witness for C5 at `castleBoard`. -/
theorem castling_emitted_iff_witness :
    count (if castleBoard.side_to_move = Color.White then castleBoard.white_pieces 5
        else castleBoard.black_pieces 5) = 1 ∧
    ((mkMove (if castleBoard.side_to_move = Color.White then 4 else 60)
        (if castleBoard.side_to_move = Color.White then 6 else 62) Move.K_CASTLE ∈
          generate_all castleBoard ↔
      can_castle_kingside castleBoard.castling_rights castleBoard.side_to_move = true ∧
      (if castleBoard.side_to_move = Color.White then castleBoard.white_pieces 5
        else castleBoard.black_pieces 5) =
        1 <<< (if castleBoard.side_to_move = Color.White then 4 else 60) ∧
      get_bit castleBoard.all_occupancy
        (if castleBoard.side_to_move = Color.White then 5 else 61) = false ∧
      get_bit castleBoard.all_occupancy
        (if castleBoard.side_to_move = Color.White then 6 else 62) = false ∧
      is_square_attacked castleBoard
        (if castleBoard.side_to_move = Color.White then 4 else 60)
        (Color.opposite castleBoard.side_to_move) = false ∧
      is_square_attacked castleBoard
        (if castleBoard.side_to_move = Color.White then 5 else 61)
        (Color.opposite castleBoard.side_to_move) = false ∧
      is_square_attacked castleBoard
        (if castleBoard.side_to_move = Color.White then 6 else 62)
        (Color.opposite castleBoard.side_to_move) = false) ∧
    (mkMove (if castleBoard.side_to_move = Color.White then 4 else 60)
        (if castleBoard.side_to_move = Color.White then 2 else 58) Move.Q_CASTLE ∈
          generate_all castleBoard ↔
      can_castle_queenside castleBoard.castling_rights castleBoard.side_to_move = true ∧
      (if castleBoard.side_to_move = Color.White then castleBoard.white_pieces 5
        else castleBoard.black_pieces 5) =
        1 <<< (if castleBoard.side_to_move = Color.White then 4 else 60) ∧
      get_bit castleBoard.all_occupancy
        (if castleBoard.side_to_move = Color.White then 3 else 59) = false ∧
      get_bit castleBoard.all_occupancy
        (if castleBoard.side_to_move = Color.White then 2 else 58) = false ∧
      get_bit castleBoard.all_occupancy
        (if castleBoard.side_to_move = Color.White then 1 else 57) = false ∧
      is_square_attacked castleBoard
        (if castleBoard.side_to_move = Color.White then 4 else 60)
        (Color.opposite castleBoard.side_to_move) = false ∧
      is_square_attacked castleBoard
        (if castleBoard.side_to_move = Color.White then 3 else 59)
        (Color.opposite castleBoard.side_to_move) = false ∧
      is_square_attacked castleBoard
        (if castleBoard.side_to_move = Color.White then 2 else 58)
        (Color.opposite castleBoard.side_to_move) = false)) :=
  ⟨by decide, castling_emitted_iff castleBoard (by decide) (by decide) (by decide)
    (by decide)⟩

end Ananke

namespace Ananke

theorem get_bit_eq (x s : ℕ) : get_bit x s = x.testBit s := by
  unfold get_bit
  rw [Nat.one_shiftLeft, Nat.and_two_pow]
  cases h : x.testBit s <;> simp [h]

theorem testBit_set_bit (x s i : ℕ) :
    (set_bit x s).testBit i = (x.testBit i || decide (s = i)) := by
  unfold set_bit
  rw [Nat.testBit_lor, Nat.one_shiftLeft, Nat.testBit_two_pow]

theorem testBit_clear_bit (x s i : ℕ) (hs : s < 64) (hx : x < 2 ^ 64) :
    (clear_bit x s).testBit i = (x.testBit i && decide (i ≠ s)) := by
  unfold clear_bit
  rw [Nat.testBit_land, testBit_not64 _ _ (by
    rw [Nat.one_shiftLeft]
    exact Nat.pow_lt_pow_right (by norm_num) hs)]
  rw [Nat.one_shiftLeft, Nat.testBit_two_pow]
  rcases Nat.lt_or_ge i 64 with h | h
  · cases hxb : x.testBit i
    · simp
    · simp only [h, decide_True, Bool.true_and, Bool.and_true, ne_eq]
      cases hsi : decide (s = i)
      · simp at hsi
        simp [hsi, Ne.symm hsi]
      · simp at hsi
        simp [hsi]
  · have hxf : x.testBit i = false :=
      Nat.testBit_lt_two_pow
        (lt_of_lt_of_le hx (Nat.pow_le_pow_right (by norm_num) h))
    simp [hxf, Nat.not_lt.mpr h]

theorem clear_bit_le (x s : ℕ) : clear_bit x s ≤ x := Nat.and_le_left

theorem set_bit_lt (x s : ℕ) (hx : x < 2 ^ 64) (hs : s < 64) :
    set_bit x s < 2 ^ 64 := by
  unfold set_bit
  refine Nat.or_lt_two_pow hx ?_
  rw [Nat.one_shiftLeft]
  exact Nat.pow_lt_pow_right (by norm_num) hs

theorem count_lor_two_pow : ∀ s x : ℕ, x.testBit s = false →
    count (x ||| (1 <<< s)) = count x + 1 := by
  intro s
  induction s with
  | zero =>
    intro x hx
    rcases Nat.even_or_odd x with ⟨k, hk⟩ | ⟨k, hk⟩
    · subst hk
      have h2 : k + k = 2 * k := by ring
      rw [h2] at hx ⊢
      have : (2 * k) ||| (1 <<< 0) = 2 * k + 1 := by
        rw [show (1 <<< 0 : ℕ) = 2 * 0 + 1 from rfl, lor_even_odd]
        simp
      rw [this, count_odd, count_even]
    · subst hk
      exfalso
      rw [tb0_odd] at hx
      simp at hx
  | succ n ih =>
    intro x hx
    have hshl : (1 : ℕ) <<< (n + 1) = 2 * (1 <<< n) := by
      rw [Nat.one_shiftLeft, Nat.one_shiftLeft, pow_succ]
      ring
    rcases Nat.even_or_odd x with ⟨k, hk⟩ | ⟨k, hk⟩
    · have hk2 : x = 2 * k := by omega
      subst hk2
      rw [tbS_even] at hx
      rw [hshl, lor_two_mul, count_even, count_even, ih k hx]
    · have hk2 : x = 2 * k + 1 := by omega
      subst hk2
      rw [tbS_odd] at hx
      rw [hshl, lor_odd_even, count_odd, count_odd, ih k hx]

theorem clear_bit_restore (x s : ℕ) (hs : s < 64) (hx : x < 2 ^ 64)
    (h : x.testBit s = true) : (clear_bit x s) ||| (1 <<< s) = x := by
  apply Nat.eq_of_testBit_eq
  intro i
  rw [Nat.testBit_lor, testBit_clear_bit x s i hs hx, Nat.one_shiftLeft,
    Nat.testBit_two_pow]
  rcases eq_or_ne i s with rfl | hne
  · simp [h]
  · simp [hne, Ne.symm hne]

theorem count_clear_add_one (x s : ℕ) (hs : s < 64) (hx : x < 2 ^ 64)
    (h : x.testBit s = true) : count (clear_bit x s) + 1 = count x := by
  have hb : (clear_bit x s).testBit s = false := by
    rw [testBit_clear_bit x s s hs hx]
    simp
  have := count_lor_two_pow s (clear_bit x s) hb
  rw [clear_bit_restore x s hs hx h] at this
  omega

theorem count_move (x f t : ℕ) (hf64 : f < 64) (ht64 : t < 64) (hx : x < 2 ^ 64)
    (hf : x.testBit f = true) (ht : x.testBit t = false) :
    count (set_bit (clear_bit x f) t) = count x := by
  have hct : (clear_bit x f).testBit t = false := by
    rw [testBit_clear_bit x f t hf64 hx]
    simp [ht]
  have h1 : count (set_bit (clear_bit x f) t) = count (clear_bit x f) + 1 := by
    unfold set_bit
    exact count_lor_two_pow t _ hct
  have h2 := count_clear_add_one x f hf64 hx hf
  omega

theorem and_eq_zero_iff (x y : ℕ) :
    x &&& y = 0 ↔ ∀ i, x.testBit i = true → y.testBit i = false := by
  constructor
  · intro h i hx
    have := congrArg (fun v => v.testBit i) h
    simp only [Nat.testBit_land, Nat.zero_testBit] at this
    rw [hx] at this
    simpa using this
  · intro h
    apply Nat.eq_of_testBit_eq
    intro i
    rw [Nat.testBit_land, Nat.zero_testBit]
    cases hx : x.testBit i
    · simp
    · simp [h i hx]

theorem subset_and_zero (x y M : ℕ)
    (hsub : ∀ i, y.testBit i = true → x.testBit i = true)
    (h : x &&& M = 0) : y &&& M = 0 := by
  rw [and_eq_zero_iff] at h ⊢
  intro i hy
  exact h i (hsub i hy)

/-- Bits of the back-rank mask `0xFF000000000000FF` (ranks 0 and 7). -/
theorem testBit_rank_mask (t : ℕ) :
    (0xFF000000000000FF : ℕ).testBit t =
      (decide (t < 8) || (decide (56 ≤ t) && decide (t < 64))) := by
  rcases Nat.lt_or_ge t 64 with h | h
  · revert h
    revert t
    decide
  · have hf : (0xFF000000000000FF : ℕ).testBit t = false :=
      Nat.testBit_lt_two_pow
        (lt_of_lt_of_le (by norm_num) (Nat.pow_le_pow_right (by norm_num) h))
    rw [hf]
    have h1 : ¬(t < 8) := by omega
    have h2 : ¬(t < 64) := by omega
    simp [h1, h2]

/-- Bits of a 6-fold union. -/
theorem lor6_testBit (a b c d e f i : ℕ) :
    (a ||| b ||| c ||| d ||| e ||| f).testBit i =
      (a.testBit i || b.testBit i || c.testBit i || d.testBit i ||
       e.testBit i || f.testBit i) := by
  simp [Nat.testBit_lor]

end Ananke

namespace Ananke

/-! ### The position invariants of the spec (claim C4) -/

/-- Derived occupancies equal the unions of their components. -/
def occupanciesOk (b : Board) : Prop :=
  b.white_occupancy = b.white_pieces 0 ||| b.white_pieces 1 ||| b.white_pieces 2 |||
    b.white_pieces 3 ||| b.white_pieces 4 ||| b.white_pieces 5 ∧
  b.black_occupancy = b.black_pieces 0 ||| b.black_pieces 1 ||| b.black_pieces 2 |||
    b.black_pieces 3 ||| b.black_pieces 4 ||| b.black_pieces 5 ∧
  b.all_occupancy = b.white_occupancy ||| b.black_occupancy

/-- The twelve piece sets are pairwise disjoint. -/
def disjointPieces (b : Board) : Prop :=
  (∀ i j : Fin 6, i ≠ j → b.white_pieces i &&& b.white_pieces j = 0) ∧
  (∀ i j : Fin 6, i ≠ j → b.black_pieces i &&& b.black_pieces j = 0) ∧
  (∀ i j : Fin 6, b.white_pieces i &&& b.black_pieces j = 0)

/-- Exactly one king of each color. -/
def oneKingEach (b : Board) : Prop :=
  count (b.white_pieces 5) = 1 ∧ count (b.black_pieces 5) = 1

/-- No pawn on rank 0 or rank 7. -/
def pawnsOffBackRanks (b : Board) : Prop :=
  (b.white_pieces 0 ||| b.black_pieces 0) &&& 0xFF000000000000FF = 0

/-- The four position invariants of the spec. -/
def invariants (b : Board) : Prop :=
  disjointPieces b ∧ occupanciesOk b ∧ oneKingEach b ∧ pawnsOffBackRanks b

/-- The twelve piece bitboards are in `u64` range. -/
def piecesBounded (b : Board) : Prop :=
  (∀ i : Fin 6, b.white_pieces i < 2 ^ 64) ∧
  (∀ i : Fin 6, b.black_pieces i < 2 ^ 64)

/-- En-passant hygiene: a recorded target square is empty and on neither
back rank (true of every en-passant square the engine itself records). -/
def epOk (b : Board) : Bool :=
  match b.en_passant_sq with
  | none => true
  | some e => !get_bit b.all_occupancy e && decide (8 ≤ e) && decide (e < 56)

/-! ### Accessors of a packed move -/

theorem mfrom_mk (f t flag : ℕ) (hf : f < 64) (ht : t < 64) (hfl : flag < 16) :
    mfrom (mkMove f t flag) = f := by
  rw [mkMove_eq f t flag hf ht hfl]
  unfold mfrom
  rw [show (0x3F : ℕ) = 2 ^ 6 - 1 by norm_num, and_mask_eq_mod,
    Nat.shiftRight_eq_div_pow]
  norm_num
  omega

theorem mto_mk (f t flag : ℕ) (hf : f < 64) (ht : t < 64) (hfl : flag < 16) :
    mto (mkMove f t flag) = t := by
  rw [mkMove_eq f t flag hf ht hfl]
  unfold mto
  rw [show (0x3F : ℕ) = 2 ^ 6 - 1 by norm_num, and_mask_eq_mod]
  norm_num
  omega

theorem mflag_mk (f t flag : ℕ) (hf : f < 64) (ht : t < 64) (hfl : flag < 16) :
    mflag (mkMove f t flag) = flag := by
  rw [mkMove_eq f t flag hf ht hfl]
  unfold mflag
  rw [Nat.shiftRight_eq_div_pow]
  norm_num
  omega

theorem is_capture_testBit (m : ℕ) : is_capture m = m.testBit 14 := by
  unfold is_capture
  rw [show (0x4000 : ℕ) = 2 ^ 14 by norm_num, Nat.and_two_pow]
  cases h : m.testBit 14 <;> simp [h]

theorem is_promotion_testBit (m : ℕ) : is_promotion m = m.testBit 15 := by
  unfold is_promotion
  rw [show (0x8000 : ℕ) = 2 ^ 15 by norm_num, Nat.and_two_pow]
  cases h : m.testBit 15 <;> simp [h]

theorem is_capture_mk (f t flag : ℕ) (hf : f < 64) (ht : t < 64) (hfl : flag < 16) :
    is_capture (mkMove f t flag) = flag.testBit 2 := by
  rw [is_capture_testBit, mkMove_eq f t flag hf ht hfl,
    Nat.testBit_to_div_mod, Nat.testBit_to_div_mod]
  have h1 : (flag * 4096 + f * 64 + t) / 2 ^ 14 = flag / 2 ^ 2 := by
    norm_num
    omega
  rw [h1]

theorem is_promotion_mk (f t flag : ℕ) (hf : f < 64) (ht : t < 64)
    (hfl : flag < 16) : is_promotion (mkMove f t flag) = flag.testBit 3 := by
  rw [is_promotion_testBit, mkMove_eq f t flag hf ht hfl,
    Nat.testBit_to_div_mod, Nat.testBit_to_div_mod]
  have h1 : (flag * 4096 + f * 64 + t) / 2 ^ 15 = flag / 2 ^ 3 := by
    norm_num
    omega
  rw [h1]

/-! ### Occupancy bookkeeping -/

theorem occ_ok_update (n : Board) : occupanciesOk (update_occupancies n) := by
  unfold occupanciesOk update_occupancies
  exact ⟨rfl, rfl, rfl⟩

theorem white_occ_testBit (b : Board) (hocc : occupanciesOk b) (s : ℕ) :
    b.white_occupancy.testBit s =
      ((b.white_pieces 0).testBit s || (b.white_pieces 1).testBit s ||
       (b.white_pieces 2).testBit s || (b.white_pieces 3).testBit s ||
       (b.white_pieces 4).testBit s || (b.white_pieces 5).testBit s) := by
  rw [hocc.1, lor6_testBit]

theorem black_occ_testBit (b : Board) (hocc : occupanciesOk b) (s : ℕ) :
    b.black_occupancy.testBit s =
      ((b.black_pieces 0).testBit s || (b.black_pieces 1).testBit s ||
       (b.black_pieces 2).testBit s || (b.black_pieces 3).testBit s ||
       (b.black_pieces 4).testBit s || (b.black_pieces 5).testBit s) := by
  rw [hocc.2.1, lor6_testBit]

theorem all_occ_testBit (b : Board) (hocc : occupanciesOk b) (s : ℕ) :
    b.all_occupancy.testBit s =
      (b.white_occupancy.testBit s || b.black_occupancy.testBit s) := by
  rw [hocc.2.2, Nat.testBit_lor]

theorem occ_empty_w (b : Board) (hocc : occupanciesOk b) (s : ℕ)
    (h : b.white_occupancy.testBit s = false) (i : Fin 6) :
    (b.white_pieces i).testBit s = false := by
  rw [white_occ_testBit b hocc s] at h
  simp only [Bool.or_eq_false_iff] at h
  fin_cases i
  · exact h.1.1.1.1.1
  · exact h.1.1.1.1.2
  · exact h.1.1.1.2
  · exact h.1.1.2
  · exact h.1.2
  · exact h.2

theorem occ_empty_b (b : Board) (hocc : occupanciesOk b) (s : ℕ)
    (h : b.black_occupancy.testBit s = false) (i : Fin 6) :
    (b.black_pieces i).testBit s = false := by
  rw [black_occ_testBit b hocc s] at h
  simp only [Bool.or_eq_false_iff] at h
  fin_cases i
  · exact h.1.1.1.1.1
  · exact h.1.1.1.1.2
  · exact h.1.1.1.2
  · exact h.1.1.2
  · exact h.1.2
  · exact h.2

theorem all_empty_split (b : Board) (hocc : occupanciesOk b) (s : ℕ)
    (h : b.all_occupancy.testBit s = false) :
    b.white_occupancy.testBit s = false ∧ b.black_occupancy.testBit s = false := by
  rw [all_occ_testBit b hocc s] at h
  simpa using h

theorem occ_mem_b (b : Board) (hocc : occupanciesOk b) (s : ℕ)
    (h : b.black_occupancy.testBit s = true) :
    ∃ j : Fin 6, (b.black_pieces j).testBit s = true := by
  rw [black_occ_testBit b hocc s] at h
  simp only [Bool.or_eq_true] at h
  rcases h with ((((h | h) | h) | h) | h) | h
  exacts [⟨0, h⟩, ⟨1, h⟩, ⟨2, h⟩, ⟨3, h⟩, ⟨4, h⟩, ⟨5, h⟩]

theorem occ_mem_w (b : Board) (hocc : occupanciesOk b) (s : ℕ)
    (h : b.white_occupancy.testBit s = true) :
    ∃ j : Fin 6, (b.white_pieces j).testBit s = true := by
  rw [white_occ_testBit b hocc s] at h
  simp only [Bool.or_eq_true] at h
  rcases h with ((((h | h) | h) | h) | h) | h
  exacts [⟨0, h⟩, ⟨1, h⟩, ⟨2, h⟩, ⟨3, h⟩, ⟨4, h⟩, ⟨5, h⟩]

theorem pieces_sub_w (b : Board) (hocc : occupanciesOk b) (i : Fin 6) (s : ℕ)
    (h : (b.white_pieces i).testBit s = true) :
    b.white_occupancy.testBit s = true := by
  rw [white_occ_testBit b hocc s]
  simp only [Bool.or_eq_true]
  fin_cases i
  · exact Or.inl (Or.inl (Or.inl (Or.inl (Or.inl h))))
  · exact Or.inl (Or.inl (Or.inl (Or.inl (Or.inr h))))
  · exact Or.inl (Or.inl (Or.inl (Or.inr h)))
  · exact Or.inl (Or.inl (Or.inr h))
  · exact Or.inl (Or.inr h)
  · exact Or.inr h

theorem pieces_sub_b (b : Board) (hocc : occupanciesOk b) (i : Fin 6) (s : ℕ)
    (h : (b.black_pieces i).testBit s = true) :
    b.black_occupancy.testBit s = true := by
  rw [black_occ_testBit b hocc s]
  simp only [Bool.or_eq_true]
  fin_cases i
  · exact Or.inl (Or.inl (Or.inl (Or.inl (Or.inl h))))
  · exact Or.inl (Or.inl (Or.inl (Or.inl (Or.inr h))))
  · exact Or.inl (Or.inl (Or.inl (Or.inr h)))
  · exact Or.inl (Or.inl (Or.inr h))
  · exact Or.inl (Or.inr h)
  · exact Or.inr h

end Ananke

namespace Ananke

/-- Under within-color disjointness the scan of `get_piece_type_at` finds
exactly the piece type whose set holds the square. -/
theorem get_piece_type_at_eq (b : Board) (c : Color) (pt : Fin 6) (f : ℕ)
    (hd : ∀ i j : Fin 6, i ≠ j → piecesOf b c i &&& piecesOf b c j = 0)
    (hbit : (piecesOf b c pt).testBit f = true) :
    get_piece_type_at b f c = some pt := by
  have hother : ∀ i : Fin 6, i ≠ pt → (piecesOf b c i).testBit f = false := by
    intro i hi
    exact (and_eq_zero_iff _ _).mp (hd pt i (Ne.symm hi)) f hbit
  unfold get_piece_type_at
  dsimp only
  simp only [get_bit_eq]
  have g0 := fun h => hother 0 h
  have g1 := fun h => hother 1 h
  have g2 := fun h => hother 2 h
  have g3 := fun h => hother 3 h
  have g4 := fun h => hother 4 h
  fin_cases pt
  · have hb : (piecesOf b c 0).testBit f = true := hbit
    simp [hb]
  · have hb : (piecesOf b c 1).testBit f = true := hbit
    have h0 : (piecesOf b c 0).testBit f = false := g0 (by decide)
    simp [h0, hb]
  · have hb : (piecesOf b c 2).testBit f = true := hbit
    have h0 : (piecesOf b c 0).testBit f = false := g0 (by decide)
    have h1 : (piecesOf b c 1).testBit f = false := g1 (by decide)
    simp [h0, h1, hb]
  · have hb : (piecesOf b c 3).testBit f = true := hbit
    have h0 : (piecesOf b c 0).testBit f = false := g0 (by decide)
    have h1 : (piecesOf b c 1).testBit f = false := g1 (by decide)
    have h2 : (piecesOf b c 2).testBit f = false := g2 (by decide)
    simp [h0, h1, h2, hb]
  · have hb : (piecesOf b c 4).testBit f = true := hbit
    have h0 : (piecesOf b c 0).testBit f = false := g0 (by decide)
    have h1 : (piecesOf b c 1).testBit f = false := g1 (by decide)
    have h2 : (piecesOf b c 2).testBit f = false := g2 (by decide)
    have h3 : (piecesOf b c 3).testBit f = false := g3 (by decide)
    simp [h0, h1, h2, h3, hb]
  · have hb : (piecesOf b c 5).testBit f = true := hbit
    have h0 : (piecesOf b c 0).testBit f = false := g0 (by decide)
    have h1 : (piecesOf b c 1).testBit f = false := g1 (by decide)
    have h2 : (piecesOf b c 2).testBit f = false := g2 (by decide)
    have h3 : (piecesOf b c 3).testBit f = false := g3 (by decide)
    have h4 : (piecesOf b c 4).testBit f = false := g4 (by decide)
    simp [h0, h1, h2, h3, h4, hb]

/-- The scan succeeds whenever some set of the color holds the square, and
returns a type whose set holds it. -/
theorem get_piece_type_at_exists (b : Board) (c : Color) (t : ℕ)
    (h : ∃ j : Fin 6, (piecesOf b c j).testBit t = true) :
    ∃ ct : Fin 6, get_piece_type_at b t c = some ct ∧
      (piecesOf b c ct).testBit t = true := by
  unfold get_piece_type_at
  dsimp only
  simp only [get_bit_eq]
  by_cases h0 : (piecesOf b c 0).testBit t = true
  · exact ⟨0, by simp [h0], h0⟩
  by_cases h1 : (piecesOf b c 1).testBit t = true
  · exact ⟨1, by simp [h0, h1], h1⟩
  by_cases h2 : (piecesOf b c 2).testBit t = true
  · exact ⟨2, by simp [h0, h1, h2], h2⟩
  by_cases h3 : (piecesOf b c 3).testBit t = true
  · exact ⟨3, by simp [h0, h1, h2, h3], h3⟩
  by_cases h4 : (piecesOf b c 4).testBit t = true
  · exact ⟨4, by simp [h0, h1, h2, h3, h4], h4⟩
  by_cases h5 : (piecesOf b c 5).testBit t = true
  · exact ⟨5, by simp [h0, h1, h2, h3, h4, h5], h5⟩
  exfalso
  obtain ⟨j, hj⟩ := h
  fin_cases j
  exacts [h0 hj, h1 hj, h2 hj, h3 hj, h4 hj, h5 hj]

/-! ### The piece arrays through the steps of `make_move` -/

theorem add_w_wp (b : Board) (pt : PieceType) (sq : ℕ) :
    (add_piece b pt Color.White sq).white_pieces =
      Function.update b.white_pieces pt (set_bit (b.white_pieces pt) sq) := rfl

theorem add_w_bp (b : Board) (pt : PieceType) (sq : ℕ) :
    (add_piece b pt Color.White sq).black_pieces = b.black_pieces := rfl

theorem add_b_wp (b : Board) (pt : PieceType) (sq : ℕ) :
    (add_piece b pt Color.Black sq).white_pieces = b.white_pieces := rfl

theorem add_b_bp (b : Board) (pt : PieceType) (sq : ℕ) :
    (add_piece b pt Color.Black sq).black_pieces =
      Function.update b.black_pieces pt (set_bit (b.black_pieces pt) sq) := rfl

theorem rem_w_wp (b : Board) (pt : PieceType) (sq : ℕ) :
    (remove_piece b pt Color.White sq).white_pieces =
      Function.update b.white_pieces pt (clear_bit (b.white_pieces pt) sq) := rfl

theorem rem_w_bp (b : Board) (pt : PieceType) (sq : ℕ) :
    (remove_piece b pt Color.White sq).black_pieces = b.black_pieces := rfl

theorem rem_b_wp (b : Board) (pt : PieceType) (sq : ℕ) :
    (remove_piece b pt Color.Black sq).white_pieces = b.white_pieces := rfl

theorem rem_b_bp (b : Board) (pt : PieceType) (sq : ℕ) :
    (remove_piece b pt Color.Black sq).black_pieces =
      Function.update b.black_pieces pt (clear_bit (b.black_pieces pt) sq) := rfl

theorem mm_rook_captured_wp (nc : Board) (them : Color) (t : ℕ) :
    (mm_rook_captured nc them t).white_pieces = nc.white_pieces := by
  unfold mm_rook_captured
  cases them <;> dsimp only <;> split <;> split <;> rfl

theorem mm_rook_captured_bp (nc : Board) (them : Color) (t : ℕ) :
    (mm_rook_captured nc them t).black_pieces = nc.black_pieces := by
  unfold mm_rook_captured
  cases them <;> dsimp only <;> split <;> split <;> rfl

theorem mm_rights_step_wp (n4 : Board) (pt : PieceType) (us : Color) (f t : ℕ) :
    (mm_rights_step n4 pt us f t).white_pieces = n4.white_pieces := by
  unfold mm_rights_step
  dsimp only
  split
  · split <;> split <;> split <;> split <;> split <;> rfl
  · split <;> rfl

theorem mm_rights_step_bp (n4 : Board) (pt : PieceType) (us : Color) (f t : ℕ) :
    (mm_rights_step n4 pt us f t).black_pieces = n4.black_pieces := by
  unfold mm_rights_step
  dsimp only
  split
  · split <;> split <;> split <;> split <;> split <;> rfl
  · split <;> rfl

theorem mm_state_step_wp (n6 : Board) (us : Color) (f flag : ℕ) :
    (mm_state_step n6 us f flag).white_pieces = n6.white_pieces := rfl

theorem mm_state_step_bp (n6 : Board) (us : Color) (f flag : ℕ) :
    (mm_state_step n6 us f flag).black_pieces = n6.black_pieces := rfl

/-- The collapsed `do`-chain of `make_move` once each fallible step is
known to succeed. -/
theorem make_move_eval (b : Board) (m : ℕ) (pt : PieceType) (n3 n4 : Board)
    (hpt : get_piece_type_at b (mfrom m) b.side_to_move = some pt)
    (hcap : mm_capture_step b
      (mm_castle_step
        (add_piece (remove_piece b pt b.side_to_move (mfrom m)) pt
          b.side_to_move (mto m))
        pt b.side_to_move (mfrom m) (mto m)) m = some n3)
    (hpromo : mm_promo_step n3 b.side_to_move m = some n4) :
    make_move b m = some (update_occupancies
      (mm_state_step (mm_rights_step n4 pt b.side_to_move (mfrom m) (mto m))
        b.side_to_move (mfrom m) (mflag m))) := by
  unfold make_move
  dsimp only
  rw [hpt]
  simp only [Option.bind_eq_bind, Option.some_bind]
  rw [hcap]
  simp only [Option.some_bind]
  rw [hpromo]
  simp only [Option.some_bind]

end Ananke


namespace Ananke

theorem and_empty_of_right (x y : ℕ) (s : ℕ) (h : x &&& y = 0)
    (hy : y.testBit s = true) : x.testBit s = false := by
  cases hx : x.testBit s
  · rfl
  · have h2 := (and_eq_zero_iff x y).mp h s hx
    rw [hy] at h2
    cases h2

/-- The six piece-array invariants, stated on raw arrays so that the black
side reuses the white proofs by swapping the roles. -/
def invariantsArr (W B : Fin 6 → ℕ) : Prop :=
  (∀ i j : Fin 6, i ≠ j → W i &&& W j = 0) ∧
  (∀ i j : Fin 6, i ≠ j → B i &&& B j = 0) ∧
  (∀ i j : Fin 6, W i &&& B j = 0) ∧
  count (W 5) = 1 ∧ count (B 5) = 1 ∧
  ((W 0 ||| B 0) &&& 0xFF000000000000FF = 0)

theorem invariantsArr_swap (W B : Fin 6 → ℕ) (h : invariantsArr W B) :
    invariantsArr B W := by
  obtain ⟨h1, h2, h3, h4, h5, h6⟩ := h
  refine ⟨h2, h1, ?_, h5, h4, ?_⟩
  · intro i j
    rw [Nat.and_comm]
    exact h3 j i
  · rw [Nat.lor_comm]
    exact h6

theorem invariants_mk (b : Board) (hocc : occupanciesOk b)
    (harr : invariantsArr b.white_pieces b.black_pieces) : invariants b :=
  ⟨⟨harr.1, harr.2.1, harr.2.2.1⟩, hocc,
   ⟨harr.2.2.2.1, harr.2.2.2.2.1⟩, harr.2.2.2.2.2⟩

theorem invariants_arr_of (b : Board) (hinv : invariants b) :
    invariantsArr b.white_pieces b.black_pieces :=
  ⟨hinv.1.1, hinv.1.2.1, hinv.1.2.2, hinv.2.2.1.1, hinv.2.2.1.2, hinv.2.2.2⟩

/-- Bits of the back-rank mask are absent at an interior-rank square. -/
theorem rank_mask_free (t : ℕ) (h0 : t / 8 ≠ 0) (h7 : t / 8 ≠ 7) (ht : t < 64) :
    (0xFF000000000000FF : ℕ).testBit t = false := by
  rw [testBit_rank_mask]
  have ha : ¬(t < 8) := by omega
  have hb : ¬(56 ≤ t) := by omega
  simp [ha, hb]

/-- Core preservation argument: the moving side relocates the piece of type
`pt` from `f` to the (friend-free) square `t`; the opposing array becomes
`B'` — either pointwise reduced with `t` free of opponents (quiet moves and
the en-passant pawn removal) or with the captured, non-king man removed
from `t`. -/
theorem move_core (W B : Fin 6 → ℕ) (pt : Fin 6) (f t : ℕ)
    (hW : ∀ i, W i < 2 ^ 64) (hB : ∀ i, B i < 2 ^ 64)
    (hf : f < 64) (ht : t < 64)
    (hinv : invariantsArr W B)
    (hfW : pt = 5 → (W 5).testBit f = true)
    (hWt : ∀ i, (W i).testBit t = false)
    (hpawn : pt = 0 → t / 8 ≠ 0 ∧ t / 8 ≠ 7)
    (B' : Fin 6 → ℕ)
    (hB' : ((∀ j s, (B' j).testBit s = true → (B j).testBit s = true) ∧
            B' 5 = B 5 ∧ (∀ j, (B j).testBit t = false)) ∨
           (∃ ct : Fin 6, ct ≠ 5 ∧ (B ct).testBit t = true ∧
             B' = Function.update B ct (clear_bit (B ct) t))) :
    invariantsArr (Function.update W pt (set_bit (clear_bit (W pt) f) t)) B' := by
  obtain ⟨hWW, hBB, hWB, hK1, hK2, hP⟩ := hinv
  set W' := Function.update W pt (set_bit (clear_bit (W pt) f) t) with hW'
  have hWpt : ∀ s, (W' pt).testBit s =
      ((W pt).testBit s && decide (s ≠ f) || decide (t = s)) := by
    intro s
    rw [hW', Function.update_same, testBit_set_bit,
      testBit_clear_bit _ _ _ hf (hW pt)]
  have hWne : ∀ i : Fin 6, i ≠ pt → W' i = W i := by
    intro i hi
    rw [hW', Function.update_noteq hi]
  -- uniform facts about the opposing side
  have hBsub : ∀ j s, (B' j).testBit s = true → (B j).testBit s = true := by
    rcases hB' with ⟨hs, -, -⟩ | ⟨ct, hct5, hctT, rfl⟩
    · exact hs
    · intro j s h
      by_cases hj : j = ct
      · subst hj
        rw [Function.update_same, testBit_clear_bit _ _ _ ht (hB j)] at h
        exact (Bool.and_eq_true_iff.mp h).1
      · rwa [Function.update_noteq hj] at h
  have hB5 : B' 5 = B 5 := by
    rcases hB' with ⟨-, h5, -⟩ | ⟨ct, hct5, -, rfl⟩
    · exact h5
    · exact Function.update_noteq (fun h => hct5 h.symm) _ _
  have hBt : ∀ j, (B' j).testBit t = false := by
    rcases hB' with ⟨hs, -, hBt0⟩ | ⟨ct, hct5, hctT, rfl⟩
    · intro j
      cases hbj : (B' j).testBit t
      · rfl
      · have h2 := hs j t hbj
        rw [hBt0 j] at h2
        cases h2
    · intro j
      by_cases hj : j = ct
      · subst hj
        rw [Function.update_same, testBit_clear_bit _ _ _ ht (hB j)]
        simp
      · rw [Function.update_noteq hj]
        exact and_empty_of_right _ _ t (Nat.and_comm (B ct) (B j) ▸ hBB ct j
          (fun h => hj h.symm)) hctT
  refine ⟨?_, ?_, ?_, ?_, ?_, ?_⟩
  · -- moving side stays pairwise disjoint
    intro i j hij
    rw [and_eq_zero_iff]
    intro s hs
    by_cases hi : i = pt
    · have hj : j ≠ pt := by
        rw [← hi]
        exact fun h => hij h.symm
      rw [hi] at hs
      rw [hWne j hj]
      rw [hWpt s] at hs
      rcases Bool.or_eq_true_iff.mp hs with h1 | h1
      · obtain ⟨hw, -⟩ := Bool.and_eq_true_iff.mp h1
        exact (and_eq_zero_iff _ _).mp (hWW pt j (fun h => hj h.symm)) s hw
      · have hts : t = s := of_decide_eq_true h1
        rw [← hts]
        exact hWt j
    · rw [hWne i hi] at hs
      by_cases hj : j = pt
      · rw [hj, hWpt s]
        have h1 : (W pt).testBit s = false :=
          (and_eq_zero_iff _ _).mp (hWW i pt hi) s hs
        have h2 : t ≠ s := by
          intro h
          rw [← h, hWt i] at hs
          cases hs
        simp [h1, h2]
      · rw [hWne j hj]
        exact (and_eq_zero_iff _ _).mp (hWW i j hij) s hs
  · -- opposing side stays pairwise disjoint
    intro i j hij
    rw [and_eq_zero_iff]
    intro s hs
    cases hbj : (B' j).testBit s
    · rfl
    · have h1 := hBsub i s hs
      have h2 := hBsub j s hbj
      have h3 := (and_eq_zero_iff _ _).mp (hBB i j hij) s h1
      rw [h2] at h3
      cases h3
  · -- the sides stay disjoint
    intro i j
    rw [and_eq_zero_iff]
    intro s hs
    by_cases hi : i = pt
    · rw [hi] at hs
      rw [hWpt s] at hs
      rcases Bool.or_eq_true_iff.mp hs with h1 | h1
      · obtain ⟨hw, -⟩ := Bool.and_eq_true_iff.mp h1
        cases hbj : (B' j).testBit s
        · rfl
        · have h2 := hBsub j s hbj
          have h3 := (and_eq_zero_iff _ _).mp (hWB pt j) s hw
          rw [h2] at h3
          cases h3
      · have hts : t = s := of_decide_eq_true h1
        rw [← hts]
        exact hBt j
    · rw [hWne i hi] at hs
      cases hbj : (B' j).testBit s
      · rfl
      · have h2 := hBsub j s hbj
        have h3 := (and_eq_zero_iff _ _).mp (hWB i j) s hs
        rw [h2] at h3
        cases h3
  · -- one king of the moving side
    by_cases hpt : pt = 5
    · have h5 : W' 5 = set_bit (clear_bit (W 5) f) t := by
        rw [hW', ← hpt, Function.update_same]
      rw [h5, count_move _ f t hf ht (hW 5) (hfW hpt) (hWt 5)]
      exact hK1
    · rw [hWne 5 (fun h => hpt h.symm)]
      exact hK1
  · -- one king of the opposing side
    rw [hB5]
    exact hK2
  · -- no pawn reaches a back rank
    rw [and_eq_zero_iff]
    intro s hs
    rw [Nat.testBit_lor] at hs
    rcases Bool.or_eq_true_iff.mp hs with h1 | h1
    · by_cases hpt : pt = 0
      · have h0 : W' 0 = set_bit (clear_bit (W 0) f) t := by
          rw [hW', ← hpt, Function.update_same]
        rw [h0, testBit_set_bit,
          testBit_clear_bit _ _ _ hf (hW 0)] at h1
        rcases Bool.or_eq_true_iff.mp h1 with h2 | h2
        · obtain ⟨hw, -⟩ := Bool.and_eq_true_iff.mp h2
          exact (and_eq_zero_iff _ _).mp hP s (lor_testBit_left _ _ _ hw)
        · have hts : t = s := of_decide_eq_true h2
          rw [← hts]
          exact rank_mask_free t (hpawn hpt).1 (hpawn hpt).2 ht
      · rw [hWne 0 (fun h => hpt h.symm)] at h1
        exact (and_eq_zero_iff _ _).mp hP s (lor_testBit_left _ _ _ h1)
    · have h2 := hBsub 0 s h1
      exact (and_eq_zero_iff _ _).mp hP s (lor_testBit_right _ _ _ h2)

end Ananke

namespace Ananke

theorem updClear_sub (B : Fin 6 → ℕ) (ct : Fin 6) (t : ℕ)
    (hB : ∀ i, B i < 2 ^ 64) (ht : t < 64) :
    ∀ j s, ((Function.update B ct (clear_bit (B ct) t)) j).testBit s = true →
      (B j).testBit s = true := by
  intro j s h
  by_cases hj : j = ct
  · subst hj
    rw [Function.update_same, testBit_clear_bit _ _ _ ht (hB j)] at h
    exact (Bool.and_eq_true_iff.mp h).1
  · rwa [Function.update_noteq hj] at h

theorem updClear_t (B : Fin 6 → ℕ) (ct : Fin 6) (t : ℕ)
    (hB : ∀ i, B i < 2 ^ 64) (ht : t < 64)
    (hBB : ∀ i j : Fin 6, i ≠ j → B i &&& B j = 0)
    (hctT : (B ct).testBit t = true) :
    ∀ j, ((Function.update B ct (clear_bit (B ct) t)) j).testBit t = false := by
  intro j
  by_cases hj : j = ct
  · subst hj
    rw [Function.update_same, testBit_clear_bit _ _ _ ht (hB j)]
    simp
  · rw [Function.update_noteq hj]
    exact and_empty_of_right _ _ t (Nat.and_comm (B ct) (B j) ▸ hBB ct j
      (fun h => hj h.symm)) hctT

/-- Clearing any square from a non-king set of the moving side preserves
the array invariants. -/
theorem clear_core (W B : Fin 6 → ℕ) (ct : Fin 6) (s0 : ℕ)
    (hW : ∀ i, W i < 2 ^ 64) (hs0 : s0 < 64) (hct5 : ct ≠ 5)
    (hinv : invariantsArr W B) :
    invariantsArr (Function.update W ct (clear_bit (W ct) s0)) B := by
  obtain ⟨hWW, hBB, hWB, hK1, hK2, hP⟩ := hinv
  have hsub := updClear_sub W ct s0 hW hs0
  refine ⟨?_, hBB, ?_, ?_, hK2, ?_⟩
  · intro i j hij
    rw [and_eq_zero_iff]
    intro s hs
    cases hj : ((Function.update W ct (clear_bit (W ct) s0)) j).testBit s
    · rfl
    · have h1 := hsub i s hs
      have h2 := hsub j s hj
      have h3 := (and_eq_zero_iff _ _).mp (hWW i j hij) s h1
      rw [h2] at h3
      cases h3
  · intro i j
    rw [and_eq_zero_iff]
    intro s hs
    exact (and_eq_zero_iff _ _).mp (hWB i j) s (hsub i s hs)
  · rw [Function.update_noteq (fun h => hct5 h.symm)]
    exact hK1
  · rw [and_eq_zero_iff]
    intro s hs
    rw [Nat.testBit_lor] at hs
    rcases Bool.or_eq_true_iff.mp hs with h1 | h1
    · exact (and_eq_zero_iff _ _).mp hP s (lor_testBit_left _ _ _ (hsub 0 s h1))
    · exact (and_eq_zero_iff _ _).mp hP s (lor_testBit_right _ _ _ h1)

/-- Adding a non-king piece on a completely empty square preserves the
array invariants. -/
theorem place_core (W B : Fin 6 → ℕ) (pr : Fin 6) (t : ℕ)
    (ht : t < 64) (hpr5 : pr ≠ 5)
    (hpr0 : pr = 0 → t / 8 ≠ 0 ∧ t / 8 ≠ 7)
    (hWt : ∀ i, (W i).testBit t = false)
    (hBt : ∀ j, (B j).testBit t = false)
    (hinv : invariantsArr W B) :
    invariantsArr (Function.update W pr (set_bit (W pr) t)) B := by
  obtain ⟨hWW, hBB, hWB, hK1, hK2, hP⟩ := hinv
  set W' := Function.update W pr (set_bit (W pr) t) with hW'
  have hWpr : ∀ s, (W' pr).testBit s = ((W pr).testBit s || decide (t = s)) := by
    intro s
    rw [hW', Function.update_same, testBit_set_bit]
  have hWne : ∀ i : Fin 6, i ≠ pr → W' i = W i := by
    intro i hi
    rw [hW', Function.update_noteq hi]
  refine ⟨?_, hBB, ?_, ?_, hK2, ?_⟩
  · intro i j hij
    rw [and_eq_zero_iff]
    intro s hs
    by_cases hi : i = pr
    · have hj : j ≠ pr := by
        rw [← hi]
        exact fun h => hij h.symm
      rw [hi] at hs
      rw [hWne j hj]
      rw [hWpr s] at hs
      rcases Bool.or_eq_true_iff.mp hs with h1 | h1
      · exact (and_eq_zero_iff _ _).mp (hWW pr j (fun h => hj h.symm)) s h1
      · have hts : t = s := of_decide_eq_true h1
        rw [← hts]
        exact hWt j
    · rw [hWne i hi] at hs
      by_cases hj : j = pr
      · rw [hj, hWpr s]
        have h1 : (W pr).testBit s = false :=
          (and_eq_zero_iff _ _).mp (hWW i pr hi) s hs
        have h2 : t ≠ s := by
          intro h
          rw [← h, hWt i] at hs
          cases hs
        simp [h1, h2]
      · rw [hWne j hj]
        exact (and_eq_zero_iff _ _).mp (hWW i j hij) s hs
  · intro i j
    rw [and_eq_zero_iff]
    intro s hs
    by_cases hi : i = pr
    · rw [hi] at hs
      rw [hWpr s] at hs
      rcases Bool.or_eq_true_iff.mp hs with h1 | h1
      · exact (and_eq_zero_iff _ _).mp (hWB pr j) s h1
      · have hts : t = s := of_decide_eq_true h1
        rw [← hts]
        exact hBt j
    · rw [hWne i hi] at hs
      exact (and_eq_zero_iff _ _).mp (hWB i j) s hs
  · rw [hWne 5 (fun h => hpr5 h.symm)]
    exact hK1
  · rw [and_eq_zero_iff]
    intro s hs
    rw [Nat.testBit_lor] at hs
    rcases Bool.or_eq_true_iff.mp hs with h1 | h1
    · by_cases hp : pr = 0
      · rw [← hp, hWpr s] at h1
        rcases Bool.or_eq_true_iff.mp h1 with h2 | h2
        · rw [hp] at h2
          exact (and_eq_zero_iff _ _).mp hP s (lor_testBit_left _ _ _ h2)
        · have hts : t = s := of_decide_eq_true h2
          rw [← hts]
          exact rank_mask_free t (hpr0 hp).1 (hpr0 hp).2 ht
      · rw [hWne 0 (fun h => hp h.symm)] at h1
        exact (and_eq_zero_iff _ _).mp hP s (lor_testBit_left _ _ _ h1)
    · exact (and_eq_zero_iff _ _).mp hP s (lor_testBit_right _ _ _ h1)

end Ananke

namespace Ananke

/-- A king step never spans two files horizontally: the possible packed
square differences exclude `±2`, so `make_move` cannot mistake a king step
for a castle. -/
theorem king_attack_not2 (f t : ℕ)
    (h : (generate_king_attacks f).testBit t = true) :
    ((f : ℤ) - (t : ℤ)).natAbs ≠ 2 := by
  unfold generate_king_attacks at h
  dsimp only at h
  rw [Nat.testBit_land] at h
  have h' := (Bool.and_eq_true_iff.mp h).1
  simp only [Nat.testBit_lor, Bool.or_eq_true] at h'
  rcases h' with ((h1 | h1) | h1) | h1
  · rw [testBit_shl, Nat.one_shiftLeft, Nat.testBit_two_pow] at h1
    simp only [Bool.and_eq_true, decide_eq_true_eq] at h1
    omega
  · rw [testBit_shr, Nat.one_shiftLeft, Nat.testBit_two_pow] at h1
    simp only [decide_eq_true_eq] at h1
    omega
  · split at h1
    · simp only [Nat.testBit_lor, Bool.or_eq_true] at h1
      rcases h1 with (h2 | h2) | h2
      · rw [testBit_shl, Nat.one_shiftLeft, Nat.testBit_two_pow] at h2
        simp only [Bool.and_eq_true, decide_eq_true_eq] at h2
        omega
      · rw [testBit_shl, Nat.one_shiftLeft, Nat.testBit_two_pow] at h2
        simp only [Bool.and_eq_true, decide_eq_true_eq] at h2
        omega
      · rw [testBit_shr, Nat.one_shiftLeft, Nat.testBit_two_pow] at h2
        simp only [decide_eq_true_eq] at h2
        omega
    · rw [Nat.zero_testBit] at h1
      cases h1
  · split at h1
    · simp only [Nat.testBit_lor, Bool.or_eq_true] at h1
      rcases h1 with (h2 | h2) | h2
      · rw [testBit_shr, Nat.one_shiftLeft, Nat.testBit_two_pow] at h2
        simp only [decide_eq_true_eq] at h2
        omega
      · rw [testBit_shl, Nat.one_shiftLeft, Nat.testBit_two_pow] at h2
        simp only [Bool.and_eq_true, decide_eq_true_eq] at h2
        omega
      · rw [testBit_shr, Nat.one_shiftLeft, Nat.testBit_two_pow] at h2
        simp only [decide_eq_true_eq] at h2
        omega
    · rw [Nat.zero_testBit] at h1
      cases h1

/-- Full facts carried by the knight/slider emission pattern. -/
theorem mem_step_moves_facts (P E F : ℕ) (raw : ℕ → ℕ) (hP : P < 2 ^ 64)
    (hF : F < 2 ^ 64) (m : ℕ)
    (hm : m ∈ (bitList P).flatMap (fun f =>
      (bitList (raw f &&& not64 F)).map (fun t =>
        mkMove f t (if get_bit E t then Move.CAPTURE else Move.QUIET)))) :
    ∃ f t, f < 64 ∧ t < 64 ∧ P.testBit f = true ∧ (raw f).testBit t = true ∧
      F.testBit t = false ∧
      ((m = mkMove f t Move.QUIET ∧ E.testBit t = false) ∨
       (m = mkMove f t Move.CAPTURE ∧ E.testBit t = true)) := by
  rw [List.mem_flatMap] at hm
  obtain ⟨f, hf, hm⟩ := hm
  rw [List.mem_map] at hm
  obtain ⟨t, ht, hmk⟩ := hm
  rw [mem_bitList] at hf ht
  rw [Nat.testBit_land, Bool.and_eq_true_iff] at ht
  obtain ⟨hraw, hmask⟩ := ht
  rw [testBit_not64 _ _ hF] at hmask
  simp only [Bool.and_eq_true, decide_eq_true_eq, Bool.not_eq_true'] at hmask
  refine ⟨f, t, testBit_true_lt _ _ hP hf, hmask.1, hf, hraw, hmask.2, ?_⟩
  cases hgb : get_bit E t
  · rw [hgb] at hmk
    rw [get_bit_eq] at hgb
    exact Or.inl ⟨hmk.symm, hgb⟩
  · rw [hgb] at hmk
    rw [get_bit_eq] at hgb
    exact Or.inr ⟨hmk.symm, hgb⟩

/-- Full facts carried by the king-step emission pattern (one fixed king
square). -/
theorem mem_map_step_facts (f0 E F RA : ℕ) (hF : F < 2 ^ 64) (m : ℕ)
    (hm : m ∈ (bitList (RA &&& not64 F)).map (fun t =>
      mkMove f0 t (if get_bit E t then Move.CAPTURE else Move.QUIET))) :
    ∃ t, t < 64 ∧ RA.testBit t = true ∧ F.testBit t = false ∧
      ((m = mkMove f0 t Move.QUIET ∧ E.testBit t = false) ∨
       (m = mkMove f0 t Move.CAPTURE ∧ E.testBit t = true)) := by
  rw [List.mem_map] at hm
  obtain ⟨t, ht, hmk⟩ := hm
  rw [mem_bitList] at ht
  rw [Nat.testBit_land, Bool.and_eq_true_iff] at ht
  obtain ⟨hraw, hmask⟩ := ht
  rw [testBit_not64 _ _ hF] at hmask
  simp only [Bool.and_eq_true, decide_eq_true_eq, Bool.not_eq_true'] at hmask
  refine ⟨t, hmask.1, hraw, hmask.2, ?_⟩
  cases hgb : get_bit E t
  · rw [hgb] at hmk
    rw [get_bit_eq] at hgb
    exact Or.inl ⟨hmk.symm, hgb⟩
  · rw [hgb] at hmk
    rw [get_bit_eq] at hgb
    exact Or.inr ⟨hmk.symm, hgb⟩

end Ananke

namespace Ananke

/-- Applying a generated quiet / double-push / plain-capture move of White
(no promotion, no castle, no en passant) preserves the invariants. -/
theorem simple_white (b : Board) (hside : b.side_to_move = Color.White)
    (hinv : invariants b) (hbd : piecesBounded b)
    (pt : Fin 6) (f t flag : ℕ) (hf : f < 64) (ht : t < 64)
    (hptb : (b.white_pieces pt).testBit f = true)
    (hnc : ¬(pt = King ∧ ((f : ℤ) - (t : ℤ)).natAbs = 2))
    (hpawn : pt = 0 → t / 8 ≠ 0 ∧ t / 8 ≠ 7)
    (hcase : ((flag = 0 ∨ flag = 1) ∧ b.all_occupancy.testBit t = false) ∨
             (flag = 4 ∧ b.black_occupancy.testBit t = true ∧
              (b.black_pieces 5).testBit t = false)) :
    ∃ b', make_move b (mkMove f t flag) = some b' ∧ invariants b' := by
  have hocc := hinv.2.1
  have hfl16 : flag < 16 := by
    rcases hcase with ⟨h, -⟩ | ⟨h, -, -⟩
    · rcases h with rfl | rfl <;> norm_num
    · subst h; norm_num
  have hWt : ∀ i : Fin 6, (b.white_pieces i).testBit t = false := by
    rcases hcase with ⟨-, hempty⟩ | ⟨-, hben, -⟩
    · exact fun i => occ_empty_w b hocc t (all_empty_split b hocc t hempty).1 i
    · intro i
      obtain ⟨j, hj⟩ := occ_mem_b b hocc t hben
      exact and_empty_of_right _ _ t (hinv.1.2.2 i j) hj
  have hscan : get_piece_type_at b f b.side_to_move = some pt := by
    rw [hside]
    exact get_piece_type_at_eq b Color.White pt f hinv.1.1 hptb
  have hip : is_promotion (mkMove f t flag) = false := by
    rw [is_promotion_mk f t flag hf ht hfl16]
    rcases hcase with ⟨h, -⟩ | ⟨h, -, -⟩
    · rcases h with rfl | rfl <;> decide
    · subst h; decide
  -- step 1 board
  have hn1w : (add_piece (remove_piece b pt Color.White f) pt Color.White
      t).white_pieces =
      Function.update b.white_pieces pt
        (set_bit (clear_bit (b.white_pieces pt) f) t) := by
    rw [add_w_wp, rem_w_wp, Function.update_idem, Function.update_same]
  have hn1b : (add_piece (remove_piece b pt Color.White f) pt Color.White
      t).black_pieces = b.black_pieces := by
    rw [add_w_bp, rem_w_bp]
  have hcs : mm_castle_step
      (add_piece (remove_piece b pt Color.White f) pt Color.White t)
      pt Color.White f t =
      add_piece (remove_piece b pt Color.White f) pt Color.White t := by
    unfold mm_castle_step
    rw [if_neg hnc]
  rcases hcase with ⟨hfl01, hempty⟩ | ⟨hfl4, hben, hbk⟩
  · -- quiet or double push: no capture
    have hic : is_capture (mkMove f t flag) = false := by
      rw [is_capture_mk f t flag hf ht hfl16]
      rcases hfl01 with rfl | rfl <;> decide
    have hcap : mm_capture_step b
        (add_piece (remove_piece b pt Color.White f) pt Color.White t)
        (mkMove f t flag) =
        some (add_piece (remove_piece b pt Color.White f) pt Color.White t) := by
      unfold mm_capture_step
      dsimp only
      rw [hic]
      rfl
    have hpromo : mm_promo_step
        (add_piece (remove_piece b pt Color.White f) pt Color.White t)
        Color.White (mkMove f t flag) =
        some (add_piece (remove_piece b pt Color.White f) pt Color.White t) := by
      unfold mm_promo_step
      rw [hip]
      rfl
    have heval := make_move_eval b (mkMove f t flag) pt _ _
      (by rw [mfrom_mk f t flag hf ht hfl16]; exact hscan)
      (by rw [mfrom_mk f t flag hf ht hfl16, mto_mk f t flag hf ht hfl16, hside,
            hcs]
          exact hcap)
      (by rw [hside]; exact hpromo)
    refine ⟨_, heval, ?_⟩
    apply invariants_mk
    · exact occ_ok_update _
    · rw [update_occ_white_pieces, mm_state_step_wp, mm_rights_step_wp,
        update_occ_black_pieces, mm_state_step_bp, mm_rights_step_bp,
        hn1w, hn1b]
      refine move_core b.white_pieces b.black_pieces pt f t hbd.1 hbd.2 hf ht
        (invariants_arr_of b hinv) (fun h5 => by rw [← h5]; exact hptb) hWt hpawn
        b.black_pieces (Or.inl ⟨fun j s h => h, rfl, ?_⟩)
      exact fun j => occ_empty_b b hocc t (all_empty_split b hocc t hempty).2 j
  · -- plain capture
    subst hfl4
    obtain ⟨ct, hctscan, hctbit⟩ :=
      get_piece_type_at_exists b Color.Black t (occ_mem_b b hocc t hben)
    have hct5 : ct ≠ 5 := by
      intro h
      rw [h] at hctbit
      have h2 : (b.black_pieces 5).testBit t = true := hctbit
      rw [h2] at hbk
      cases hbk
    have hic : is_capture (mkMove f t 4) = true := by
      rw [is_capture_mk f t 4 hf ht (by norm_num)]
      decide
    have hcap : mm_capture_step b
        (add_piece (remove_piece b pt Color.White f) pt Color.White t)
        (mkMove f t 4) =
        some (if ct = Rook then
          mm_rook_captured
            (remove_piece
              (add_piece (remove_piece b pt Color.White f) pt Color.White t)
              ct Color.Black t) Color.Black t
        else
          remove_piece
            (add_piece (remove_piece b pt Color.White f) pt Color.White t)
            ct Color.Black t) := by
      unfold mm_capture_step
      dsimp only
      rw [hic, mflag_mk f t 4 hf ht (by norm_num), mto_mk f t 4 hf ht (by norm_num),
        hside]
      rw [show (Color.White).opposite = Color.Black from rfl]
      rw [hctscan]
      simp only [Option.bind_eq_bind, Option.some_bind]
      rfl
    have hpromo : mm_promo_step
        (if ct = Rook then
          mm_rook_captured
            (remove_piece
              (add_piece (remove_piece b pt Color.White f) pt Color.White t)
              ct Color.Black t) Color.Black t
        else
          remove_piece
            (add_piece (remove_piece b pt Color.White f) pt Color.White t)
            ct Color.Black t)
        Color.White (mkMove f t 4) =
        some (if ct = Rook then
          mm_rook_captured
            (remove_piece
              (add_piece (remove_piece b pt Color.White f) pt Color.White t)
              ct Color.Black t) Color.Black t
        else
          remove_piece
            (add_piece (remove_piece b pt Color.White f) pt Color.White t)
            ct Color.Black t) := by
      unfold mm_promo_step
      rw [hip]
      rfl
    have heval := make_move_eval b (mkMove f t 4) pt _ _
      (by rw [mfrom_mk f t 4 hf ht (by norm_num)]; exact hscan)
      (by rw [mfrom_mk f t 4 hf ht (by norm_num), mto_mk f t 4 hf ht (by norm_num),
            hside, hcs]
          exact hcap)
      (by rw [hside]; exact hpromo)
    refine ⟨_, heval, ?_⟩
    apply invariants_mk
    · exact occ_ok_update _
    · have hn3w : (if ct = Rook then
          mm_rook_captured
            (remove_piece
              (add_piece (remove_piece b pt Color.White f) pt Color.White t)
              ct Color.Black t) Color.Black t
        else
          remove_piece
            (add_piece (remove_piece b pt Color.White f) pt Color.White t)
            ct Color.Black t).white_pieces =
          Function.update b.white_pieces pt
            (set_bit (clear_bit (b.white_pieces pt) f) t) := by
        by_cases hr : ct = Rook
        · rw [if_pos hr, mm_rook_captured_wp, rem_b_wp, hn1w]
        · rw [if_neg hr, rem_b_wp, hn1w]
      have hn3b : (if ct = Rook then
          mm_rook_captured
            (remove_piece
              (add_piece (remove_piece b pt Color.White f) pt Color.White t)
              ct Color.Black t) Color.Black t
        else
          remove_piece
            (add_piece (remove_piece b pt Color.White f) pt Color.White t)
            ct Color.Black t).black_pieces =
          Function.update b.black_pieces ct
            (clear_bit (b.black_pieces ct) t) := by
        by_cases hr : ct = Rook
        · rw [if_pos hr, mm_rook_captured_bp, rem_b_bp, hn1b]
        · rw [if_neg hr, rem_b_bp, hn1b]
      rw [update_occ_white_pieces, mm_state_step_wp, mm_rights_step_wp,
        update_occ_black_pieces, mm_state_step_bp, mm_rights_step_bp,
        hn3w, hn3b]
      exact move_core b.white_pieces b.black_pieces pt f t hbd.1 hbd.2 hf ht
        (invariants_arr_of b hinv) (fun h5 => by rw [← h5]; exact hptb) hWt hpawn
        _ (Or.inr ⟨ct, hct5, hctbit, rfl⟩)

end Ananke

namespace Ananke

/-- Mirror of `simple_white` for Black to move. -/
theorem simple_black (b : Board) (hside : b.side_to_move = Color.Black)
    (hinv : invariants b) (hbd : piecesBounded b)
    (pt : Fin 6) (f t flag : ℕ) (hf : f < 64) (ht : t < 64)
    (hptb : (b.black_pieces pt).testBit f = true)
    (hnc : ¬(pt = King ∧ ((f : ℤ) - (t : ℤ)).natAbs = 2))
    (hpawn : pt = 0 → t / 8 ≠ 0 ∧ t / 8 ≠ 7)
    (hcase : ((flag = 0 ∨ flag = 1) ∧ b.all_occupancy.testBit t = false) ∨
             (flag = 4 ∧ b.white_occupancy.testBit t = true ∧
              (b.white_pieces 5).testBit t = false)) :
    ∃ b', make_move b (mkMove f t flag) = some b' ∧ invariants b' := by
  have hocc := hinv.2.1
  have hfl16 : flag < 16 := by
    rcases hcase with ⟨h, -⟩ | ⟨h, -, -⟩
    · rcases h with rfl | rfl <;> norm_num
    · subst h; norm_num
  have hBt : ∀ i : Fin 6, (b.black_pieces i).testBit t = false := by
    rcases hcase with ⟨-, hempty⟩ | ⟨-, hwen, -⟩
    · exact fun i => occ_empty_b b hocc t (all_empty_split b hocc t hempty).2 i
    · intro i
      obtain ⟨j, hj⟩ := occ_mem_w b hocc t hwen
      exact and_empty_of_right _ _ t
        (Nat.and_comm (b.white_pieces j) (b.black_pieces i) ▸ hinv.1.2.2 j i) hj
  have hscan : get_piece_type_at b f b.side_to_move = some pt := by
    rw [hside]
    exact get_piece_type_at_eq b Color.Black pt f hinv.1.2.1 hptb
  have hip : is_promotion (mkMove f t flag) = false := by
    rw [is_promotion_mk f t flag hf ht hfl16]
    rcases hcase with ⟨h, -⟩ | ⟨h, -, -⟩
    · rcases h with rfl | rfl <;> decide
    · subst h; decide
  have hn1b : (add_piece (remove_piece b pt Color.Black f) pt Color.Black
      t).black_pieces =
      Function.update b.black_pieces pt
        (set_bit (clear_bit (b.black_pieces pt) f) t) := by
    rw [add_b_bp, rem_b_bp, Function.update_idem, Function.update_same]
  have hn1w : (add_piece (remove_piece b pt Color.Black f) pt Color.Black
      t).white_pieces = b.white_pieces := by
    rw [add_b_wp, rem_b_wp]
  have hcs : mm_castle_step
      (add_piece (remove_piece b pt Color.Black f) pt Color.Black t)
      pt Color.Black f t =
      add_piece (remove_piece b pt Color.Black f) pt Color.Black t := by
    unfold mm_castle_step
    rw [if_neg hnc]
  rcases hcase with ⟨hfl01, hempty⟩ | ⟨hfl4, hwen, hwk⟩
  · -- quiet or double push: no capture
    have hic : is_capture (mkMove f t flag) = false := by
      rw [is_capture_mk f t flag hf ht hfl16]
      rcases hfl01 with rfl | rfl <;> decide
    have hcap : mm_capture_step b
        (add_piece (remove_piece b pt Color.Black f) pt Color.Black t)
        (mkMove f t flag) =
        some (add_piece (remove_piece b pt Color.Black f) pt Color.Black t) := by
      unfold mm_capture_step
      dsimp only
      rw [hic]
      rfl
    have hpromo : mm_promo_step
        (add_piece (remove_piece b pt Color.Black f) pt Color.Black t)
        Color.Black (mkMove f t flag) =
        some (add_piece (remove_piece b pt Color.Black f) pt Color.Black t) := by
      unfold mm_promo_step
      rw [hip]
      rfl
    have heval := make_move_eval b (mkMove f t flag) pt _ _
      (by rw [mfrom_mk f t flag hf ht hfl16]; exact hscan)
      (by rw [mfrom_mk f t flag hf ht hfl16, mto_mk f t flag hf ht hfl16, hside,
            hcs]
          exact hcap)
      (by rw [hside]; exact hpromo)
    refine ⟨_, heval, ?_⟩
    apply invariants_mk
    · exact occ_ok_update _
    · rw [update_occ_white_pieces, mm_state_step_wp, mm_rights_step_wp,
        update_occ_black_pieces, mm_state_step_bp, mm_rights_step_bp,
        hn1w, hn1b]
      refine invariantsArr_swap _ _
        (move_core b.black_pieces b.white_pieces pt f t hbd.2 hbd.1 hf ht
          (invariantsArr_swap _ _ (invariants_arr_of b hinv))
          (fun h5 => by rw [← h5]; exact hptb) hBt hpawn
          b.white_pieces (Or.inl ⟨fun j s h => h, rfl, ?_⟩))
      exact fun j => occ_empty_w b hocc t (all_empty_split b hocc t hempty).1 j
  · -- plain capture
    subst hfl4
    obtain ⟨ct, hctscan, hctbit⟩ :=
      get_piece_type_at_exists b Color.White t (occ_mem_w b hocc t hwen)
    have hct5 : ct ≠ 5 := by
      intro h
      rw [h] at hctbit
      have h2 : (b.white_pieces 5).testBit t = true := hctbit
      rw [h2] at hwk
      cases hwk
    have hic : is_capture (mkMove f t 4) = true := by
      rw [is_capture_mk f t 4 hf ht (by norm_num)]
      decide
    have hcap : mm_capture_step b
        (add_piece (remove_piece b pt Color.Black f) pt Color.Black t)
        (mkMove f t 4) =
        some (if ct = Rook then
          mm_rook_captured
            (remove_piece
              (add_piece (remove_piece b pt Color.Black f) pt Color.Black t)
              ct Color.White t) Color.White t
        else
          remove_piece
            (add_piece (remove_piece b pt Color.Black f) pt Color.Black t)
            ct Color.White t) := by
      unfold mm_capture_step
      dsimp only
      rw [hic, mflag_mk f t 4 hf ht (by norm_num), mto_mk f t 4 hf ht (by norm_num),
        hside]
      rw [show (Color.Black).opposite = Color.White from rfl]
      rw [hctscan]
      simp only [Option.bind_eq_bind, Option.some_bind]
      rfl
    have hpromo : mm_promo_step
        (if ct = Rook then
          mm_rook_captured
            (remove_piece
              (add_piece (remove_piece b pt Color.Black f) pt Color.Black t)
              ct Color.White t) Color.White t
        else
          remove_piece
            (add_piece (remove_piece b pt Color.Black f) pt Color.Black t)
            ct Color.White t)
        Color.Black (mkMove f t 4) =
        some (if ct = Rook then
          mm_rook_captured
            (remove_piece
              (add_piece (remove_piece b pt Color.Black f) pt Color.Black t)
              ct Color.White t) Color.White t
        else
          remove_piece
            (add_piece (remove_piece b pt Color.Black f) pt Color.Black t)
            ct Color.White t) := by
      unfold mm_promo_step
      rw [hip]
      rfl
    have heval := make_move_eval b (mkMove f t 4) pt _ _
      (by rw [mfrom_mk f t 4 hf ht (by norm_num)]; exact hscan)
      (by rw [mfrom_mk f t 4 hf ht (by norm_num), mto_mk f t 4 hf ht (by norm_num),
            hside, hcs]
          exact hcap)
      (by rw [hside]; exact hpromo)
    refine ⟨_, heval, ?_⟩
    apply invariants_mk
    · exact occ_ok_update _
    · have hn3b : (if ct = Rook then
          mm_rook_captured
            (remove_piece
              (add_piece (remove_piece b pt Color.Black f) pt Color.Black t)
              ct Color.White t) Color.White t
        else
          remove_piece
            (add_piece (remove_piece b pt Color.Black f) pt Color.Black t)
            ct Color.White t).black_pieces =
          Function.update b.black_pieces pt
            (set_bit (clear_bit (b.black_pieces pt) f) t) := by
        by_cases hr : ct = Rook
        · rw [if_pos hr, mm_rook_captured_bp, rem_w_bp, hn1b]
        · rw [if_neg hr, rem_w_bp, hn1b]
      have hn3w : (if ct = Rook then
          mm_rook_captured
            (remove_piece
              (add_piece (remove_piece b pt Color.Black f) pt Color.Black t)
              ct Color.White t) Color.White t
        else
          remove_piece
            (add_piece (remove_piece b pt Color.Black f) pt Color.Black t)
            ct Color.White t).white_pieces =
          Function.update b.white_pieces ct
            (clear_bit (b.white_pieces ct) t) := by
        by_cases hr : ct = Rook
        · rw [if_pos hr, mm_rook_captured_wp, rem_w_wp, hn1w]
        · rw [if_neg hr, rem_w_wp, hn1w]
      rw [update_occ_white_pieces, mm_state_step_wp, mm_rights_step_wp,
        update_occ_black_pieces, mm_state_step_bp, mm_rights_step_bp,
        hn3w, hn3b]
      exact invariantsArr_swap _ _
        (move_core b.black_pieces b.white_pieces pt f t hbd.2 hbd.1 hf ht
          (invariantsArr_swap _ _ (invariants_arr_of b hinv))
          (fun h5 => by rw [← h5]; exact hptb) hBt hpawn
          _ (Or.inr ⟨ct, hct5, hctbit, rfl⟩))

end Ananke

namespace Ananke

/-- Applying a generated white en-passant capture onto an empty, interior
target square preserves the invariants. -/
theorem ep_white (b : Board) (hside : b.side_to_move = Color.White)
    (hinv : invariants b) (hbd : piecesBounded b)
    (f t : ℕ) (hf : f < 64) (htlo : 8 ≤ t) (hthi : t < 56)
    (hpw : (b.white_pieces 0).testBit f = true)
    (hempty : b.all_occupancy.testBit t = false) :
    ∃ b', make_move b (mkMove f t 5) = some b' ∧ invariants b' := by
  have hocc := hinv.2.1
  have ht : t < 64 := by omega
  have hWt : ∀ i : Fin 6, (b.white_pieces i).testBit t = false :=
    fun i => occ_empty_w b hocc t (all_empty_split b hocc t hempty).1 i
  have hBt : ∀ j : Fin 6, (b.black_pieces j).testBit t = false :=
    fun j => occ_empty_b b hocc t (all_empty_split b hocc t hempty).2 j
  have hscan : get_piece_type_at b f b.side_to_move = some 0 := by
    rw [hside]
    exact get_piece_type_at_eq b Color.White 0 f hinv.1.1 hpw
  have hic : is_capture (mkMove f t 5) = true := by
    rw [is_capture_mk f t 5 hf ht (by norm_num)]
    decide
  have hip : is_promotion (mkMove f t 5) = false := by
    rw [is_promotion_mk f t 5 hf ht (by norm_num)]
    decide
  have hn1w : (add_piece (remove_piece b 0 Color.White f) 0 Color.White
      t).white_pieces =
      Function.update b.white_pieces 0
        (set_bit (clear_bit (b.white_pieces 0) f) t) := by
    rw [add_w_wp, rem_w_wp, Function.update_idem, Function.update_same]
  have hn1b : (add_piece (remove_piece b 0 Color.White f) 0 Color.White
      t).black_pieces = b.black_pieces := by
    rw [add_w_bp, rem_w_bp]
  have hcs : mm_castle_step
      (add_piece (remove_piece b 0 Color.White f) 0 Color.White t)
      0 Color.White f t =
      add_piece (remove_piece b 0 Color.White f) 0 Color.White t := by
    unfold mm_castle_step
    rw [if_neg]
    intro h
    exact absurd h.1 (by decide)
  have hcap : mm_capture_step b
      (add_piece (remove_piece b 0 Color.White f) 0 Color.White t)
      (mkMove f t 5) =
      some (remove_piece
        (add_piece (remove_piece b 0 Color.White f) 0 Color.White t)
        Pawn Color.Black (t - 8)) := by
    unfold mm_capture_step
    dsimp only
    rw [hic, mflag_mk f t 5 hf ht (by norm_num),
      mto_mk f t 5 hf ht (by norm_num), hside]
    rfl
  have hpromo : mm_promo_step
      (remove_piece
        (add_piece (remove_piece b 0 Color.White f) 0 Color.White t)
        Pawn Color.Black (t - 8))
      Color.White (mkMove f t 5) =
      some (remove_piece
        (add_piece (remove_piece b 0 Color.White f) 0 Color.White t)
        Pawn Color.Black (t - 8)) := by
    unfold mm_promo_step
    rw [hip]
    rfl
  have heval := make_move_eval b (mkMove f t 5) 0 _ _
    (by rw [mfrom_mk f t 5 hf ht (by norm_num)]; exact hscan)
    (by rw [mfrom_mk f t 5 hf ht (by norm_num), mto_mk f t 5 hf ht (by norm_num),
          hside, hcs]
        exact hcap)
    (by rw [hside]; exact hpromo)
  refine ⟨_, heval, ?_⟩
  apply invariants_mk
  · exact occ_ok_update _
  · have hn3w : (remove_piece
        (add_piece (remove_piece b 0 Color.White f) 0 Color.White t)
        Pawn Color.Black (t - 8)).white_pieces =
        Function.update b.white_pieces 0
          (set_bit (clear_bit (b.white_pieces 0) f) t) := by
      rw [rem_b_wp, hn1w]
    have hn3b : (remove_piece
        (add_piece (remove_piece b 0 Color.White f) 0 Color.White t)
        Pawn Color.Black (t - 8)).black_pieces =
        Function.update b.black_pieces 0
          (clear_bit (b.black_pieces 0) (t - 8)) := by
      rw [rem_b_bp, hn1b]
      rfl
    rw [update_occ_white_pieces, mm_state_step_wp, mm_rights_step_wp,
      update_occ_black_pieces, mm_state_step_bp, mm_rights_step_bp,
      hn3w, hn3b]
    refine move_core b.white_pieces b.black_pieces 0 f t hbd.1 hbd.2 hf ht
      (invariants_arr_of b hinv) (fun h5 => by cases h5) hWt
      (fun _ => ⟨by omega, by omega⟩) _
      (Or.inl ⟨updClear_sub b.black_pieces 0 (t - 8) hbd.2 (by omega),
        Function.update_noteq (by decide) _ _, hBt⟩)

/-- Mirror of `ep_white` for Black to move (the victim sits at `t + 8`). -/
theorem ep_black (b : Board) (hside : b.side_to_move = Color.Black)
    (hinv : invariants b) (hbd : piecesBounded b)
    (f t : ℕ) (hf : f < 64) (htlo : 8 ≤ t) (hthi : t < 56)
    (hpb : (b.black_pieces 0).testBit f = true)
    (hempty : b.all_occupancy.testBit t = false) :
    ∃ b', make_move b (mkMove f t 5) = some b' ∧ invariants b' := by
  have hocc := hinv.2.1
  have ht : t < 64 := by omega
  have hWt : ∀ i : Fin 6, (b.white_pieces i).testBit t = false :=
    fun i => occ_empty_w b hocc t (all_empty_split b hocc t hempty).1 i
  have hBt : ∀ j : Fin 6, (b.black_pieces j).testBit t = false :=
    fun j => occ_empty_b b hocc t (all_empty_split b hocc t hempty).2 j
  have hscan : get_piece_type_at b f b.side_to_move = some 0 := by
    rw [hside]
    exact get_piece_type_at_eq b Color.Black 0 f hinv.1.2.1 hpb
  have hic : is_capture (mkMove f t 5) = true := by
    rw [is_capture_mk f t 5 hf ht (by norm_num)]
    decide
  have hip : is_promotion (mkMove f t 5) = false := by
    rw [is_promotion_mk f t 5 hf ht (by norm_num)]
    decide
  have hn1b : (add_piece (remove_piece b 0 Color.Black f) 0 Color.Black
      t).black_pieces =
      Function.update b.black_pieces 0
        (set_bit (clear_bit (b.black_pieces 0) f) t) := by
    rw [add_b_bp, rem_b_bp, Function.update_idem, Function.update_same]
  have hn1w : (add_piece (remove_piece b 0 Color.Black f) 0 Color.Black
      t).white_pieces = b.white_pieces := by
    rw [add_b_wp, rem_b_wp]
  have hcs : mm_castle_step
      (add_piece (remove_piece b 0 Color.Black f) 0 Color.Black t)
      0 Color.Black f t =
      add_piece (remove_piece b 0 Color.Black f) 0 Color.Black t := by
    unfold mm_castle_step
    rw [if_neg]
    intro h
    exact absurd h.1 (by decide)
  have hcap : mm_capture_step b
      (add_piece (remove_piece b 0 Color.Black f) 0 Color.Black t)
      (mkMove f t 5) =
      some (remove_piece
        (add_piece (remove_piece b 0 Color.Black f) 0 Color.Black t)
        Pawn Color.White (t + 8)) := by
    unfold mm_capture_step
    dsimp only
    rw [hic, mflag_mk f t 5 hf ht (by norm_num),
      mto_mk f t 5 hf ht (by norm_num), hside]
    rfl
  have hpromo : mm_promo_step
      (remove_piece
        (add_piece (remove_piece b 0 Color.Black f) 0 Color.Black t)
        Pawn Color.White (t + 8))
      Color.Black (mkMove f t 5) =
      some (remove_piece
        (add_piece (remove_piece b 0 Color.Black f) 0 Color.Black t)
        Pawn Color.White (t + 8)) := by
    unfold mm_promo_step
    rw [hip]
    rfl
  have heval := make_move_eval b (mkMove f t 5) 0 _ _
    (by rw [mfrom_mk f t 5 hf ht (by norm_num)]; exact hscan)
    (by rw [mfrom_mk f t 5 hf ht (by norm_num), mto_mk f t 5 hf ht (by norm_num),
          hside, hcs]
        exact hcap)
    (by rw [hside]; exact hpromo)
  refine ⟨_, heval, ?_⟩
  apply invariants_mk
  · exact occ_ok_update _
  · have hn3b : (remove_piece
        (add_piece (remove_piece b 0 Color.Black f) 0 Color.Black t)
        Pawn Color.White (t + 8)).black_pieces =
        Function.update b.black_pieces 0
          (set_bit (clear_bit (b.black_pieces 0) f) t) := by
      rw [rem_w_bp, hn1b]
    have hn3w : (remove_piece
        (add_piece (remove_piece b 0 Color.Black f) 0 Color.Black t)
        Pawn Color.White (t + 8)).white_pieces =
        Function.update b.white_pieces 0
          (clear_bit (b.white_pieces 0) (t + 8)) := by
      rw [rem_w_wp, hn1w]
      rfl
    rw [update_occ_white_pieces, mm_state_step_wp, mm_rights_step_wp,
      update_occ_black_pieces, mm_state_step_bp, mm_rights_step_bp,
      hn3w, hn3b]
    refine invariantsArr_swap _ _
      (move_core b.black_pieces b.white_pieces 0 f t hbd.2 hbd.1 hf ht
        (invariantsArr_swap _ _ (invariants_arr_of b hinv))
        (fun h5 => by cases h5) hBt
        (fun _ => ⟨by omega, by omega⟩) _
        (Or.inl ⟨updClear_sub b.white_pieces 0 (t + 8) hbd.1 (by omega),
          Function.update_noteq (by decide) _ _, hWt⟩))

end Ananke

namespace Ananke

theorem clear_set_cancel (x t : ℕ) (hx : x < 2 ^ 64) (ht : t < 64) :
    clear_bit (set_bit x t) t = clear_bit x t := by
  apply Nat.eq_of_testBit_eq
  intro s
  rw [testBit_clear_bit _ _ _ ht (set_bit_lt x t hx ht),
    testBit_clear_bit _ _ _ ht hx, testBit_set_bit]
  rcases eq_or_ne s t with rfl | hne
  · simp
  · simp [hne, Ne.symm hne]

/-- Array-level invariant preservation for a promotion of the moving side:
the pawn leaves `f`, the pawn that briefly occupied `t` is swapped for a
piece of type `pr`. -/
theorem promo_w_core (W B2 : Fin 6 → ℕ) (pr : Fin 6) (f t : ℕ)
    (hW : ∀ i, W i < 2 ^ 64) (hf : f < 64) (ht : t < 64)
    (hpr0 : pr ≠ 0) (hpr5 : pr ≠ 5)
    (hinv : invariantsArr W B2)
    (hWt : ∀ i : Fin 6, i ≠ 0 → (W i).testBit t = false)
    (hBt : ∀ j, (B2 j).testBit t = false) :
    invariantsArr (Function.update (Function.update W 0
      (clear_bit (set_bit (clear_bit (W 0) f) t) t)) pr
      (set_bit (W pr) t)) B2 := by
  have hcc : clear_bit (set_bit (clear_bit (W 0) f) t) t
      = clear_bit (clear_bit (W 0) f) t :=
    clear_set_cancel _ t (lt_of_le_of_lt (clear_bit_le _ _) (hW 0)) ht
  rw [hcc]
  have h1 : invariantsArr (Function.update W 0 (clear_bit (W 0) f)) B2 :=
    clear_core W B2 0 f hW hf (by decide) hinv
  have hW1 : ∀ i, (Function.update W 0 (clear_bit (W 0) f)) i < 2 ^ 64 := by
    intro i
    by_cases h : i = 0
    · subst h
      rw [Function.update_same]
      exact lt_of_le_of_lt (clear_bit_le _ _) (hW 0)
    · rw [Function.update_noteq h]
      exact hW i
  have h2 : invariantsArr
      (Function.update W 0 (clear_bit (clear_bit (W 0) f) t)) B2 := by
    have h := clear_core (Function.update W 0 (clear_bit (W 0) f)) B2 0 t
      hW1 ht (by decide) h1
    rwa [Function.update_idem, Function.update_same] at h
  have hW2t : ∀ i : Fin 6,
      ((Function.update W 0 (clear_bit (clear_bit (W 0) f) t)) i).testBit t
        = false := by
    intro i
    by_cases h : i = 0
    · subst h
      rw [Function.update_same, testBit_clear_bit _ _ _ ht
        (lt_of_le_of_lt (clear_bit_le _ _) (hW 0))]
      simp
    · rw [Function.update_noteq h]
      exact hWt i h
  have h3 := place_core (Function.update W 0 (clear_bit (clear_bit (W 0) f) t))
    B2 pr t ht hpr5 (fun h => absurd h hpr0) hW2t hBt h2
  rwa [Function.update_noteq hpr0] at h3

end Ananke

namespace Ananke

/-- Applying a generated white promotion (quiet or capturing) preserves the
invariants. -/
theorem promo_white (b : Board) (hside : b.side_to_move = Color.White)
    (hinv : invariants b) (hbd : piecesBounded b)
    (f t fl : ℕ) (hf : f < 64) (ht : t < 64)
    (pr : Fin 6) (hpr : promoPiece fl = some pr)
    (hpr0 : pr ≠ 0) (hpr5 : pr ≠ 5)
    (hpw : (b.white_pieces 0).testBit f = true)
    (hcase : ((fl = 8 ∨ fl = 9 ∨ fl = 10 ∨ fl = 11) ∧
              b.all_occupancy.testBit t = false) ∨
             ((fl = 12 ∨ fl = 13 ∨ fl = 14 ∨ fl = 15) ∧
              b.black_occupancy.testBit t = true ∧
              (b.black_pieces 5).testBit t = false)) :
    ∃ b', make_move b (mkMove f t fl) = some b' ∧ invariants b' := by
  have hocc := hinv.2.1
  have hfl16 : fl < 16 := by
    rcases hcase with ⟨h, -⟩ | ⟨h, -, -⟩ <;>
      rcases h with rfl | rfl | rfl | rfl <;> norm_num
  have hWt : ∀ i : Fin 6, (b.white_pieces i).testBit t = false := by
    rcases hcase with ⟨-, hempty⟩ | ⟨-, hben, -⟩
    · exact fun i => occ_empty_w b hocc t (all_empty_split b hocc t hempty).1 i
    · intro i
      obtain ⟨j, hj⟩ := occ_mem_b b hocc t hben
      exact and_empty_of_right _ _ t (hinv.1.2.2 i j) hj
  have hscan : get_piece_type_at b f b.side_to_move = some 0 := by
    rw [hside]
    exact get_piece_type_at_eq b Color.White 0 f hinv.1.1 hpw
  have hip : is_promotion (mkMove f t fl) = true := by
    rw [is_promotion_mk f t fl hf ht hfl16]
    rcases hcase with ⟨h, -⟩ | ⟨h, -, -⟩ <;>
      rcases h with rfl | rfl | rfl | rfl <;> decide
  have hn1w : (add_piece (remove_piece b 0 Color.White f) 0 Color.White
      t).white_pieces =
      Function.update b.white_pieces 0
        (set_bit (clear_bit (b.white_pieces 0) f) t) := by
    rw [add_w_wp, rem_w_wp, Function.update_idem, Function.update_same]
  have hn1b : (add_piece (remove_piece b 0 Color.White f) 0 Color.White
      t).black_pieces = b.black_pieces := by
    rw [add_w_bp, rem_w_bp]
  have hcs : mm_castle_step
      (add_piece (remove_piece b 0 Color.White f) 0 Color.White t)
      0 Color.White f t =
      add_piece (remove_piece b 0 Color.White f) 0 Color.White t := by
    unfold mm_castle_step
    rw [if_neg]
    intro h
    exact absurd h.1 (by decide)
  rcases hcase with ⟨hfl4, hempty⟩ | ⟨hfl4, hben, hbk⟩
  · -- quiet promotion
    have hic : is_capture (mkMove f t fl) = false := by
      rw [is_capture_mk f t fl hf ht hfl16]
      rcases hfl4 with rfl | rfl | rfl | rfl <;> decide
    have hcap : mm_capture_step b
        (add_piece (remove_piece b 0 Color.White f) 0 Color.White t)
        (mkMove f t fl) =
        some (add_piece (remove_piece b 0 Color.White f) 0 Color.White t) := by
      unfold mm_capture_step
      dsimp only
      rw [hic]
      rfl
    have hpromo : mm_promo_step
        (add_piece (remove_piece b 0 Color.White f) 0 Color.White t)
        Color.White (mkMove f t fl) =
        some (add_piece
          (remove_piece
            (add_piece (remove_piece b 0 Color.White f) 0 Color.White t)
            Pawn Color.White t)
          pr Color.White t) := by
      unfold mm_promo_step
      rw [hip, mflag_mk f t fl hf ht hfl16, mto_mk f t fl hf ht hfl16, hpr]
      simp only [Option.bind_eq_bind, Option.some_bind]
      rfl
    have heval := make_move_eval b (mkMove f t fl) 0 _ _
      (by rw [mfrom_mk f t fl hf ht hfl16]; exact hscan)
      (by rw [mfrom_mk f t fl hf ht hfl16, mto_mk f t fl hf ht hfl16, hside, hcs]
          exact hcap)
      (by rw [hside]; exact hpromo)
    refine ⟨_, heval, ?_⟩
    apply invariants_mk
    · exact occ_ok_update _
    · have hn4w : (add_piece
          (remove_piece
            (add_piece (remove_piece b 0 Color.White f) 0 Color.White t)
            Pawn Color.White t)
          pr Color.White t).white_pieces =
          Function.update (Function.update b.white_pieces 0
            (clear_bit (set_bit (clear_bit (b.white_pieces 0) f) t) t)) pr
            (set_bit (b.white_pieces pr) t) := by
        rw [add_w_wp, rem_w_wp, hn1w,
          show (Pawn : PieceType) = (0 : Fin 6) from rfl,
          Function.update_idem, Function.update_same,
          Function.update_noteq hpr0]
      have hn4b : (add_piece
          (remove_piece
            (add_piece (remove_piece b 0 Color.White f) 0 Color.White t)
            Pawn Color.White t)
          pr Color.White t).black_pieces = b.black_pieces := by
        rw [add_w_bp, rem_w_bp, hn1b]
      rw [update_occ_white_pieces, mm_state_step_wp, mm_rights_step_wp,
        update_occ_black_pieces, mm_state_step_bp, mm_rights_step_bp,
        hn4w, hn4b]
      exact promo_w_core b.white_pieces b.black_pieces pr f t hbd.1 hf ht
        hpr0 hpr5 (invariants_arr_of b hinv) (fun i _ => hWt i)
        (fun j => occ_empty_b b hocc t (all_empty_split b hocc t hempty).2 j)
  · -- capturing promotion
    obtain ⟨ct, hctscan, hctbit⟩ :=
      get_piece_type_at_exists b Color.Black t (occ_mem_b b hocc t hben)
    have hct5 : ct ≠ 5 := by
      intro h
      rw [h] at hctbit
      have h2 : (b.black_pieces 5).testBit t = true := hctbit
      rw [h2] at hbk
      cases hbk
    have hic : is_capture (mkMove f t fl) = true := by
      rw [is_capture_mk f t fl hf ht hfl16]
      rcases hfl4 with rfl | rfl | rfl | rfl <;> decide
    have hfl5 : mflag (mkMove f t fl) ≠ Move.EP_CAPTURE := by
      rw [mflag_mk f t fl hf ht hfl16]
      rcases hfl4 with rfl | rfl | rfl | rfl <;> decide
    have hcap : mm_capture_step b
        (add_piece (remove_piece b 0 Color.White f) 0 Color.White t)
        (mkMove f t fl) =
        some (if ct = Rook then
          mm_rook_captured
            (remove_piece
              (add_piece (remove_piece b 0 Color.White f) 0 Color.White t)
              ct Color.Black t) Color.Black t
        else
          remove_piece
            (add_piece (remove_piece b 0 Color.White f) 0 Color.White t)
            ct Color.Black t) := by
      unfold mm_capture_step
      dsimp only
      rw [hic, if_neg hfl5, mto_mk f t fl hf ht hfl16, hside]
      rw [show (Color.White).opposite = Color.Black from rfl]
      rw [hctscan]
      simp only [Option.bind_eq_bind, Option.some_bind]
      rfl
    have hpromo : mm_promo_step
        (if ct = Rook then
          mm_rook_captured
            (remove_piece
              (add_piece (remove_piece b 0 Color.White f) 0 Color.White t)
              ct Color.Black t) Color.Black t
        else
          remove_piece
            (add_piece (remove_piece b 0 Color.White f) 0 Color.White t)
            ct Color.Black t)
        Color.White (mkMove f t fl) =
        some (add_piece
          (remove_piece
            (if ct = Rook then
              mm_rook_captured
                (remove_piece
                  (add_piece (remove_piece b 0 Color.White f) 0 Color.White t)
                  ct Color.Black t) Color.Black t
            else
              remove_piece
                (add_piece (remove_piece b 0 Color.White f) 0 Color.White t)
                ct Color.Black t)
            Pawn Color.White t)
          pr Color.White t) := by
      unfold mm_promo_step
      rw [hip, mflag_mk f t fl hf ht hfl16, mto_mk f t fl hf ht hfl16, hpr]
      simp only [Option.bind_eq_bind, Option.some_bind]
      rfl
    have heval := make_move_eval b (mkMove f t fl) 0 _ _
      (by rw [mfrom_mk f t fl hf ht hfl16]; exact hscan)
      (by rw [mfrom_mk f t fl hf ht hfl16, mto_mk f t fl hf ht hfl16, hside, hcs]
          exact hcap)
      (by rw [hside]; exact hpromo)
    refine ⟨_, heval, ?_⟩
    apply invariants_mk
    · exact occ_ok_update _
    · have hn3w : (if ct = Rook then
          mm_rook_captured
            (remove_piece
              (add_piece (remove_piece b 0 Color.White f) 0 Color.White t)
              ct Color.Black t) Color.Black t
        else
          remove_piece
            (add_piece (remove_piece b 0 Color.White f) 0 Color.White t)
            ct Color.Black t).white_pieces =
          Function.update b.white_pieces 0
            (set_bit (clear_bit (b.white_pieces 0) f) t) := by
        by_cases hr : ct = Rook
        · rw [if_pos hr, mm_rook_captured_wp, rem_b_wp, hn1w]
        · rw [if_neg hr, rem_b_wp, hn1w]
      have hn3b : (if ct = Rook then
          mm_rook_captured
            (remove_piece
              (add_piece (remove_piece b 0 Color.White f) 0 Color.White t)
              ct Color.Black t) Color.Black t
        else
          remove_piece
            (add_piece (remove_piece b 0 Color.White f) 0 Color.White t)
            ct Color.Black t).black_pieces =
          Function.update b.black_pieces ct
            (clear_bit (b.black_pieces ct) t) := by
        by_cases hr : ct = Rook
        · rw [if_pos hr, mm_rook_captured_bp, rem_b_bp, hn1b]
        · rw [if_neg hr, rem_b_bp, hn1b]
      have hn4w : (add_piece
          (remove_piece
            (if ct = Rook then
              mm_rook_captured
                (remove_piece
                  (add_piece (remove_piece b 0 Color.White f) 0 Color.White t)
                  ct Color.Black t) Color.Black t
            else
              remove_piece
                (add_piece (remove_piece b 0 Color.White f) 0 Color.White t)
                ct Color.Black t)
            Pawn Color.White t)
          pr Color.White t).white_pieces =
          Function.update (Function.update b.white_pieces 0
            (clear_bit (set_bit (clear_bit (b.white_pieces 0) f) t) t)) pr
            (set_bit (b.white_pieces pr) t) := by
        rw [add_w_wp, rem_w_wp, hn3w,
          show (Pawn : PieceType) = (0 : Fin 6) from rfl,
          Function.update_idem, Function.update_same,
          Function.update_noteq hpr0]
      have hn4b : (add_piece
          (remove_piece
            (if ct = Rook then
              mm_rook_captured
                (remove_piece
                  (add_piece (remove_piece b 0 Color.White f) 0 Color.White t)
                  ct Color.Black t) Color.Black t
            else
              remove_piece
                (add_piece (remove_piece b 0 Color.White f) 0 Color.White t)
                ct Color.Black t)
            Pawn Color.White t)
          pr Color.White t).black_pieces =
          Function.update b.black_pieces ct
            (clear_bit (b.black_pieces ct) t) := by
        rw [add_w_bp, rem_w_bp, hn3b]
      rw [update_occ_white_pieces, mm_state_step_wp, mm_rights_step_wp,
        update_occ_black_pieces, mm_state_step_bp, mm_rights_step_bp,
        hn4w, hn4b]
      refine promo_w_core b.white_pieces _ pr f t hbd.1 hf ht hpr0 hpr5 ?_
        (fun i _ => hWt i) ?_
      · exact invariantsArr_swap _ _
          (clear_core b.black_pieces b.white_pieces ct t hbd.2 ht hct5
            (invariantsArr_swap _ _ (invariants_arr_of b hinv)))
      · exact updClear_t b.black_pieces ct t hbd.2 ht hinv.1.2.1 hctbit

end Ananke

namespace Ananke

/-- Mirror of `promo_white` for Black to move. -/
theorem promo_black (b : Board) (hside : b.side_to_move = Color.Black)
    (hinv : invariants b) (hbd : piecesBounded b)
    (f t fl : ℕ) (hf : f < 64) (ht : t < 64)
    (pr : Fin 6) (hpr : promoPiece fl = some pr)
    (hpr0 : pr ≠ 0) (hpr5 : pr ≠ 5)
    (hpb : (b.black_pieces 0).testBit f = true)
    (hcase : ((fl = 8 ∨ fl = 9 ∨ fl = 10 ∨ fl = 11) ∧
              b.all_occupancy.testBit t = false) ∨
             ((fl = 12 ∨ fl = 13 ∨ fl = 14 ∨ fl = 15) ∧
              b.white_occupancy.testBit t = true ∧
              (b.white_pieces 5).testBit t = false)) :
    ∃ b', make_move b (mkMove f t fl) = some b' ∧ invariants b' := by
  have hocc := hinv.2.1
  have hfl16 : fl < 16 := by
    rcases hcase with ⟨h, -⟩ | ⟨h, -, -⟩ <;>
      rcases h with rfl | rfl | rfl | rfl <;> norm_num
  have hBt : ∀ i : Fin 6, (b.black_pieces i).testBit t = false := by
    rcases hcase with ⟨-, hempty⟩ | ⟨-, hwen, -⟩
    · exact fun i => occ_empty_b b hocc t (all_empty_split b hocc t hempty).2 i
    · intro i
      obtain ⟨j, hj⟩ := occ_mem_w b hocc t hwen
      exact and_empty_of_right _ _ t
        (Nat.and_comm (b.white_pieces j) (b.black_pieces i) ▸ hinv.1.2.2 j i) hj
  have hscan : get_piece_type_at b f b.side_to_move = some 0 := by
    rw [hside]
    exact get_piece_type_at_eq b Color.Black 0 f hinv.1.2.1 hpb
  have hip : is_promotion (mkMove f t fl) = true := by
    rw [is_promotion_mk f t fl hf ht hfl16]
    rcases hcase with ⟨h, -⟩ | ⟨h, -, -⟩ <;>
      rcases h with rfl | rfl | rfl | rfl <;> decide
  have hn1b : (add_piece (remove_piece b 0 Color.Black f) 0 Color.Black
      t).black_pieces =
      Function.update b.black_pieces 0
        (set_bit (clear_bit (b.black_pieces 0) f) t) := by
    rw [add_b_bp, rem_b_bp, Function.update_idem, Function.update_same]
  have hn1w : (add_piece (remove_piece b 0 Color.Black f) 0 Color.Black
      t).white_pieces = b.white_pieces := by
    rw [add_b_wp, rem_b_wp]
  have hcs : mm_castle_step
      (add_piece (remove_piece b 0 Color.Black f) 0 Color.Black t)
      0 Color.Black f t =
      add_piece (remove_piece b 0 Color.Black f) 0 Color.Black t := by
    unfold mm_castle_step
    rw [if_neg]
    intro h
    exact absurd h.1 (by decide)
  rcases hcase with ⟨hfl4, hempty⟩ | ⟨hfl4, hwen, hwk⟩
  · -- quiet promotion
    have hic : is_capture (mkMove f t fl) = false := by
      rw [is_capture_mk f t fl hf ht hfl16]
      rcases hfl4 with rfl | rfl | rfl | rfl <;> decide
    have hcap : mm_capture_step b
        (add_piece (remove_piece b 0 Color.Black f) 0 Color.Black t)
        (mkMove f t fl) =
        some (add_piece (remove_piece b 0 Color.Black f) 0 Color.Black t) := by
      unfold mm_capture_step
      dsimp only
      rw [hic]
      rfl
    have hpromo : mm_promo_step
        (add_piece (remove_piece b 0 Color.Black f) 0 Color.Black t)
        Color.Black (mkMove f t fl) =
        some (add_piece
          (remove_piece
            (add_piece (remove_piece b 0 Color.Black f) 0 Color.Black t)
            Pawn Color.Black t)
          pr Color.Black t) := by
      unfold mm_promo_step
      rw [hip, mflag_mk f t fl hf ht hfl16, mto_mk f t fl hf ht hfl16, hpr]
      simp only [Option.bind_eq_bind, Option.some_bind]
      rfl
    have heval := make_move_eval b (mkMove f t fl) 0 _ _
      (by rw [mfrom_mk f t fl hf ht hfl16]; exact hscan)
      (by rw [mfrom_mk f t fl hf ht hfl16, mto_mk f t fl hf ht hfl16, hside, hcs]
          exact hcap)
      (by rw [hside]; exact hpromo)
    refine ⟨_, heval, ?_⟩
    apply invariants_mk
    · exact occ_ok_update _
    · have hn4b : (add_piece
          (remove_piece
            (add_piece (remove_piece b 0 Color.Black f) 0 Color.Black t)
            Pawn Color.Black t)
          pr Color.Black t).black_pieces =
          Function.update (Function.update b.black_pieces 0
            (clear_bit (set_bit (clear_bit (b.black_pieces 0) f) t) t)) pr
            (set_bit (b.black_pieces pr) t) := by
        rw [add_b_bp, rem_b_bp, hn1b,
          show (Pawn : PieceType) = (0 : Fin 6) from rfl,
          Function.update_idem, Function.update_same,
          Function.update_noteq hpr0]
      have hn4w : (add_piece
          (remove_piece
            (add_piece (remove_piece b 0 Color.Black f) 0 Color.Black t)
            Pawn Color.Black t)
          pr Color.Black t).white_pieces = b.white_pieces := by
        rw [add_b_wp, rem_b_wp, hn1w]
      rw [update_occ_white_pieces, mm_state_step_wp, mm_rights_step_wp,
        update_occ_black_pieces, mm_state_step_bp, mm_rights_step_bp,
        hn4w, hn4b]
      exact invariantsArr_swap _ _
        (promo_w_core b.black_pieces b.white_pieces pr f t hbd.2 hf ht
          hpr0 hpr5 (invariantsArr_swap _ _ (invariants_arr_of b hinv))
          (fun i _ => hBt i)
          (fun j => occ_empty_w b hocc t (all_empty_split b hocc t hempty).1 j))
  · -- capturing promotion
    obtain ⟨ct, hctscan, hctbit⟩ :=
      get_piece_type_at_exists b Color.White t (occ_mem_w b hocc t hwen)
    have hct5 : ct ≠ 5 := by
      intro h
      rw [h] at hctbit
      have h2 : (b.white_pieces 5).testBit t = true := hctbit
      rw [h2] at hwk
      cases hwk
    have hic : is_capture (mkMove f t fl) = true := by
      rw [is_capture_mk f t fl hf ht hfl16]
      rcases hfl4 with rfl | rfl | rfl | rfl <;> decide
    have hfl5 : mflag (mkMove f t fl) ≠ Move.EP_CAPTURE := by
      rw [mflag_mk f t fl hf ht hfl16]
      rcases hfl4 with rfl | rfl | rfl | rfl <;> decide
    have hcap : mm_capture_step b
        (add_piece (remove_piece b 0 Color.Black f) 0 Color.Black t)
        (mkMove f t fl) =
        some (if ct = Rook then
          mm_rook_captured
            (remove_piece
              (add_piece (remove_piece b 0 Color.Black f) 0 Color.Black t)
              ct Color.White t) Color.White t
        else
          remove_piece
            (add_piece (remove_piece b 0 Color.Black f) 0 Color.Black t)
            ct Color.White t) := by
      unfold mm_capture_step
      dsimp only
      rw [hic, if_neg hfl5, mto_mk f t fl hf ht hfl16, hside]
      rw [show (Color.Black).opposite = Color.White from rfl]
      rw [hctscan]
      simp only [Option.bind_eq_bind, Option.some_bind]
      rfl
    have hpromo : mm_promo_step
        (if ct = Rook then
          mm_rook_captured
            (remove_piece
              (add_piece (remove_piece b 0 Color.Black f) 0 Color.Black t)
              ct Color.White t) Color.White t
        else
          remove_piece
            (add_piece (remove_piece b 0 Color.Black f) 0 Color.Black t)
            ct Color.White t)
        Color.Black (mkMove f t fl) =
        some (add_piece
          (remove_piece
            (if ct = Rook then
              mm_rook_captured
                (remove_piece
                  (add_piece (remove_piece b 0 Color.Black f) 0 Color.Black t)
                  ct Color.White t) Color.White t
            else
              remove_piece
                (add_piece (remove_piece b 0 Color.Black f) 0 Color.Black t)
                ct Color.White t)
            Pawn Color.Black t)
          pr Color.Black t) := by
      unfold mm_promo_step
      rw [hip, mflag_mk f t fl hf ht hfl16, mto_mk f t fl hf ht hfl16, hpr]
      simp only [Option.bind_eq_bind, Option.some_bind]
      rfl
    have heval := make_move_eval b (mkMove f t fl) 0 _ _
      (by rw [mfrom_mk f t fl hf ht hfl16]; exact hscan)
      (by rw [mfrom_mk f t fl hf ht hfl16, mto_mk f t fl hf ht hfl16, hside, hcs]
          exact hcap)
      (by rw [hside]; exact hpromo)
    refine ⟨_, heval, ?_⟩
    apply invariants_mk
    · exact occ_ok_update _
    · have hn3b : (if ct = Rook then
          mm_rook_captured
            (remove_piece
              (add_piece (remove_piece b 0 Color.Black f) 0 Color.Black t)
              ct Color.White t) Color.White t
        else
          remove_piece
            (add_piece (remove_piece b 0 Color.Black f) 0 Color.Black t)
            ct Color.White t).black_pieces =
          Function.update b.black_pieces 0
            (set_bit (clear_bit (b.black_pieces 0) f) t) := by
        by_cases hr : ct = Rook
        · rw [if_pos hr, mm_rook_captured_bp, rem_w_bp, hn1b]
        · rw [if_neg hr, rem_w_bp, hn1b]
      have hn3w : (if ct = Rook then
          mm_rook_captured
            (remove_piece
              (add_piece (remove_piece b 0 Color.Black f) 0 Color.Black t)
              ct Color.White t) Color.White t
        else
          remove_piece
            (add_piece (remove_piece b 0 Color.Black f) 0 Color.Black t)
            ct Color.White t).white_pieces =
          Function.update b.white_pieces ct
            (clear_bit (b.white_pieces ct) t) := by
        by_cases hr : ct = Rook
        · rw [if_pos hr, mm_rook_captured_wp, rem_w_wp, hn1w]
        · rw [if_neg hr, rem_w_wp, hn1w]
      have hn4b : (add_piece
          (remove_piece
            (if ct = Rook then
              mm_rook_captured
                (remove_piece
                  (add_piece (remove_piece b 0 Color.Black f) 0 Color.Black t)
                  ct Color.White t) Color.White t
            else
              remove_piece
                (add_piece (remove_piece b 0 Color.Black f) 0 Color.Black t)
                ct Color.White t)
            Pawn Color.Black t)
          pr Color.Black t).black_pieces =
          Function.update (Function.update b.black_pieces 0
            (clear_bit (set_bit (clear_bit (b.black_pieces 0) f) t) t)) pr
            (set_bit (b.black_pieces pr) t) := by
        rw [add_b_bp, rem_b_bp, hn3b,
          show (Pawn : PieceType) = (0 : Fin 6) from rfl,
          Function.update_idem, Function.update_same,
          Function.update_noteq hpr0]
      have hn4w : (add_piece
          (remove_piece
            (if ct = Rook then
              mm_rook_captured
                (remove_piece
                  (add_piece (remove_piece b 0 Color.Black f) 0 Color.Black t)
                  ct Color.White t) Color.White t
            else
              remove_piece
                (add_piece (remove_piece b 0 Color.Black f) 0 Color.Black t)
                ct Color.White t)
            Pawn Color.Black t)
          pr Color.Black t).white_pieces =
          Function.update b.white_pieces ct
            (clear_bit (b.white_pieces ct) t) := by
        rw [add_b_wp, rem_b_wp, hn3w]
      rw [update_occ_white_pieces, mm_state_step_wp, mm_rights_step_wp,
        update_occ_black_pieces, mm_state_step_bp, mm_rights_step_bp,
        hn4w, hn4b]
      refine invariantsArr_swap _ _
        (promo_w_core b.black_pieces _ pr f t hbd.2 hf ht hpr0 hpr5 ?_
          (fun i _ => hBt i) ?_)
      · exact invariantsArr_swap _ _
          (clear_core b.white_pieces b.black_pieces ct t hbd.1 ht hct5
            (invariants_arr_of b hinv))
      · exact updClear_t b.white_pieces ct t hbd.1 ht hinv.1.1 hctbit

end Ananke

namespace Ananke

/-- White kingside castling (king e1→g1, rook h1→f1) preserves the
invariants when f1 and g1 are empty and the king is on e1. -/
theorem castle_white_k (b : Board) (hside : b.side_to_move = Color.White)
    (hinv : invariants b) (hbd : piecesBounded b)
    (hk : (b.white_pieces 5).testBit 4 = true)
    (he5 : b.all_occupancy.testBit 5 = false)
    (he6 : b.all_occupancy.testBit 6 = false) :
    ∃ b', make_move b (mkMove 4 6 Move.K_CASTLE) = some b' ∧ invariants b' := by
  have hocc := hinv.2.1
  have hW5 : ∀ i : Fin 6, (b.white_pieces i).testBit 5 = false :=
    fun i => occ_empty_w b hocc 5 (all_empty_split b hocc 5 he5).1 i
  have hW6 : ∀ i : Fin 6, (b.white_pieces i).testBit 6 = false :=
    fun i => occ_empty_w b hocc 6 (all_empty_split b hocc 6 he6).1 i
  have hB5 : ∀ j : Fin 6, (b.black_pieces j).testBit 5 = false :=
    fun j => occ_empty_b b hocc 5 (all_empty_split b hocc 5 he5).2 j
  have hB6 : ∀ j : Fin 6, (b.black_pieces j).testBit 6 = false :=
    fun j => occ_empty_b b hocc 6 (all_empty_split b hocc 6 he6).2 j
  have hscan : get_piece_type_at b 4 Color.White = some 5 :=
    get_piece_type_at_eq b Color.White 5 4 hinv.1.1 hk
  have heval := make_move_eval b (mkMove 4 6 Move.K_CASTLE) 5
    (mm_castle_step
      (add_piece (remove_piece b 5 Color.White 4) 5 Color.White 6)
      5 Color.White 4 6)
    (mm_castle_step
      (add_piece (remove_piece b 5 Color.White 4) 5 Color.White 6)
      5 Color.White 4 6)
    (by rw [hside]; exact hscan)
    (by rw [hside]; rfl)
    (by rw [hside]; rfl)
  refine ⟨_, heval, ?_⟩
  apply invariants_mk
  · exact occ_ok_update _
  · have hn2w : (mm_castle_step
        (add_piece (remove_piece b 5 Color.White 4) 5 Color.White 6)
        5 Color.White 4 6).white_pieces =
        Function.update
          (Function.update b.white_pieces 5
            (set_bit (clear_bit (b.white_pieces 5) 4) 6)) 3
          (set_bit (clear_bit (b.white_pieces 3) 7) 5) := by
      have h1 : (mm_castle_step
          (add_piece (remove_piece b 5 Color.White 4) 5 Color.White 6)
          5 Color.White 4 6).white_pieces =
          (add_piece (remove_piece
            (add_piece (remove_piece b 5 Color.White 4) 5 Color.White 6)
            Rook Color.White 7) Rook Color.White 5).white_pieces := rfl
      rw [h1, add_w_wp, rem_w_wp, add_w_wp, rem_w_wp,
        show (Rook : PieceType) = (3 : Fin 6) from rfl,
        Function.update_idem, Function.update_same,
        Function.update_idem, Function.update_same,
        Function.update_noteq (by decide : (3 : Fin 6) ≠ 5)]
    have hn2b : (mm_castle_step
        (add_piece (remove_piece b 5 Color.White 4) 5 Color.White 6)
        5 Color.White 4 6).black_pieces = b.black_pieces := by
      have h1 : (mm_castle_step
          (add_piece (remove_piece b 5 Color.White 4) 5 Color.White 6)
          5 Color.White 4 6).black_pieces =
          (add_piece (remove_piece
            (add_piece (remove_piece b 5 Color.White 4) 5 Color.White 6)
            Rook Color.White 7) Rook Color.White 5).black_pieces := rfl
      rw [h1, add_w_bp, rem_w_bp, add_w_bp, rem_w_bp]
    rw [update_occ_white_pieces, mm_state_step_wp, mm_rights_step_wp,
      update_occ_black_pieces, mm_state_step_bp, mm_rights_step_bp,
      hn2w, hn2b]
    have h1 := move_core b.white_pieces b.black_pieces 5 4 6 hbd.1 hbd.2
      (by norm_num) (by norm_num) (invariants_arr_of b hinv)
      (fun _ => hk) hW6 (fun h => absurd h (by decide))
      b.black_pieces (Or.inl ⟨fun j s h => h, rfl, hB6⟩)
    have hW1bd : ∀ i, (Function.update b.white_pieces 5
        (set_bit (clear_bit (b.white_pieces 5) 4) 6)) i < 2 ^ 64 := by
      intro i
      by_cases h : i = 5
      · subst h
        rw [Function.update_same]
        exact set_bit_lt _ _ (lt_of_le_of_lt (clear_bit_le _ _) (hbd.1 5))
          (by norm_num)
      · rw [Function.update_noteq h]
        exact hbd.1 i
    have hW1t5 : ∀ i, (Function.update b.white_pieces 5
        (set_bit (clear_bit (b.white_pieces 5) 4) 6) i).testBit 5 = false := by
      intro i
      by_cases h : i = 5
      · subst h
        rw [Function.update_same, testBit_set_bit,
          testBit_clear_bit _ _ _ (by norm_num) (hbd.1 5)]
        rw [hW5 5]
        decide
      · rw [Function.update_noteq h]
        exact hW5 i
    have h2 := move_core _ b.black_pieces 3 7 5 hW1bd hbd.2
      (by norm_num) (by norm_num) h1
      (fun h => absurd h (by decide)) hW1t5 (fun h => absurd h (by decide))
      b.black_pieces (Or.inl ⟨fun j s h => h, rfl, hB5⟩)
    rwa [Function.update_noteq (by decide : (3 : Fin 6) ≠ 5)] at h2

end Ananke

namespace Ananke

/-- White queenside castling (king e1→c1, rook a1→d1). -/
theorem castle_white_q (b : Board) (hside : b.side_to_move = Color.White)
    (hinv : invariants b) (hbd : piecesBounded b)
    (hk : (b.white_pieces 5).testBit 4 = true)
    (he3 : b.all_occupancy.testBit 3 = false)
    (he2 : b.all_occupancy.testBit 2 = false) :
    ∃ b', make_move b (mkMove 4 2 Move.Q_CASTLE) = some b' ∧ invariants b' := by
  have hocc := hinv.2.1
  have hW3 : ∀ i : Fin 6, (b.white_pieces i).testBit 3 = false :=
    fun i => occ_empty_w b hocc 3 (all_empty_split b hocc 3 he3).1 i
  have hW2 : ∀ i : Fin 6, (b.white_pieces i).testBit 2 = false :=
    fun i => occ_empty_w b hocc 2 (all_empty_split b hocc 2 he2).1 i
  have hB3 : ∀ j : Fin 6, (b.black_pieces j).testBit 3 = false :=
    fun j => occ_empty_b b hocc 3 (all_empty_split b hocc 3 he3).2 j
  have hB2 : ∀ j : Fin 6, (b.black_pieces j).testBit 2 = false :=
    fun j => occ_empty_b b hocc 2 (all_empty_split b hocc 2 he2).2 j
  have hscan : get_piece_type_at b 4 Color.White = some 5 :=
    get_piece_type_at_eq b Color.White 5 4 hinv.1.1 hk
  have heval := make_move_eval b (mkMove 4 2 Move.Q_CASTLE) 5
    (mm_castle_step
      (add_piece (remove_piece b 5 Color.White 4) 5 Color.White 2)
      5 Color.White 4 2)
    (mm_castle_step
      (add_piece (remove_piece b 5 Color.White 4) 5 Color.White 2)
      5 Color.White 4 2)
    (by rw [hside]; exact hscan)
    (by rw [hside]; rfl)
    (by rw [hside]; rfl)
  refine ⟨_, heval, ?_⟩
  apply invariants_mk
  · exact occ_ok_update _
  · have hn2w : (mm_castle_step
        (add_piece (remove_piece b 5 Color.White 4) 5 Color.White 2)
        5 Color.White 4 2).white_pieces =
        Function.update
          (Function.update b.white_pieces 5
            (set_bit (clear_bit (b.white_pieces 5) 4) 2)) 3
          (set_bit (clear_bit (b.white_pieces 3) 0) 3) := by
      have h1 : (mm_castle_step
          (add_piece (remove_piece b 5 Color.White 4) 5 Color.White 2)
          5 Color.White 4 2).white_pieces =
          (add_piece (remove_piece
            (add_piece (remove_piece b 5 Color.White 4) 5 Color.White 2)
            Rook Color.White 0) Rook Color.White 3).white_pieces := rfl
      rw [h1, add_w_wp, rem_w_wp, add_w_wp, rem_w_wp,
        show (Rook : PieceType) = (3 : Fin 6) from rfl,
        Function.update_idem, Function.update_same,
        Function.update_idem, Function.update_same,
        Function.update_noteq (by decide : (3 : Fin 6) ≠ 5)]
    have hn2b : (mm_castle_step
        (add_piece (remove_piece b 5 Color.White 4) 5 Color.White 2)
        5 Color.White 4 2).black_pieces = b.black_pieces := by
      have h1 : (mm_castle_step
          (add_piece (remove_piece b 5 Color.White 4) 5 Color.White 2)
          5 Color.White 4 2).black_pieces =
          (add_piece (remove_piece
            (add_piece (remove_piece b 5 Color.White 4) 5 Color.White 2)
            Rook Color.White 0) Rook Color.White 3).black_pieces := rfl
      rw [h1, add_w_bp, rem_w_bp, add_w_bp, rem_w_bp]
    rw [update_occ_white_pieces, mm_state_step_wp, mm_rights_step_wp,
      update_occ_black_pieces, mm_state_step_bp, mm_rights_step_bp,
      hn2w, hn2b]
    have h1 := move_core b.white_pieces b.black_pieces 5 4 2 hbd.1 hbd.2
      (by norm_num) (by norm_num) (invariants_arr_of b hinv)
      (fun _ => hk) hW2 (fun h => absurd h (by decide))
      b.black_pieces (Or.inl ⟨fun j s h => h, rfl, hB2⟩)
    have hW1bd : ∀ i, (Function.update b.white_pieces 5
        (set_bit (clear_bit (b.white_pieces 5) 4) 2)) i < 2 ^ 64 := by
      intro i
      by_cases h : i = 5
      · subst h
        rw [Function.update_same]
        exact set_bit_lt _ _ (lt_of_le_of_lt (clear_bit_le _ _) (hbd.1 5))
          (by norm_num)
      · rw [Function.update_noteq h]
        exact hbd.1 i
    have hW1t3 : ∀ i, (Function.update b.white_pieces 5
        (set_bit (clear_bit (b.white_pieces 5) 4) 2) i).testBit 3 = false := by
      intro i
      by_cases h : i = 5
      · subst h
        rw [Function.update_same, testBit_set_bit,
          testBit_clear_bit _ _ _ (by norm_num) (hbd.1 5)]
        rw [hW3 5]
        decide
      · rw [Function.update_noteq h]
        exact hW3 i
    have h2 := move_core _ b.black_pieces 3 0 3 hW1bd hbd.2
      (by norm_num) (by norm_num) h1
      (fun h => absurd h (by decide)) hW1t3 (fun h => absurd h (by decide))
      b.black_pieces (Or.inl ⟨fun j s h => h, rfl, hB3⟩)
    rwa [Function.update_noteq (by decide : (3 : Fin 6) ≠ 5)] at h2

/-- Black kingside castling (king e8→g8, rook h8→f8). -/
theorem castle_black_k (b : Board) (hside : b.side_to_move = Color.Black)
    (hinv : invariants b) (hbd : piecesBounded b)
    (hk : (b.black_pieces 5).testBit 60 = true)
    (he61 : b.all_occupancy.testBit 61 = false)
    (he62 : b.all_occupancy.testBit 62 = false) :
    ∃ b', make_move b (mkMove 60 62 Move.K_CASTLE) = some b' ∧ invariants b' := by
  have hocc := hinv.2.1
  have hW61 : ∀ i : Fin 6, (b.white_pieces i).testBit 61 = false :=
    fun i => occ_empty_w b hocc 61 (all_empty_split b hocc 61 he61).1 i
  have hW62 : ∀ i : Fin 6, (b.white_pieces i).testBit 62 = false :=
    fun i => occ_empty_w b hocc 62 (all_empty_split b hocc 62 he62).1 i
  have hB61 : ∀ j : Fin 6, (b.black_pieces j).testBit 61 = false :=
    fun j => occ_empty_b b hocc 61 (all_empty_split b hocc 61 he61).2 j
  have hB62 : ∀ j : Fin 6, (b.black_pieces j).testBit 62 = false :=
    fun j => occ_empty_b b hocc 62 (all_empty_split b hocc 62 he62).2 j
  have hscan : get_piece_type_at b 60 Color.Black = some 5 :=
    get_piece_type_at_eq b Color.Black 5 60 hinv.1.2.1 hk
  have heval := make_move_eval b (mkMove 60 62 Move.K_CASTLE) 5
    (mm_castle_step
      (add_piece (remove_piece b 5 Color.Black 60) 5 Color.Black 62)
      5 Color.Black 60 62)
    (mm_castle_step
      (add_piece (remove_piece b 5 Color.Black 60) 5 Color.Black 62)
      5 Color.Black 60 62)
    (by rw [hside]; exact hscan)
    (by rw [hside]; rfl)
    (by rw [hside]; rfl)
  refine ⟨_, heval, ?_⟩
  apply invariants_mk
  · exact occ_ok_update _
  · have hn2b : (mm_castle_step
        (add_piece (remove_piece b 5 Color.Black 60) 5 Color.Black 62)
        5 Color.Black 60 62).black_pieces =
        Function.update
          (Function.update b.black_pieces 5
            (set_bit (clear_bit (b.black_pieces 5) 60) 62)) 3
          (set_bit (clear_bit (b.black_pieces 3) 63) 61) := by
      have h1 : (mm_castle_step
          (add_piece (remove_piece b 5 Color.Black 60) 5 Color.Black 62)
          5 Color.Black 60 62).black_pieces =
          (add_piece (remove_piece
            (add_piece (remove_piece b 5 Color.Black 60) 5 Color.Black 62)
            Rook Color.Black 63) Rook Color.Black 61).black_pieces := rfl
      rw [h1, add_b_bp, rem_b_bp, add_b_bp, rem_b_bp,
        show (Rook : PieceType) = (3 : Fin 6) from rfl,
        Function.update_idem, Function.update_same,
        Function.update_idem, Function.update_same,
        Function.update_noteq (by decide : (3 : Fin 6) ≠ 5)]
    have hn2w : (mm_castle_step
        (add_piece (remove_piece b 5 Color.Black 60) 5 Color.Black 62)
        5 Color.Black 60 62).white_pieces = b.white_pieces := by
      have h1 : (mm_castle_step
          (add_piece (remove_piece b 5 Color.Black 60) 5 Color.Black 62)
          5 Color.Black 60 62).white_pieces =
          (add_piece (remove_piece
            (add_piece (remove_piece b 5 Color.Black 60) 5 Color.Black 62)
            Rook Color.Black 63) Rook Color.Black 61).white_pieces := rfl
      rw [h1, add_b_wp, rem_b_wp, add_b_wp, rem_b_wp]
    rw [update_occ_white_pieces, mm_state_step_wp, mm_rights_step_wp,
      update_occ_black_pieces, mm_state_step_bp, mm_rights_step_bp,
      hn2w, hn2b]
    have h1 := move_core b.black_pieces b.white_pieces 5 60 62 hbd.2 hbd.1
      (by norm_num) (by norm_num)
      (invariantsArr_swap _ _ (invariants_arr_of b hinv))
      (fun _ => hk) hB62 (fun h => absurd h (by decide))
      b.white_pieces (Or.inl ⟨fun j s h => h, rfl, hW62⟩)
    have hB1bd : ∀ i, (Function.update b.black_pieces 5
        (set_bit (clear_bit (b.black_pieces 5) 60) 62)) i < 2 ^ 64 := by
      intro i
      by_cases h : i = 5
      · subst h
        rw [Function.update_same]
        exact set_bit_lt _ _ (lt_of_le_of_lt (clear_bit_le _ _) (hbd.2 5))
          (by norm_num)
      · rw [Function.update_noteq h]
        exact hbd.2 i
    have hB1t61 : ∀ i, (Function.update b.black_pieces 5
        (set_bit (clear_bit (b.black_pieces 5) 60) 62) i).testBit 61
          = false := by
      intro i
      by_cases h : i = 5
      · subst h
        rw [Function.update_same, testBit_set_bit,
          testBit_clear_bit _ _ _ (by norm_num) (hbd.2 5)]
        rw [hB61 5]
        decide
      · rw [Function.update_noteq h]
        exact hB61 i
    have h2 := move_core _ b.white_pieces 3 63 61 hB1bd hbd.1
      (by norm_num) (by norm_num) h1
      (fun h => absurd h (by decide)) hB1t61 (fun h => absurd h (by decide))
      b.white_pieces (Or.inl ⟨fun j s h => h, rfl, hW61⟩)
    rw [Function.update_noteq (by decide : (3 : Fin 6) ≠ 5)] at h2
    exact invariantsArr_swap _ _ h2

/-- Black queenside castling (king e8→c8, rook a8→d8). -/
theorem castle_black_q (b : Board) (hside : b.side_to_move = Color.Black)
    (hinv : invariants b) (hbd : piecesBounded b)
    (hk : (b.black_pieces 5).testBit 60 = true)
    (he59 : b.all_occupancy.testBit 59 = false)
    (he58 : b.all_occupancy.testBit 58 = false) :
    ∃ b', make_move b (mkMove 60 58 Move.Q_CASTLE) = some b' ∧ invariants b' := by
  have hocc := hinv.2.1
  have hW59 : ∀ i : Fin 6, (b.white_pieces i).testBit 59 = false :=
    fun i => occ_empty_w b hocc 59 (all_empty_split b hocc 59 he59).1 i
  have hW58 : ∀ i : Fin 6, (b.white_pieces i).testBit 58 = false :=
    fun i => occ_empty_w b hocc 58 (all_empty_split b hocc 58 he58).1 i
  have hB59 : ∀ j : Fin 6, (b.black_pieces j).testBit 59 = false :=
    fun j => occ_empty_b b hocc 59 (all_empty_split b hocc 59 he59).2 j
  have hB58 : ∀ j : Fin 6, (b.black_pieces j).testBit 58 = false :=
    fun j => occ_empty_b b hocc 58 (all_empty_split b hocc 58 he58).2 j
  have hscan : get_piece_type_at b 60 Color.Black = some 5 :=
    get_piece_type_at_eq b Color.Black 5 60 hinv.1.2.1 hk
  have heval := make_move_eval b (mkMove 60 58 Move.Q_CASTLE) 5
    (mm_castle_step
      (add_piece (remove_piece b 5 Color.Black 60) 5 Color.Black 58)
      5 Color.Black 60 58)
    (mm_castle_step
      (add_piece (remove_piece b 5 Color.Black 60) 5 Color.Black 58)
      5 Color.Black 60 58)
    (by rw [hside]; exact hscan)
    (by rw [hside]; rfl)
    (by rw [hside]; rfl)
  refine ⟨_, heval, ?_⟩
  apply invariants_mk
  · exact occ_ok_update _
  · have hn2b : (mm_castle_step
        (add_piece (remove_piece b 5 Color.Black 60) 5 Color.Black 58)
        5 Color.Black 60 58).black_pieces =
        Function.update
          (Function.update b.black_pieces 5
            (set_bit (clear_bit (b.black_pieces 5) 60) 58)) 3
          (set_bit (clear_bit (b.black_pieces 3) 56) 59) := by
      have h1 : (mm_castle_step
          (add_piece (remove_piece b 5 Color.Black 60) 5 Color.Black 58)
          5 Color.Black 60 58).black_pieces =
          (add_piece (remove_piece
            (add_piece (remove_piece b 5 Color.Black 60) 5 Color.Black 58)
            Rook Color.Black 56) Rook Color.Black 59).black_pieces := rfl
      rw [h1, add_b_bp, rem_b_bp, add_b_bp, rem_b_bp,
        show (Rook : PieceType) = (3 : Fin 6) from rfl,
        Function.update_idem, Function.update_same,
        Function.update_idem, Function.update_same,
        Function.update_noteq (by decide : (3 : Fin 6) ≠ 5)]
    have hn2w : (mm_castle_step
        (add_piece (remove_piece b 5 Color.Black 60) 5 Color.Black 58)
        5 Color.Black 60 58).white_pieces = b.white_pieces := by
      have h1 : (mm_castle_step
          (add_piece (remove_piece b 5 Color.Black 60) 5 Color.Black 58)
          5 Color.Black 60 58).white_pieces =
          (add_piece (remove_piece
            (add_piece (remove_piece b 5 Color.Black 60) 5 Color.Black 58)
            Rook Color.Black 56) Rook Color.Black 59).white_pieces := rfl
      rw [h1, add_b_wp, rem_b_wp, add_b_wp, rem_b_wp]
    rw [update_occ_white_pieces, mm_state_step_wp, mm_rights_step_wp,
      update_occ_black_pieces, mm_state_step_bp, mm_rights_step_bp,
      hn2w, hn2b]
    have h1 := move_core b.black_pieces b.white_pieces 5 60 58 hbd.2 hbd.1
      (by norm_num) (by norm_num)
      (invariantsArr_swap _ _ (invariants_arr_of b hinv))
      (fun _ => hk) hB58 (fun h => absurd h (by decide))
      b.white_pieces (Or.inl ⟨fun j s h => h, rfl, hW58⟩)
    have hB1bd : ∀ i, (Function.update b.black_pieces 5
        (set_bit (clear_bit (b.black_pieces 5) 60) 58)) i < 2 ^ 64 := by
      intro i
      by_cases h : i = 5
      · subst h
        rw [Function.update_same]
        exact set_bit_lt _ _ (lt_of_le_of_lt (clear_bit_le _ _) (hbd.2 5))
          (by norm_num)
      · rw [Function.update_noteq h]
        exact hbd.2 i
    have hB1t59 : ∀ i, (Function.update b.black_pieces 5
        (set_bit (clear_bit (b.black_pieces 5) 60) 58) i).testBit 59
          = false := by
      intro i
      by_cases h : i = 5
      · subst h
        rw [Function.update_same, testBit_set_bit,
          testBit_clear_bit _ _ _ (by norm_num) (hbd.2 5)]
        rw [hB59 5]
        decide
      · rw [Function.update_noteq h]
        exact hB59 i
    have h2 := move_core _ b.white_pieces 3 56 59 hB1bd hbd.1
      (by norm_num) (by norm_num) h1
      (fun h => absurd h (by decide)) hB1t59 (fun h => absurd h (by decide))
      b.white_pieces (Or.inl ⟨fun j s h => h, rfl, hW59⟩)
    rw [Function.update_noteq (by decide : (3 : Fin 6) ≠ 5)] at h2
    exact invariantsArr_swap _ _ h2

end Ananke

namespace Ananke

theorem occ_bounds (b : Board) (hocc : occupanciesOk b) (hbd : piecesBounded b) :
    b.white_occupancy < 2 ^ 64 ∧ b.black_occupancy < 2 ^ 64 ∧
      b.all_occupancy < 2 ^ 64 := by
  have hw : b.white_occupancy < 2 ^ 64 := by
    rw [hocc.1]
    exact Nat.or_lt_two_pow (Nat.or_lt_two_pow (Nat.or_lt_two_pow
      (Nat.or_lt_two_pow (Nat.or_lt_two_pow (hbd.1 0) (hbd.1 1)) (hbd.1 2))
      (hbd.1 3)) (hbd.1 4)) (hbd.1 5)
  have hb : b.black_occupancy < 2 ^ 64 := by
    rw [hocc.2.1]
    exact Nat.or_lt_two_pow (Nat.or_lt_two_pow (Nat.or_lt_two_pow
      (Nat.or_lt_two_pow (Nat.or_lt_two_pow (hbd.2 0) (hbd.2 1)) (hbd.2 2))
      (hbd.2 3)) (hbd.2 4)) (hbd.2 5)
  refine ⟨hw, hb, ?_⟩
  rw [hocc.2.2]
  exact Nat.or_lt_two_pow hw hb

theorem all_empty_of (b : Board) (hocc : occupanciesOk b) (t : ℕ)
    (hw : b.white_occupancy.testBit t = false)
    (hb : b.black_occupancy.testBit t = false) :
    b.all_occupancy.testBit t = false := by
  rw [all_occ_testBit b hocc, hw, hb]
  rfl

theorem pawn_interior_w (b : Board) (hP : pawnsOffBackRanks b) (f : ℕ)
    (hf : f < 64) (h : (b.white_pieces 0).testBit f = true) :
    8 ≤ f ∧ f < 56 := by
  have h2 := (and_eq_zero_iff _ _).mp hP f (lor_testBit_left _ _ _ h)
  rw [testBit_rank_mask] at h2
  simp only [Bool.or_eq_false_iff, Bool.and_eq_false_iff, decide_eq_false_iff_not,
    Nat.not_lt, Nat.not_le] at h2
  rcases h2 with ⟨h3, h4 | h4⟩ <;> omega

theorem pawn_interior_b (b : Board) (hP : pawnsOffBackRanks b) (f : ℕ)
    (hf : f < 64) (h : (b.black_pieces 0).testBit f = true) :
    8 ≤ f ∧ f < 56 := by
  have h2 := (and_eq_zero_iff _ _).mp hP f (lor_testBit_right _ _ _ h)
  rw [testBit_rank_mask] at h2
  simp only [Bool.or_eq_false_iff, Bool.and_eq_false_iff, decide_eq_false_iff_not,
    Nat.not_lt, Nat.not_le] at h2
  rcases h2 with ⟨h3, h4 | h4⟩ <;> omega

theorem lsb_index_testBit (k f0 : ℕ) (h : lsb_index k = some f0) :
    k.testBit f0 = true := by
  unfold lsb_index at h
  split at h
  · exact absurd h (by simp)
  · next hne =>
    simp only [Option.some.injEq] at h
    subst h
    exact tz_testBit _ hne

/-- `generate_castling_moves` for White, with the color selections
reduced. -/
theorem castling_moves_white (b : Board) (king_sq : ℕ) :
    castling_moves b king_sq true =
    if king_sq ≠ 4 then []
    else
      (if can_castle_kingside b.castling_rights Color.White = true ∧
          ¬get_bit b.all_occupancy 5 = true ∧ ¬get_bit b.all_occupancy 6 = true ∧
          ¬is_square_attacked b 4 Color.Black = true ∧
          ¬is_square_attacked b 5 Color.Black = true ∧
          ¬is_square_attacked b 6 Color.Black = true then
        [mkMove 4 6 Move.K_CASTLE]
      else []) ++
      (if can_castle_queenside b.castling_rights Color.White = true ∧
          ¬get_bit b.all_occupancy 3 = true ∧ ¬get_bit b.all_occupancy 2 = true ∧
          ¬get_bit b.all_occupancy 1 = true ∧
          ¬is_square_attacked b 4 Color.Black = true ∧
          ¬is_square_attacked b 3 Color.Black = true ∧
          ¬is_square_attacked b 2 Color.Black = true then
        [mkMove 4 2 Move.Q_CASTLE]
      else []) := rfl

end Ananke

namespace Ananke

/-- C4 (amended): from a position satisfying the four invariants (with
in-range bitboards), applying any pseudo-legally generated move whose
destination does not hold the opposing king, provided the recorded
en-passant target (if any) is an empty interior square, yields a position
that again satisfies all four invariants. -/
theorem make_move_invariants (b : Board)
    (hinv : invariants b) (hbd : piecesBounded b) (hep : epOk b = true)
    (m : ℕ) (hm : m ∈ generate_all b)
    (hkt : (piecesOf b b.side_to_move.opposite 5).testBit (mto m) = false) :
    ∃ b', make_move b m = some b' ∧ invariants b' := by
  have hocc := hinv.2.1
  obtain ⟨hwob, hbob, haob⟩ := occ_bounds b hocc hbd
  unfold generate_all at hm
  rcases List.mem_append.mp hm with hm2 | hmS
  · rcases List.mem_append.mp hm2 with hm3 | hmK
    · rcases List.mem_append.mp hm3 with hmP | hmN
      · -- pawn moves
        cases hsd : b.side_to_move with
        | White =>
          obtain ⟨f, t, hf, ht, hc⟩ := mem_pawn_moves_w b hsd (hbd.1 0) haob m hmP
          rcases hc with ⟨h1, hpb, hemp, hrel, hrk⟩ |
            ⟨fl, hflv, h1, hpb, hemp, hrel, hrk⟩ |
            ⟨h1, hpb, hemp, hrel, hlo, hhi⟩ |
            ⟨h1, hpb, hen, hrel, hrk⟩ |
            ⟨fl, hflv, h1, hpb, hen, hrel, hrk⟩ |
            ⟨h1, hpb, hepq, hrel⟩
          · rw [h1]
            exact simple_white b hsd hinv hbd 0 f t Move.QUIET hf ht hpb
              (fun h => absurd h.1 (by decide)) (fun _ => ⟨by omega, hrk⟩)
              (Or.inl ⟨Or.inl rfl, hemp⟩)
          · rw [h1]
            rcases hflv with rfl | rfl | rfl | rfl
            · exact promo_white b hsd hinv hbd f t 8 hf ht Knight (by decide)
                (by decide) (by decide) hpb (Or.inl ⟨by norm_num, hemp⟩)
            · exact promo_white b hsd hinv hbd f t 9 hf ht Bishop (by decide)
                (by decide) (by decide) hpb (Or.inl ⟨by norm_num, hemp⟩)
            · exact promo_white b hsd hinv hbd f t 10 hf ht Rook (by decide)
                (by decide) (by decide) hpb (Or.inl ⟨by norm_num, hemp⟩)
            · exact promo_white b hsd hinv hbd f t 11 hf ht Queen (by decide)
                (by decide) (by decide) hpb (Or.inl ⟨by norm_num, hemp⟩)
          · rw [h1]
            exact simple_white b hsd hinv hbd 0 f t Move.DOUBLE_PAWN_PUSH hf ht
              hpb (fun h => absurd h.1 (by decide))
              (fun _ => ⟨by omega, by omega⟩) (Or.inl ⟨Or.inr rfl, hemp⟩)
          · have hfint := pawn_interior_w b hinv.2.2.2 f hf hpb
            have hbk5 : (b.black_pieces 5).testBit t = false := by
              rw [h1, mto_mk f t Move.CAPTURE hf ht (by decide), hsd] at hkt
              exact hkt
            rw [h1]
            exact simple_white b hsd hinv hbd 0 f t Move.CAPTURE hf ht hpb
              (fun h => absurd h.1 (by decide)) (fun _ => ⟨by omega, hrk⟩)
              (Or.inr ⟨rfl, hen, hbk5⟩)
          · have hfl16 : fl < 16 := by
              rcases hflv with rfl | rfl | rfl | rfl <;> norm_num
            have hbk5 : (b.black_pieces 5).testBit t = false := by
              rw [h1, mto_mk f t fl hf ht hfl16, hsd] at hkt
              exact hkt
            rw [h1]
            rcases hflv with rfl | rfl | rfl | rfl
            · exact promo_white b hsd hinv hbd f t 12 hf ht Knight (by decide)
                (by decide) (by decide) hpb (Or.inr ⟨by norm_num, hen, hbk5⟩)
            · exact promo_white b hsd hinv hbd f t 13 hf ht Bishop (by decide)
                (by decide) (by decide) hpb (Or.inr ⟨by norm_num, hen, hbk5⟩)
            · exact promo_white b hsd hinv hbd f t 14 hf ht Rook (by decide)
                (by decide) (by decide) hpb (Or.inr ⟨by norm_num, hen, hbk5⟩)
            · exact promo_white b hsd hinv hbd f t 15 hf ht Queen (by decide)
                (by decide) (by decide) hpb (Or.inr ⟨by norm_num, hen, hbk5⟩)
          · have hepf := hep
            unfold epOk at hepf
            rw [hepq] at hepf
            dsimp only at hepf
            simp only [Bool.and_eq_true, Bool.not_eq_true', decide_eq_true_eq]
              at hepf
            obtain ⟨⟨hemp', hlo⟩, hhi⟩ := hepf
            rw [get_bit_eq] at hemp'
            rw [h1]
            exact ep_white b hsd hinv hbd f t hf hlo hhi hpb hemp'
        | Black =>
          obtain ⟨f, t, hf, ht, hc⟩ := mem_pawn_moves_b b hsd (hbd.2 0) haob m hmP
          rcases hc with ⟨h1, hpb, hemp, hrel, hrk⟩ |
            ⟨fl, hflv, h1, hpb, hemp, hrel, hrk⟩ |
            ⟨h1, hpb, hemp, hrel, hlo, hhi⟩ |
            ⟨h1, hpb, hen, hrel, hrk⟩ |
            ⟨fl, hflv, h1, hpb, hen, hrel, hrk⟩ |
            ⟨h1, hpb, hepq, hrel⟩
          · rw [h1]
            exact simple_black b hsd hinv hbd 0 f t Move.QUIET hf ht hpb
              (fun h => absurd h.1 (by decide)) (fun _ => ⟨hrk, by omega⟩)
              (Or.inl ⟨Or.inl rfl, hemp⟩)
          · rw [h1]
            rcases hflv with rfl | rfl | rfl | rfl
            · exact promo_black b hsd hinv hbd f t 8 hf ht Knight (by decide)
                (by decide) (by decide) hpb (Or.inl ⟨by norm_num, hemp⟩)
            · exact promo_black b hsd hinv hbd f t 9 hf ht Bishop (by decide)
                (by decide) (by decide) hpb (Or.inl ⟨by norm_num, hemp⟩)
            · exact promo_black b hsd hinv hbd f t 10 hf ht Rook (by decide)
                (by decide) (by decide) hpb (Or.inl ⟨by norm_num, hemp⟩)
            · exact promo_black b hsd hinv hbd f t 11 hf ht Queen (by decide)
                (by decide) (by decide) hpb (Or.inl ⟨by norm_num, hemp⟩)
          · rw [h1]
            exact simple_black b hsd hinv hbd 0 f t Move.DOUBLE_PAWN_PUSH hf ht
              hpb (fun h => absurd h.1 (by decide))
              (fun _ => ⟨by omega, by omega⟩) (Or.inl ⟨Or.inr rfl, hemp⟩)
          · have hfint := pawn_interior_b b hinv.2.2.2 f hf hpb
            have hwk5 : (b.white_pieces 5).testBit t = false := by
              rw [h1, mto_mk f t Move.CAPTURE hf ht (by decide), hsd] at hkt
              exact hkt
            rw [h1]
            exact simple_black b hsd hinv hbd 0 f t Move.CAPTURE hf ht hpb
              (fun h => absurd h.1 (by decide)) (fun _ => ⟨hrk, by omega⟩)
              (Or.inr ⟨rfl, hen, hwk5⟩)
          · have hfl16 : fl < 16 := by
              rcases hflv with rfl | rfl | rfl | rfl <;> norm_num
            have hwk5 : (b.white_pieces 5).testBit t = false := by
              rw [h1, mto_mk f t fl hf ht hfl16, hsd] at hkt
              exact hkt
            rw [h1]
            rcases hflv with rfl | rfl | rfl | rfl
            · exact promo_black b hsd hinv hbd f t 12 hf ht Knight (by decide)
                (by decide) (by decide) hpb (Or.inr ⟨by norm_num, hen, hwk5⟩)
            · exact promo_black b hsd hinv hbd f t 13 hf ht Bishop (by decide)
                (by decide) (by decide) hpb (Or.inr ⟨by norm_num, hen, hwk5⟩)
            · exact promo_black b hsd hinv hbd f t 14 hf ht Rook (by decide)
                (by decide) (by decide) hpb (Or.inr ⟨by norm_num, hen, hwk5⟩)
            · exact promo_black b hsd hinv hbd f t 15 hf ht Queen (by decide)
                (by decide) (by decide) hpb (Or.inr ⟨by norm_num, hen, hwk5⟩)
          · have hepf := hep
            unfold epOk at hepf
            rw [hepq] at hepf
            dsimp only at hepf
            simp only [Bool.and_eq_true, Bool.not_eq_true', decide_eq_true_eq]
              at hepf
            obtain ⟨⟨hemp', hlo⟩, hhi⟩ := hepf
            rw [get_bit_eq] at hemp'
            rw [h1]
            exact ep_black b hsd hinv hbd f t hf hlo hhi hpb hemp'
      · -- knight moves
        unfold knight_moves at hmN
        dsimp only at hmN
        cases hsd : b.side_to_move with
        | White =>
          rw [hsd] at hmN
          simp only [reduceIte] at hmN
          obtain ⟨f, t, hf, ht, hPb, hraw, hFt, hqc⟩ :=
            mem_step_moves_facts (b.white_pieces 1) b.black_occupancy
              b.white_occupancy generate_knight_attacks (hbd.1 1) hwob m hmN
          rcases hqc with ⟨h1, hEt⟩ | ⟨h1, hEt⟩
          · rw [h1]
            exact simple_white b hsd hinv hbd 1 f t Move.QUIET hf ht hPb
              (fun h => absurd h.1 (by decide)) (fun h => absurd h (by decide))
              (Or.inl ⟨Or.inl rfl, all_empty_of b hocc t hFt hEt⟩)
          · have hbk5 : (b.black_pieces 5).testBit t = false := by
              rw [h1, mto_mk f t Move.CAPTURE hf ht (by decide), hsd] at hkt
              exact hkt
            rw [h1]
            exact simple_white b hsd hinv hbd 1 f t Move.CAPTURE hf ht hPb
              (fun h => absurd h.1 (by decide)) (fun h => absurd h (by decide))
              (Or.inr ⟨rfl, hEt, hbk5⟩)
        | Black =>
          rw [hsd] at hmN
          simp only [if_neg (show ¬(Color.Black = Color.White) by decide)] at hmN
          obtain ⟨f, t, hf, ht, hPb, hraw, hFt, hqc⟩ :=
            mem_step_moves_facts (b.black_pieces 1) b.white_occupancy
              b.black_occupancy generate_knight_attacks (hbd.2 1) hbob m hmN
          rcases hqc with ⟨h1, hEt⟩ | ⟨h1, hEt⟩
          · rw [h1]
            exact simple_black b hsd hinv hbd 1 f t Move.QUIET hf ht hPb
              (fun h => absurd h.1 (by decide)) (fun h => absurd h (by decide))
              (Or.inl ⟨Or.inl rfl, all_empty_of b hocc t hEt hFt⟩)
          · have hwk5 : (b.white_pieces 5).testBit t = false := by
              rw [h1, mto_mk f t Move.CAPTURE hf ht (by decide), hsd] at hkt
              exact hkt
            rw [h1]
            exact simple_black b hsd hinv hbd 1 f t Move.CAPTURE hf ht hPb
              (fun h => absurd h.1 (by decide)) (fun h => absurd h (by decide))
              (Or.inr ⟨rfl, hEt, hwk5⟩)
    · -- king moves
      unfold king_moves at hmK
      dsimp only at hmK
      cases hsd : b.side_to_move with
      | White =>
        rw [hsd] at hmK
        simp only [reduceIte] at hmK
        rw [show decide True = true from rfl] at hmK
        cases hlsb : lsb_index (b.white_pieces 5) with
        | none => rw [hlsb] at hmK; simp at hmK
        | some f0 =>
          rw [hlsb] at hmK
          have hf0 : f0 < 64 := lsb_index_lt _ _ (hbd.1 5) hlsb
          have hkb : (b.white_pieces 5).testBit f0 = true :=
            lsb_index_testBit _ _ hlsb
          rcases List.mem_append.mp hmK with hmKs | hmKc
          · obtain ⟨t, ht, hraw, hFt, hqc⟩ :=
              mem_map_step_facts f0 b.black_occupancy b.white_occupancy
                (generate_king_attacks f0) hwob m hmKs
            have hnc : ¬((5 : Fin 6) = King ∧ ((f0 : ℤ) - (t : ℤ)).natAbs = 2) :=
              fun h => king_attack_not2 f0 t hraw h.2
            rcases hqc with ⟨h1, hEt⟩ | ⟨h1, hEt⟩
            · rw [h1]
              exact simple_white b hsd hinv hbd 5 f0 t Move.QUIET hf0 ht hkb
                hnc (fun h => absurd h (by decide))
                (Or.inl ⟨Or.inl rfl, all_empty_of b hocc t hFt hEt⟩)
            · have hbk5 : (b.black_pieces 5).testBit t = false := by
                rw [h1, mto_mk f0 t Move.CAPTURE hf0 ht (by decide), hsd] at hkt
                exact hkt
              rw [h1]
              exact simple_white b hsd hinv hbd 5 f0 t Move.CAPTURE hf0 ht hkb
                hnc (fun h => absurd h (by decide)) (Or.inr ⟨rfl, hEt, hbk5⟩)
          · rw [castling_moves_white] at hmKc
            split at hmKc
            · simp at hmKc
            · next hne0 =>
              have hf04 : f0 = 4 := by omega
              subst hf04
              rcases List.mem_append.mp hmKc with hcK | hcQ
              · split at hcK
                · next hcond =>
                  simp only [List.mem_singleton] at hcK
                  simp only [Bool.not_eq_true] at hcond
                  obtain ⟨-, h5e, h6e, -, -, -⟩ := hcond
                  rw [get_bit_eq] at h5e h6e
                  rw [hcK]
                  exact castle_white_k b hsd hinv hbd hkb h5e h6e
                · simp at hcK
              · split at hcQ
                · next hcond =>
                  simp only [List.mem_singleton] at hcQ
                  simp only [Bool.not_eq_true] at hcond
                  obtain ⟨-, h3e, h2e, -, -, -, -⟩ := hcond
                  rw [get_bit_eq] at h3e h2e
                  rw [hcQ]
                  exact castle_white_q b hsd hinv hbd hkb h3e h2e
                · simp at hcQ
      | Black =>
        rw [hsd] at hmK
        simp only [if_neg (show ¬(Color.Black = Color.White) by decide)] at hmK
        rw [show decide ((Color.Black : Color) = Color.White) = false
          from by decide] at hmK
        cases hlsb : lsb_index (b.black_pieces 5) with
        | none => rw [hlsb] at hmK; simp at hmK
        | some f0 =>
          rw [hlsb] at hmK
          have hf0 : f0 < 64 := lsb_index_lt _ _ (hbd.2 5) hlsb
          have hkb : (b.black_pieces 5).testBit f0 = true :=
            lsb_index_testBit _ _ hlsb
          rcases List.mem_append.mp hmK with hmKs | hmKc
          · obtain ⟨t, ht, hraw, hFt, hqc⟩ :=
              mem_map_step_facts f0 b.white_occupancy b.black_occupancy
                (generate_king_attacks f0) hbob m hmKs
            have hnc : ¬((5 : Fin 6) = King ∧ ((f0 : ℤ) - (t : ℤ)).natAbs = 2) :=
              fun h => king_attack_not2 f0 t hraw h.2
            rcases hqc with ⟨h1, hEt⟩ | ⟨h1, hEt⟩
            · rw [h1]
              exact simple_black b hsd hinv hbd 5 f0 t Move.QUIET hf0 ht hkb
                hnc (fun h => absurd h (by decide))
                (Or.inl ⟨Or.inl rfl, all_empty_of b hocc t hEt hFt⟩)
            · have hwk5 : (b.white_pieces 5).testBit t = false := by
                rw [h1, mto_mk f0 t Move.CAPTURE hf0 ht (by decide), hsd] at hkt
                exact hkt
              rw [h1]
              exact simple_black b hsd hinv hbd 5 f0 t Move.CAPTURE hf0 ht hkb
                hnc (fun h => absurd h (by decide)) (Or.inr ⟨rfl, hEt, hwk5⟩)
          · rw [castling_moves_black] at hmKc
            split at hmKc
            · simp at hmKc
            · next hne0 =>
              have hf04 : f0 = 60 := by omega
              subst hf04
              rcases List.mem_append.mp hmKc with hcK | hcQ
              · split at hcK
                · next hcond =>
                  simp only [List.mem_singleton] at hcK
                  simp only [Bool.not_eq_true] at hcond
                  obtain ⟨-, h61e, h62e, -, -, -⟩ := hcond
                  rw [get_bit_eq] at h61e h62e
                  rw [hcK]
                  exact castle_black_k b hsd hinv hbd hkb h61e h62e
                · simp at hcK
              · split at hcQ
                · next hcond =>
                  simp only [List.mem_singleton] at hcQ
                  simp only [Bool.not_eq_true] at hcond
                  obtain ⟨-, h59e, h58e, -, -, -, -⟩ := hcond
                  rw [get_bit_eq] at h59e h58e
                  rw [hcQ]
                  exact castle_black_q b hsd hinv hbd hkb h59e h58e
                · simp at hcQ
  · -- slider moves
    unfold slider_moves at hmS
    have hslider : ∀ (pt : Fin 6), pt ≠ 0 → pt ≠ 5 →
        ∀ isr isb2, m ∈ slider_moves_for b pt isr isb2 →
        ∃ b', make_move b m = some b' ∧ invariants b' := by
      intro pt hpt0 hpt5 isr isb2 hmX
      unfold slider_moves_for at hmX
      dsimp only at hmX
      cases hsd : b.side_to_move with
      | White =>
        rw [hsd] at hmX
        simp only [reduceIte] at hmX
        obtain ⟨f, t, hf, ht, hPb, hraw, hFt, hqc⟩ :=
          mem_step_moves_facts (b.white_pieces pt) b.black_occupancy
            b.white_occupancy _ (hbd.1 pt) hwob m hmX
        rcases hqc with ⟨h1, hEt⟩ | ⟨h1, hEt⟩
        · rw [h1]
          exact simple_white b hsd hinv hbd pt f t Move.QUIET hf ht hPb
            (fun h => absurd h.1 hpt5) (fun h => absurd h hpt0)
            (Or.inl ⟨Or.inl rfl, all_empty_of b hocc t hFt hEt⟩)
        · have hbk5 : (b.black_pieces 5).testBit t = false := by
            rw [h1, mto_mk f t Move.CAPTURE hf ht (by decide), hsd] at hkt
            exact hkt
          rw [h1]
          exact simple_white b hsd hinv hbd pt f t Move.CAPTURE hf ht hPb
            (fun h => absurd h.1 hpt5) (fun h => absurd h hpt0)
            (Or.inr ⟨rfl, hEt, hbk5⟩)
      | Black =>
        rw [hsd] at hmX
        simp only [if_neg (show ¬(Color.Black = Color.White) by decide)] at hmX
        obtain ⟨f, t, hf, ht, hPb, hraw, hFt, hqc⟩ :=
          mem_step_moves_facts (b.black_pieces pt) b.white_occupancy
            b.black_occupancy _ (hbd.2 pt) hbob m hmX
        rcases hqc with ⟨h1, hEt⟩ | ⟨h1, hEt⟩
        · rw [h1]
          exact simple_black b hsd hinv hbd pt f t Move.QUIET hf ht hPb
            (fun h => absurd h.1 hpt5) (fun h => absurd h hpt0)
            (Or.inl ⟨Or.inl rfl, all_empty_of b hocc t hEt hFt⟩)
        · have hwk5 : (b.white_pieces 5).testBit t = false := by
            rw [h1, mto_mk f t Move.CAPTURE hf ht (by decide), hsd] at hkt
            exact hkt
          rw [h1]
          exact simple_black b hsd hinv hbd pt f t Move.CAPTURE hf ht hPb
            (fun h => absurd h.1 hpt5) (fun h => absurd h hpt0)
            (Or.inr ⟨rfl, hEt, hwk5⟩)
    rcases List.mem_append.mp hmS with hm4 | hmQ
    · rcases List.mem_append.mp hm4 with hmR | hmB
      · exact hslider Rook (by decide) (by decide) true false hmR
      · exact hslider Bishop (by decide) (by decide) false true hmB
    · exact hslider Queen (by decide) (by decide) true true hmQ

end Ananke

namespace Ananke

instance (b : Board) : Decidable (occupanciesOk b) := by
  unfold occupanciesOk
  infer_instance

instance (b : Board) : Decidable (disjointPieces b) := by
  unfold disjointPieces
  infer_instance

instance (b : Board) : Decidable (oneKingEach b) := by
  unfold oneKingEach
  infer_instance

instance (b : Board) : Decidable (pawnsOffBackRanks b) := by
  unfold pawnsOffBackRanks
  infer_instance

instance (b : Board) : Decidable (invariants b) := by
  unfold invariants
  infer_instance

instance (b : Board) : Decidable (piecesBounded b) := by
  unfold piecesBounded
  infer_instance

/-- White Ra1 and Kh1 against the lone black king on a8, White to move: a
position satisfying all four spec invariants. -/
def kingCapBoard : Board where
  white_pieces := fun i => if i = 3 then 1 <<< 0 else if i = 5 then 1 <<< 7 else 0
  black_pieces := fun i => if i = 5 then 1 <<< 56 else 0
  white_occupancy := (1 <<< 0) ||| (1 <<< 7)
  black_occupancy := 1 <<< 56
  all_occupancy := ((1 <<< 0) ||| (1 <<< 7)) ||| (1 <<< 56)
  side_to_move := Color.White
  castling_rights := 0
  en_passant_sq := none
  halfmove_clock := 0

/-- The pseudo-legal generator emits the rook capture a1xa8 of the black
king, and applying it produces a position with no black king at all: the
invariants are not preserved for every generated move. -/
theorem make_move_captures_king :
    invariants kingCapBoard ∧ epOk kingCapBoard = true ∧
    mkMove 0 56 Move.CAPTURE ∈ generate_all kingCapBoard ∧
    (make_move kingCapBoard (mkMove 0 56 Move.CAPTURE)).map
      (fun b' => count (b'.black_pieces 5)) = some 0 := by
  decide

/-- Both kings on their home squares and nothing else. -/
def c4Board : Board where
  white_pieces := fun i => if i = 5 then 1 <<< 4 else 0
  black_pieces := fun i => if i = 5 then 1 <<< 60 else 0
  white_occupancy := 1 <<< 4
  black_occupancy := 1 <<< 60
  all_occupancy := (1 <<< 4) ||| (1 <<< 60)
  side_to_move := Color.White
  castling_rights := 0
  en_passant_sq := none
  halfmove_clock := 0

/-- Witness for the amended claim at a concrete position and move
(Ke1-d1). -/
theorem make_move_invariants_witness :
    invariants c4Board ∧ epOk c4Board = true ∧
    mkMove 4 3 Move.QUIET ∈ generate_all c4Board ∧
    (∃ b', make_move c4Board (mkMove 4 3 Move.QUIET) = some b' ∧
      invariants b') :=
  ⟨by decide, by decide, by decide,
    make_move_invariants c4Board (by decide) (by decide) (by decide)
      (mkMove 4 3 Move.QUIET) (by decide) (by decide)⟩

end Ananke
